import Mathlib

/-!
Shallow embedding of the `threshold-secret-sharing` Rust library
(`src/numtheory/*`, `src/fields/*`, `src/shamir.rs`, `src/packed/mod.rs`)
together with proofs about the embedded functions.

Conventions used throughout:

* Rust `i64` values are modelled as `Int`; Rust's `/` and `%` on signed
  integers truncate towards zero, so they are rendered as `Int.tdiv` /
  `Int.tmod`.  Where a multiplication can overflow an `i64` for inputs in
  the range a claim quantifies over, the wrap-around of release builds is
  made explicit through `wrap64`.
* Rust `u32` / `u64` values are modelled as `ℕ`; `wrapping_mul`, wrapping
  additions and integer casts are rendered as explicit `% 2^32` / `% 2^64`
  operations exactly where the source performs a fixed-width operation.
* The generic field code (`Field` trait users: fft, interpolation, shamir,
  packed) is embedded over an arbitrary Lean `Field F`, instantiated with
  `ZMod p` in the final statements; buffers (`Vec<F::E>`) become `List F`
  and in-place writes become `List.set`.
-/

namespace TSS

/-! ### numtheory/euclid.rs and numtheory/mod.rs: integer helpers -/

/-- Recursion of `gcd` from `numtheory/euclid.rs`, made structural on a fuel
argument so that concrete runs reduce in the kernel.  The fuel strictly
dominates the depth of the Euclidean recursion (`|tmod a b| < |b|`), so the
`0` case is unreachable from the wrapper; `gcd_rec` below recovers the
source's recurrence. -/
def gcdAux : ℕ → Int → Int → Int × Int × Int
  | 0, a, _b => (a, 1, 0)
  | fuel + 1, a, b =>
    if b = 0 then (a, 1, 0)
    else
      let n := Int.tdiv a b
      let c := Int.tmod a b
      let r := gcdAux fuel b c
      (r.1, r.2.2, r.2.1 - r.2.2 * n)

/-- `gcd` from `numtheory/euclid.rs` (identical copy in `numtheory/mod.rs`):
recursive extended Euclidean algorithm returning `(g, s, t)`. -/
def gcd (a b : Int) : Int × Int × Int := gcdAux (b.natAbs + 1) a b

/-- `mod_inverse` from `numtheory/euclid.rs` / `numtheory/mod.rs`. -/
def mod_inverse (k prime : Int) : Int :=
  let k2 := Int.tmod k prime
  let r := if k2 < 0 then -(gcd prime (-k2)).2.2 else (gcd prime k2).2.2
  Int.tmod (prime + r) prime

/-- Two's-complement wrap-around of an unbounded integer into `i64`,
modelling release-build overflow of Rust `i64` arithmetic. -/
def wrap64 (z : Int) : Int := (z + 2 ^ 63) % 2 ^ 64 - 2 ^ 63

/-- Loop of `mod_pow` from `numtheory/mod.rs` / `numtheory/basic.rs`:
`while e > 0 { if e odd { acc = (acc*x) % prime }; x = (x*x) % prime; e >>= 1 }`.
The `i64` products are wrapped explicitly.  Fuelled structurally (the fuel
dominates the halving loop's iteration count, see `modPowAux_congr`). -/
def modPowAux : ℕ → Int → ℕ → Int → Int → Int
  | 0, _x, _e, _prime, acc => acc
  | fuel + 1, x, e, prime, acc =>
    if e = 0 then acc
    else
      let acc' := if e % 2 = 0 then acc else Int.tmod (wrap64 (acc * x)) prime
      modPowAux fuel (Int.tmod (wrap64 (x * x)) prime) (e / 2) prime acc'

/-- `mod_pow` from `numtheory/mod.rs` / `numtheory/basic.rs` (square and
multiply, right-to-left bit scan, `u32` exponent). -/
def mod_pow (x : Int) (e : ℕ) (prime : Int) : Int := modPowAux (e + 1) x e prime 1

/-- First loop of `binary_egcd`: halve both numbers while both are even,
counting the power of two removed.  Fuelled: the source loop terminates on
all inputs reaching it, but a fuel argument keeps the recursion structural;
the wrapper passes fuel dominating the iteration count for the nonnegative
inputs the specification is about. -/
def binaryEgcdLoop1 : ℕ → Int → Int → ℕ → Int × Int × ℕ
  | 0, a, b, r => (a, b, r)
  | fuel + 1, a, b, r =>
    if (a.natAbs ||| b.natAbs) &&& 1 = 0 then
      binaryEgcdLoop1 fuel (Int.fdiv a 2) (Int.fdiv b 2) (r + 1)
    else (a, b, r)

/-- Second loop of `binary_egcd`: remove factors of two from `a`, fixing up
the Bézout pair `(u, v)`.  `>> 1` on `i64` is an arithmetic shift, i.e.
`Int.fdiv · 2`. -/
def binaryEgcdLoop2 : ℕ → Int → Int → Int → Int → Int → Int × Int × Int
  | 0, a, u, v, _alpha, _beta => (a, u, v)
  | fuel + 1, a, u, v, alpha, beta =>
    if a.natAbs &&& 1 = 0 then
      if (u.natAbs ||| v.natAbs) &&& 1 = 0 then
        binaryEgcdLoop2 fuel (Int.fdiv a 2) (Int.fdiv u 2) (Int.fdiv v 2) alpha beta
      else
        binaryEgcdLoop2 fuel (Int.fdiv a 2) (Int.fdiv (u + beta) 2) (Int.fdiv (v - alpha) 2)
          alpha beta
    else (a, u, v)

/-- Third loop of `binary_egcd` (`while a != b`), including the source's
swap block `a = b; b = a; u = s; v = t; s = u; t = v;` rendered exactly as
the sequential assignments execute. -/
def binaryEgcdLoop3 : ℕ → Int → Int → Int → Int → Int → Int → Int → Int →
    Int × Int × Int × Int
  | 0, a, b, _u, _v, s, t, _alpha, _beta => (a, b, s, t)
  | fuel + 1, a, b, u, v, s, t, alpha, beta =>
    if a ≠ b then
      if b.natAbs &&& 1 = 0 then
        if (s.natAbs ||| t.natAbs) &&& 1 = 0 then
          binaryEgcdLoop3 fuel a (Int.fdiv b 2) u v (Int.fdiv s 2) (Int.fdiv t 2) alpha beta
        else
          binaryEgcdLoop3 fuel a (Int.fdiv b 2) u v (Int.fdiv (s + beta) 2)
            (Int.fdiv (t - alpha) 2) alpha beta
      else if b < a then
        -- `a = b; b = a;` leaves both equal to the old `b`; likewise the
        -- (u,v,s,t) assignments keep `s`, `t` and copy them into `u`, `v`.
        binaryEgcdLoop3 fuel b b s t s t alpha beta
      else
        binaryEgcdLoop3 fuel a (b - a) u v (s - u) (t - v) alpha beta
    else (a, b, s, t)

/-- `binary_egcd` from `numtheory/euclid.rs` (identical copy in
`numtheory/mod.rs`). -/
def binary_egcd (a₀ b₀ : Int) : Int × Int × Int :=
  if a₀ = 0 then (b₀, 0, 1)
  else if b₀ = 0 then (a₀, 1, 0)
  else
    let fuel := a₀.natAbs + b₀.natAbs + 128
    let (a₁, b₁, r) := binaryEgcdLoop1 fuel a₀ b₀ 0
    let alpha := a₁
    let beta := b₁
    let (a₂, u, v) := binaryEgcdLoop2 fuel a₁ 1 0 alpha beta
    let (a₃, _b₃, s, t) := binaryEgcdLoop3 fuel a₂ b₁ u v 0 1 alpha beta
    (a₃ * 2 ^ r, s, t)

/-- `positivise` from `numtheory/mod.rs`. -/
def positivise (values : List Int) (n : Int) : List Int :=
  values.map (fun value => if value < 0 then value + n else value)

/-! ### fields/natural.rs: the naive backend (`NaturalPrimeField<i64>`).
Only the operations the claims are about are embedded; the element type is
`Int`, matching `type E = i64`. -/

/-- `NaturalPrimeField::pow`. -/
def naturalPow (p a : Int) (e : ℕ) : Int := mod_pow a e p

/-- `NaturalPrimeField::inv`. -/
def naturalInv (p a : Int) : Int := mod_inverse a p

/-- `NaturalPrimeField::eq`. -/
def naturalEq (p lhs rhs : Int) : Bool := Int.tmod lhs p == Int.tmod rhs p

/-! ### fields/montgomery.rs: the 32-bit Montgomery backend.
`Value(u32)` representations are modelled as `ℕ`; every fixed-width cast or
wrapping operation of the source appears as an explicit `% 2^32`/`% 2^64`. -/

/-- Truncating cast `i64 -> u32` (low 32 bits of the two's complement). -/
def intToU32 (z : Int) : ℕ := (z % 2 ^ 32).toNat

/-- Reinterpreting cast `i64 -> u64` (two's complement bits). -/
def intToU64 (z : Int) : ℕ := (z % 2 ^ 64).toNat

/-- The `MontgomeryField32` struct. -/
structure MontgomeryField32 where
  n : ℕ
  n_quote : ℕ
  r_inv : ℕ
  r_cube : ℕ

/-- `MontgomeryField32::redc`.  `a` is a `u64`; `m` is the wrapping product
of the low half with `n_quote`; the `u64` sum `a + m * n` wraps in release
builds, hence the explicit `% 2^64`. -/
def redc (f : MontgomeryField32) (a : ℕ) : ℕ :=
  let m : ℕ := ((a % 2 ^ 32) * f.n_quote) % 2 ^ 32
  let t : ℕ := ((a + m * f.n) % 2 ^ 64) / 2 ^ 32
  if f.n ≤ t then t - f.n else t

/-- `<MontgomeryField32 as New<u32>>::new`: precomputation of `r_inv`,
`n_quote` and `r_cube` from the prime.  (The source's `if tmp > 0` for
`n_quote` has identical branches, which the embedding keeps collapsed.) -/
def montNew (prime : ℕ) : MontgomeryField32 :=
  let r : ℕ := 2 ^ 32
  let tmp : Int := mod_inverse (r : Int) (prime : Int)
  let r_inv : ℕ := if tmp < 0 then intToU32 (tmp + prime) else intToU32 tmp
  let tmp2 : Int := mod_inverse (prime : Int) (r : Int)
  let n_quote : ℕ := intToU32 ((r : Int) - tmp2)
  let r_cube : Int := mod_pow (Int.tmod (r : Int) (prime : Int)) 3 (prime : Int)
  { n := prime, n_quote := n_quote, r_inv := r_inv, r_cube := intToU32 r_cube }

/-- `Encode<u32>::encode` for the Montgomery backend: `((a as u64) << 32) % n`. -/
def montEncode (f : MontgomeryField32) (a : ℕ) : ℕ := (a % 2 ^ 32) * 2 ^ 32 % f.n

/-- `Decode<u32>::decode`: `(a * r_inv) % n` over `u64`. -/
def montDecode (f : MontgomeryField32) (a : ℕ) : ℕ := a * f.r_inv % f.n

/-- `MontgomeryField32::zero`. -/
def montZero (f : MontgomeryField32) : ℕ := montEncode f 0

/-- `MontgomeryField32::one`. -/
def montOne (f : MontgomeryField32) : ℕ := montEncode f 1

/-- `MontgomeryField32::add`: the `u64` sum is reduced only when it is
*strictly greater* than `n`. -/
def montAdd (f : MontgomeryField32) (a b : ℕ) : ℕ :=
  let sum := a + b
  if f.n < sum then sum - f.n else sum

/-- `MontgomeryField32::sub`: compensates the borrow by adding `n` whenever
`a <= b` (including `a = b`). -/
def montSub (f : MontgomeryField32) (a b : ℕ) : ℕ :=
  if b < a then a - b else a + f.n - b

/-- `MontgomeryField32::mul`: `redc` of the wrapping `u64` product. -/
def montMul (f : MontgomeryField32) (a b : ℕ) : ℕ := redc f (a * b % 2 ^ 64)

/-- `MontgomeryField32::inv`: the modular inverse of the representation,
multiplied by `r_cube` through `redc`. -/
def montInv (f : MontgomeryField32) (a : ℕ) : ℕ :=
  redc f (intToU64 (mod_inverse (a : Int) (f.n : Int)) * f.r_cube % 2 ^ 64)

/-- `MontgomeryField32::eq`. -/
def montEq (f : MontgomeryField32) (lhs rhs : ℕ) : Bool := lhs % f.n == rhs % f.n

/-- Loop of `MontgomeryField32::pow` (square and multiply over `mul`),
fuelled structurally like `modPowAux`. -/
def montPowAux (f : MontgomeryField32) : ℕ → ℕ → ℕ → ℕ → ℕ
  | 0, _x, _e, acc => acc
  | fuel + 1, x, e, acc =>
    if e = 0 then acc
    else
      let acc' := if e % 2 = 0 then acc else montMul f acc x
      montPowAux f fuel (montMul f x x) (e / 2) acc'

/-- `MontgomeryField32::pow`. -/
def montPow (f : MontgomeryField32) (a : ℕ) (e : ℕ) : ℕ :=
  montPowAux f (e + 1) a e (montOne f)

/-- Proof-infrastructure helper (not part of the embedding): fuelled binary
exponentiation over `ℕ`, used to discharge the primality certificate of the
large counterexample prime by kernel computation. -/
def natPowModAux (p : ℕ) : ℕ → ℕ → ℕ → ℕ → ℕ
  | 0, _x, _e, acc => acc
  | fuel + 1, x, e, acc =>
    if e = 0 then acc
    else natPowModAux p fuel (x * x % p) (e / 2) (if e % 2 = 1 then acc * x % p else acc)

/-- Proof-infrastructure helper: `x ^ e mod p`. -/
def natPowMod (p x e : ℕ) : ℕ := natPowModAux p (e + 1) x e 1


/-! ### numtheory/fft.rs: in-place radix-2 and radix-3 FFTs.
The Rust code is generic over the `Field` trait; this layer of the embedding
models that trait by a mathematical field `F` (`zp.add`/`sub`/`mul` as ring
operations, `zp.inv` as `⁻¹` — which, like the backends, sends `0` to `0` —
`zp.pow` as monoid power, `zp.encode` of a length as `Nat.cast`).  Buffers
`&mut [F::E]` are `List F` values passed and returned; `usize`/`u32` loop
counters are `ℕ` (`isize` is `Int`).  Loops whose counter is not a simple
range are fuelled structurally with fuel strictly dominating the iteration
count. -/

/-- `data.swap(i, j)` on a list (no-op when an index is out of bounds,
which never happens in the modelled calls). -/
def listSwap (data : List α) (i j : ℕ) : List α :=
  match data[i]?, data[j]? with
  | some x, some y => (data.set i y).set j x
  | _, _ => data

/-- The inner `while target & mask != 0` loop of `fft2_in_place_rearrange`.
Since the loop body runs only when the `mask` bit of `target` is set, and
`mask` is always a power of two there, the source's `target &= !mask`
(clearing that bit) is `target ^^^ mask`, written this way because the
fixed-width complement `!mask` has no direct unbounded counterpart.
Returns the final `(target, mask)`. -/
def maskLoop : ℕ → ℕ → ℕ → ℕ × ℕ
  | 0, target, mask => (target, mask)
  | fuel + 1, target, mask =>
    if target &&& mask ≠ 0 then maskLoop fuel (target ^^^ mask) (mask / 2)
    else (target, mask)

/-- Body of the `for pos in 0..data.len()` loop of
`fft2_in_place_rearrange` (`n` is `data.len()`): conditional swap, then
the `target` update `mask = len >> 1; while ...; target |= mask`. -/
def fft2RearrangeStep (n : ℕ) (st : ℕ × List α) (pos : ℕ) : ℕ × List α :=
  let d := if pos < st.1 then listSwap st.2 st.1 pos else st.2
  let r := maskLoop (n / 2 + 1) st.1 (n / 2)
  (r.1 ||| r.2, d)

/-- `fft2_in_place_rearrange`: bit-reversal permutation by conditional
swaps, with `target` stepped through bit-reversed order. -/
def fft2_in_place_rearrange (data : List α) : List α :=
  ((List.range data.length).foldl (fft2RearrangeStep data.length) (0, data)).2

/-- One butterfly of `fft2_in_place_compute`:
`x = data[pair]; y = data[pair + step] * factor;
data[pair] = x + y; data[pair + step] = x - y`. -/
def butterfly2 [Field F] (data : List F) (pair step : ℕ) (factor : F) : List F :=
  let x := data.getD pair 0
  let y := data.getD (pair + step) 0 * factor
  (data.set pair (x + y)).set (pair + step) (x - y)

/-- The `while pair < data.len()` loop of `fft2_in_place_compute`. -/
def fft2PairLoop [Field F] : ℕ → ℕ → ℕ → ℕ → F → List F → List F
  | 0, _pair, _step, _jump, _factor, data => data
  | fuel + 1, pair, step, jump, factor, data =>
    if pair < data.length then
      fft2PairLoop fuel (pair + jump) step jump factor (butterfly2 data pair step factor)
    else data

/-- Body of the `for group in 0..step` loop of `fft2_in_place_compute`:
run the pair loop at this group's `factor`, then multiply `factor` by
`factor_stride` (`jump = 2 * step`). -/
def fft2GroupStep [Field F] (step : ℕ) (factor_stride : F) (st : F × List F)
    (group : ℕ) : F × List F :=
  (st.1 * factor_stride,
    fft2PairLoop (st.2.length + 1) group step (2 * step) st.1 st.2)

/-- One depth of `fft2_in_place_compute`, with `factor` starting at one. -/
def fft2Level [Field F] (data : List F) (omega : F) (step : ℕ) : List F :=
  ((List.range step).foldl
    (fft2GroupStep step (omega ^ (data.length / step / 2))) (1, data)).2

/-- The `while 1 << depth < data.len()` loop of `fft2_in_place_compute`. -/
def fft2ComputeLoop [Field F] : ℕ → ℕ → F → List F → List F
  | 0, _depth, _omega, data => data
  | fuel + 1, depth, omega, data =>
    if 2 ^ depth < data.length then
      fft2ComputeLoop fuel (depth + 1) omega (fft2Level data omega (2 ^ depth))
    else data

/-- `fft2_in_place_compute`. -/
def fft2_in_place_compute [Field F] (data : List F) (omega : F) : List F :=
  fft2ComputeLoop (data.length + 1) 0 omega data

/-- `fft2`. -/
def fft2 [Field F] (data : List F) (omega : F) : List F :=
  fft2_in_place_compute (fft2_in_place_rearrange data) omega

/-- `fft2_inverse`: forward FFT at `omega⁻¹` followed by scaling with the
inverse of the encoded length. -/
def fft2_inverse [Field F] (data : List F) (omega : F) : List F :=
  let omega_inv := omega⁻¹
  let len_inv := ((data.length : F))⁻¹
  (fft2 data omega_inv).map (fun x => x * len_inv)

/-- The `while value < n + 1` loop of `trigits_len`. -/
def trigitsLenLoop : ℕ → ℕ → ℕ → ℕ → ℕ
  | 0, result, _value, _n => result
  | fuel + 1, result, value, n =>
    if value < n + 1 then trigitsLenLoop fuel (result + 1) (value * 3) n
    else result

/-- `trigits_len`. -/
def trigits_len (n : ℕ) : ℕ := trigitsLenLoop (n + 2) 1 3 n

/-- The `for pow in 0..trigits_len` increment-with-break loop of
`fft3_in_place_rearrange`, acting on the little-endian base-3 counter
`trigits` and on `target`; returns the updated pair. -/
def trigitsInc : List ℕ → List Int → Int → List ℕ × Int
  | [], _, target => ([], target)
  | t :: ts, [], target => (t :: ts, target)
  | t :: ts, pw :: pws, target =>
    if t < 2 then ((t + 1) :: ts, target + pw)
    else
      let r := trigitsInc ts pws (target - 2 * pw)
      (0 :: r.1, r.2)

/-- Body of the `for pos in 0..data.len()` loop of
`fft3_in_place_rearrange`: conditional swap (`target as usize` is
`Int.toNat`), then the counter increment. -/
def fft3RearrangeStep (powers : List Int) (st : (List ℕ × Int) × List α)
    (pos : ℕ) : (List ℕ × Int) × List α :=
  let d := if pos < st.1.2.toNat then listSwap st.2 st.1.2.toNat pos else st.2
  (trigitsInc st.1.1 powers st.1.2, d)

/-- `fft3_in_place_rearrange`: base-3 digit-reversal permutation by
conditional swaps.  `powers` is `(0..tl).map(|x| 3^x).rev()` as in the
source; `target` is an `isize`. -/
def fft3_in_place_rearrange (data : List α) : List α :=
  let tl := trigits_len (data.length - 1)
  let powers : List Int := ((List.range tl).map (fun x => (3 : Int) ^ x)).reverse
  ((List.range data.length).foldl (fft3RearrangeStep powers)
    ((List.replicate tl 0, 0), data)).2

/-- One butterfly of `fft3_in_place_compute` on positions
`pair`, `pair + step`, `pair + 2*step`. -/
def butterfly3 [Field F] (data : List F) (pair step : ℕ)
    (factor factor_sq big_omega big_omega_sq : F) : List F :=
  let x := data.getD pair 0
  let y := data.getD (pair + step) 0 * factor
  let z := data.getD (pair + 2 * step) 0 * factor_sq
  ((data.set pair (x + y + z)).set (pair + step)
      (x + big_omega * y + big_omega_sq * z)).set (pair + 2 * step)
    (x + big_omega_sq * y + big_omega * z)

/-- The `while pair < data.len()` loop of `fft3_in_place_compute`. -/
def fft3PairLoop [Field F] : ℕ → ℕ → ℕ → ℕ → F → F → F → F → List F → List F
  | 0, _pair, _step, _jump, _factor, _factor_sq, _bo, _bo2, data => data
  | fuel + 1, pair, step, jump, factor, factor_sq, bo, bo2, data =>
    if pair < data.length then
      fft3PairLoop fuel (pair + jump) step jump factor factor_sq bo bo2
        (butterfly3 data pair step factor factor_sq bo bo2)
    else data

/-- Body of the `for group in 0..step` loop of `fft3_in_place_compute`
(`jump = 3 * step`, `factor_sq` recomputed per group). -/
def fft3GroupStep [Field F] (step : ℕ) (factor_stride bo bo2 : F)
    (st : F × List F) (group : ℕ) : F × List F :=
  (st.1 * factor_stride,
    fft3PairLoop (st.2.length + 1) group step (3 * step) st.1 (st.1 * st.1)
      bo bo2 st.2)

/-- One step of `fft3_in_place_compute`: the `for group in 0..step` loop. -/
def fft3Level [Field F] (data : List F) (omega : F) (step : ℕ) (bo bo2 : F) : List F :=
  ((List.range step).foldl
    (fft3GroupStep step (omega ^ (data.length / step / 3)) bo bo2) (1, data)).2

/-- The `while step < data.len()` loop of `fft3_in_place_compute`. -/
def fft3ComputeLoop [Field F] : ℕ → ℕ → F → F → F → List F → List F
  | 0, _step, _omega, _bo, _bo2, data => data
  | fuel + 1, step, omega, bo, bo2, data =>
    if step < data.length then
      fft3ComputeLoop fuel (3 * step) omega bo bo2 (fft3Level data omega step bo bo2)
    else data

/-- `fft3_in_place_compute`: `big_omega = omega ^ (len / 3)` is global to
all steps. -/
def fft3_in_place_compute [Field F] (data : List F) (omega : F) : List F :=
  let bo := omega ^ (data.length / 3)
  let bo2 := bo * bo
  fft3ComputeLoop (data.length + 1) 1 omega bo bo2 data

/-- `fft3`. -/
def fft3 [Field F] (data : List F) (omega : F) : List F :=
  fft3_in_place_compute (fft3_in_place_rearrange data) omega

/-- `fft3_inverse`. -/
def fft3_inverse [Field F] (data : List F) (omega : F) : List F :=
  let omega_inv := omega⁻¹
  let len_inv := ((data.length : F))⁻¹
  (fft3 data omega_inv).map (fun x => x * len_inv)

/-! ### numtheory/mod.rs: polynomial evaluation and interpolation
(field-generic part). -/

/-- `mod_evaluate_polynomial` (Horner's rule over the reversed
coefficients). -/
def mod_evaluate_polynomial [Field F] (coefficients : List F) (point : F) : F :=
  coefficients.reverse.foldl (fun acc coef => acc * point + coef) 0

/-- Body of the `for j in 0..values.len()` loop of
`lagrange_interpolation_at_zero`, accumulating `(num, denum)`. -/
def lagrangeInnerStep [Field F] (points : List F) (xi : F) (i : ℕ)
    (nd : F × F) (j : ℕ) : F × F :=
  if j ≠ i then
    let xj := points.getD j 0
    (nd.1 * xj, nd.2 * (xj - xi))
  else nd

/-- Body of the `for i in 0..values.len()` loop of
`lagrange_interpolation_at_zero`. -/
def lagrangeOuterStep [Field F] (points values : List F) (acc : F) (i : ℕ) : F :=
  let xi := points.getD i 0
  let nd := (List.range values.length).foldl (lagrangeInnerStep points xi i) (1, 1)
  let coef := nd.1 * nd.2⁻¹
  acc + values.getD i 0 * coef

/-- `lagrange_interpolation_at_zero`.  Out-of-range reads never occur in
the modelled calls. -/
def lagrange_interpolation_at_zero [Field F] (points values : List F) : F :=
  (List.range values.length).foldl (lagrangeOuterStep points values) 0

/-- `NewtonPolynomial`. -/
structure NewtonPolynomial (F : Type) where
  points : List F
  coefficients : List F

/-- Body of the inner loop of `compute_newton_coefficients`, updating
`store[i]` from `store[i-1]` and `store[i]`. -/
def newtonStep [Field F] (points : List F) (store : List (ℕ × ℕ × F)) (i : ℕ) :
    List (ℕ × ℕ × F) :=
  let index_lower := (store.getD (i - 1) (0, 0, 0)).1
  let index_upper := (store.getD i (0, 0, 0)).2.1
  let point_lower := points.getD index_lower 0
  let point_upper := points.getD index_upper 0
  let point_diff := point_upper - point_lower
  let point_diff_inverse := point_diff⁻¹
  let coef_lower := (store.getD (i - 1) (0, 0, 0)).2.2
  let coef_upper := (store.getD i (0, 0, 0)).2.2
  let fraction := (coef_upper - coef_lower) * point_diff_inverse
  store.set i (index_lower, index_upper, fraction)

/-- The `for i in (j..store.len()).rev()` loop of
`compute_newton_coefficients`. -/
def newtonOuterStep [Field F] (points : List F) (st : List (ℕ × ℕ × F))
    (j : ℕ) : List (ℕ × ℕ × F) :=
  ((List.range' j (st.length - j)).reverse).foldl (newtonStep points) st

/-- `compute_newton_coefficients`: the divided-difference table, stored as
`(index_lower, index_upper, coef)` triples. -/
def compute_newton_coefficients [Field F] (points values : List F) : List F :=
  let store₀ : List (ℕ × ℕ × F) := values.enum.map (fun p => (p.1, p.1, p.2))
  let store := (List.range' 1 (store₀.length - 1)).foldl (newtonOuterStep points)
    store₀
  store.map (fun t => t.2.2)

/-- `newton_interpolation_general`. -/
def newton_interpolation_general [Field F] (points values : List F) :
    NewtonPolynomial F :=
  { points := points, coefficients := compute_newton_coefficients points values }

/-- `newton_evaluate`: builds the Newton basis values at `point`, then sums
`coef * basis` (the `zip` truncates at the shorter list, as in the
source).  `newtonPointsStep` is the body of its `for` loop. -/
def newtonPointsStep [Field F] (point : F) (pts : List F) (acc : List F)
    (i : ℕ) : List F :=
  acc ++ [acc.getD i 0 * (point - pts.getD i 0)]

/-- `newton_evaluate` (continued). -/
def newton_evaluate [Field F] (poly : NewtonPolynomial F) (point : F) : F :=
  let newton_points := (List.range (poly.points.length - 1)).foldl
    (newtonPointsStep point poly.points) [1]
  ((poly.coefficients.zip newton_points).map (fun p => p.1 * p.2)).foldl
    (fun a b => a + b) 0

/-! ### shamir.rs.
`sample_polynomial` draws `threshold` random coefficients from the OS RNG;
the embedding takes them as an explicit argument, and the claims quantify
over them.  `encode(i as u32)` of an index is `Nat.cast`; panicking
`assert!`s become hypotheses of the theorems. -/

/-- `ShamirSecretSharing` (the `field` member is the `Field` instance). -/
structure ShamirSecretSharing where
  threshold : ℕ
  share_count : ℕ

/-- `ShamirSecretSharing::reconstruct_limit`. -/
def shamirReconstructLimit (sss : ShamirSecretSharing) : ℕ := sss.threshold + 1

/-- `ShamirSecretSharing::evaluate_polynomial`: evaluation at the points
`1..share_count + 1`. -/
def shamirEvaluatePolynomial [Field F] (sss : ShamirSecretSharing)
    (coefficients : List F) : List F :=
  (List.range' 1 sss.share_count).map
    (fun (point : ℕ) => mod_evaluate_polynomial coefficients (Nat.cast point : F))

/-- `ShamirSecretSharing::share` with the sampled coefficients passed
explicitly: the polynomial is `[secret] ++ random_coefficients`. -/
def shamirShare [Field F] (sss : ShamirSecretSharing) (secret : F)
    (random_coefficients : List F) : List F :=
  shamirEvaluatePolynomial sss ([secret] ++ random_coefficients)

/-- `ShamirSecretSharing::reconstruct`: Lagrange interpolation at zero on
the points `index + 1`. -/
def shamirReconstruct [Field F] (sss : ShamirSecretSharing) (indices : List ℕ)
    (shares : List F) : F :=
  let points := indices.map (fun i => (Nat.cast i + 1 : F))
  lagrange_interpolation_at_zero points shares

/-! ### packed/mod.rs.
`share` samples `threshold` random field elements; the embedding takes
them as an explicit `randomness` argument (the claims quantify over it).
Share indices are `ℕ`. -/

/-- `PackedSecretSharing` (the `field` member is the `Field` instance). -/
structure PackedSecretSharing (F : Type) where
  threshold : ℕ
  share_count : ℕ
  secret_count : ℕ
  omega_secrets : F
  omega_shares : F

/-- `PackedSecretSharing::reconstruct_limit`. -/
def reconstruct_limit (pss : PackedSecretSharing F) : ℕ :=
  pss.threshold + pss.secret_count

/-- `PackedSecretSharing::recover_polynomial`: prepend the zero for point 1,
append the randomness, and run the backward radix-2 FFT. -/
def recover_polynomial [Field F] (pss : PackedSecretSharing F)
    (secrets randomness : List F) : List F :=
  fft2_inverse (([0] ++ secrets) ++ randomness) pss.omega_secrets

/-- `PackedSecretSharing::evaluate_polynomial`. -/
def evaluate_polynomial [Field F] (pss : PackedSecretSharing F)
    (coefficients : List F) : List F :=
  fft3 coefficients pss.omega_shares

/-- `PackedSecretSharing::share` (with `sample_polynomial`'s randomness
explicit): recover the polynomial, pad it with zeros to `share_count + 1`
coefficients, evaluate, and drop the leading share at point 1. -/
def share [Field F] (pss : PackedSecretSharing F)
    (secrets randomness : List F) : List F :=
  let poly := recover_polynomial pss secrets randomness
  let padded := poly ++ List.replicate (pss.share_count - reconstruct_limit pss) 0
  (evaluate_polynomial pss padded).drop 1

/-- `PackedSecretSharing::deterministic_share`. -/
def deterministic_share [Field F] (pss : PackedSecretSharing F)
    (secrets_and_randomness : List F) : List F :=
  let values := [0] ++ secrets_and_randomness
  let poly := fft2_inverse values pss.omega_secrets
  let padded := poly ++ List.replicate (pss.share_count - reconstruct_limit pss) 0
  (evaluate_polynomial pss padded).drop 1

/-- `PackedSecretSharing::reconstruct`: the FFT fast path when all
`share_count` shares are given, Newton interpolation at the points
`omega_shares ^ (index + 1)` (with `(1, 0)` prepended) otherwise, keeping
values at `omega_secrets ^ e` for `e` in `1..reconstruct_limit`, truncated
to `secret_count`. -/
def reconstruct [Field F] (pss : PackedSecretSharing F) (indices : List ℕ)
    (shares : List F) : List F :=
  if shares.length = pss.share_count then
    let values := [0] ++ shares
    let coefficients := (fft3_inverse values pss.omega_shares).take
      (reconstruct_limit pss + 1)
    ((fft2 coefficients pss.omega_secrets).drop 1).take pss.secret_count
  else
    let points := [1] ++ indices.map (fun x => pss.omega_shares ^ (x + 1))
    let values := [0] ++ shares
    let poly := newton_interpolation_general points values
    (((List.range' 1 (reconstruct_limit pss - 1)).map
        (fun e => pss.omega_secrets ^ e)).map
      (fun point => newton_evaluate poly point)).take pss.secret_count

/-- `PackedSecretSharing::fully_reconstruct`: same as `reconstruct` but
without the final `take secret_count` (fast path: only the leading zero is
removed). -/
def fully_reconstruct [Field F] (pss : PackedSecretSharing F) (indices : List ℕ)
    (shares : List F) : List F :=
  if shares.length = pss.share_count then
    let values := [0] ++ shares
    let coefficients := (fft3_inverse values pss.omega_shares).take
      (reconstruct_limit pss + 1)
    (fft2 coefficients pss.omega_secrets).drop 1
  else
    let points := [1] ++ indices.map (fun x => pss.omega_shares ^ (x + 1))
    let values := [0] ++ shares
    let poly := newton_interpolation_general points values
    ((List.range' 1 (reconstruct_limit pss - 1)).map
        (fun e => pss.omega_secrets ^ e)).map
      (fun point => newton_evaluate poly point)

/-! ### Proof-infrastructure functions (not part of the embedding). -/

/-- Base-`B` reversal of the low `ℓ` digits. -/
def baseRev (B : ℕ) : ℕ → ℕ → ℕ
  | 0, _ => 0
  | ℓ + 1, i => baseRev B ℓ (i / B) + i % B * B ^ ℓ

/-- `Z_433` is a prime field (the field of the `PSS_4_8_3` preset). -/
instance fact_prime_433 : Fact (Nat.Prime 433) := ⟨by norm_num⟩

/-- The `PSS_4_8_3` preset of `packed/mod.rs`: 3 secrets, 8 shares,
threshold 4, over `Z_433` with `omega_secrets = 354`, `omega_shares = 150`. -/
def PSS_4_8_3 : PackedSecretSharing (ZMod 433) := ⟨4, 8, 3, 354, 150⟩

/-! ## Theorems -/

/-! ### Facts about the extended Euclidean algorithm -/

theorem natAbs_tmod (a b : Int) : (Int.tmod a b).natAbs = a.natAbs % b.natAbs := by
  rcases a with m | m <;> rcases b with n | n <;>
    simp only [Int.tmod, Int.natAbs_neg, Int.natAbs_ofNat] <;> norm_cast

theorem natAbs_tmod_lt (a : Int) {b : Int} (hb : b ≠ 0) :
    (Int.tmod a b).natAbs < b.natAbs := by
  rw [natAbs_tmod]
  exact Nat.mod_lt _ (Int.natAbs_pos.mpr hb)

theorem gcdAux_congr : ∀ (f₁ : ℕ) {f₂ : ℕ} {a b : Int},
    b.natAbs < f₁ → b.natAbs < f₂ → gcdAux f₁ a b = gcdAux f₂ a b := by
  intro f₁
  induction f₁ with
  | zero => intro f₂ a b h₁ _; exact absurd h₁ (Nat.not_lt_zero _)
  | succ f₁ ih =>
    intro f₂ a b h₁ h₂
    obtain ⟨f₂', rfl⟩ : ∃ f₂', f₂ = f₂' + 1 := ⟨f₂ - 1, by omega⟩
    by_cases hb : b = 0
    · simp [gcdAux, hb]
    · have hc : (Int.tmod a b).natAbs < b.natAbs := natAbs_tmod_lt a hb
      have hrec := @ih f₂' b (Int.tmod a b)
        (by omega) (by omega)
      simp [gcdAux, hb, hrec]

/-- The recurrence the source `gcd` satisfies. -/
theorem gcd_rec (a b : Int) : TSS.gcd a b =
    if b = 0 then (a, 1, 0)
    else
      let r := TSS.gcd b (Int.tmod a b)
      (r.1, r.2.2, r.2.1 - r.2.2 * Int.tdiv a b) := by
  by_cases hb : b = 0
  · simp [TSS.gcd, gcdAux, hb]
  · have h : gcdAux b.natAbs b (Int.tmod a b) = TSS.gcd b (Int.tmod a b) :=
      gcdAux_congr b.natAbs (natAbs_tmod_lt a hb) (Nat.lt_succ_self _)
    show gcdAux (b.natAbs + 1) a b = _
    simp only [gcdAux, if_neg hb]
    rw [h]

theorem gcd_tmod (a b : Int) : Int.gcd b (Int.tmod a b) = Int.gcd a b := by
  simp only [Int.gcd, natAbs_tmod]
  rw [Nat.gcd_comm, Nat.gcd_comm a.natAbs b.natAbs]
  exact (Nat.gcd_rec _ _).symm

theorem gcd_spec : ∀ (n : ℕ) (a b : Int), b.natAbs ≤ n → 0 ≤ a → 0 ≤ b →
    ((TSS.gcd a b).1 = Int.gcd a b) ∧
    ((TSS.gcd a b).2.1 * a + (TSS.gcd a b).2.2 * b = (TSS.gcd a b).1) := by
  intro n
  induction n with
  | zero =>
    intro a b hn ha hb
    have hb0 : b = 0 := by omega
    subst hb0
    rw [gcd_rec]
    simp [Int.gcd, Int.natAbs_of_nonneg ha]
  | succ n ih =>
    intro a b hn ha hb
    by_cases hb0 : b = 0
    · subst hb0
      rw [gcd_rec]
      simp [Int.gcd, Int.natAbs_of_nonneg ha]
    · have hc : (Int.tmod a b).natAbs < b.natAbs := natAbs_tmod_lt a hb0
      have hcnn : 0 ≤ Int.tmod a b := Int.tmod_nonneg b ha
      obtain ⟨hg, hbez⟩ := ih b (Int.tmod a b) (by omega) hb hcnn
      rw [gcd_rec, if_neg hb0]
      refine ⟨?_, ?_⟩
      · simp only
        rw [hg, gcd_tmod]
      · have hmod : b * Int.tdiv a b + Int.tmod a b = a := Int.tdiv_add_tmod a b
        simp only
        linear_combination hbez - (TSS.gcd b (Int.tmod a b)).2.2 * hmod

theorem gcd_bounds : ∀ (n : ℕ) (a b : Int), b.natAbs ≤ n → 0 ≤ a → 0 ≤ b →
    |(TSS.gcd a b).2.1| ≤ max 1 b ∧ |(TSS.gcd a b).2.2| ≤ max 1 a := by
  intro n
  induction n with
  | zero =>
    intro a b hn _ hb
    have hb0 : b = 0 := by omega
    subst hb0
    rw [gcd_rec]
    simp
  | succ n ih =>
    intro a b hn ha hb
    by_cases hb0 : b = 0
    · subst hb0; rw [gcd_rec]; simp
    · have hbpos : 0 < b := lt_of_le_of_ne hb (Ne.symm hb0)
      have hclt : (Int.tmod a b).natAbs < b.natAbs := natAbs_tmod_lt a hb0
      have hcnn : 0 ≤ Int.tmod a b := Int.tmod_nonneg b ha
      rw [gcd_rec, if_neg hb0]
      by_cases hc0 : Int.tmod a b = 0
      · -- the recursive call returns (b, 1, 0) exactly
        rw [hc0, gcd_rec]
        simp only [if_pos rfl]
        exact ⟨by simp, by simp⟩
      · obtain ⟨hs, ht⟩ := ih b (Int.tmod a b) (by omega) hb hcnn
        have hcpos : 0 < Int.tmod a b := lt_of_le_of_ne hcnn (Ne.symm hc0)
        have hq : 0 ≤ Int.tdiv a b := Int.tdiv_nonneg ha hb
        have hmod : b * Int.tdiv a b + Int.tmod a b = a := Int.tdiv_add_tmod a b
        have hmax_b : max 1 b = b := max_eq_right hbpos
        have hmax_c : max 1 (Int.tmod a b) = Int.tmod a b := max_eq_right hcpos
        have hapos : 0 < a := by nlinarith
        have hone_a : (1 : ℤ) ≤ a := hapos
        constructor
        · simp only
          rw [hmax_b]
          calc |(TSS.gcd b (Int.tmod a b)).2.2| ≤ max 1 b := ht
          _ = b := hmax_b
        · simp only
          rw [max_eq_right hone_a]
          have h1 : |(TSS.gcd b (Int.tmod a b)).2.1| ≤ Int.tmod a b := by
            calc |(TSS.gcd b (Int.tmod a b)).2.1| ≤ max 1 (Int.tmod a b) := hs
            _ = _ := hmax_c
          have h2 : |(TSS.gcd b (Int.tmod a b)).2.2| ≤ b := by
            calc |(TSS.gcd b (Int.tmod a b)).2.2| ≤ max 1 b := ht
            _ = b := hmax_b
          calc |(TSS.gcd b (Int.tmod a b)).2.1 - (TSS.gcd b (Int.tmod a b)).2.2 * Int.tdiv a b|
              ≤ |(TSS.gcd b (Int.tmod a b)).2.1| + |(TSS.gcd b (Int.tmod a b)).2.2 * Int.tdiv a b| :=
                abs_sub _ _
            _ = |(TSS.gcd b (Int.tmod a b)).2.1| + |(TSS.gcd b (Int.tmod a b)).2.2| * Int.tdiv a b := by
                rw [abs_mul, abs_of_nonneg hq]
            _ ≤ Int.tmod a b + b * Int.tdiv a b := by nlinarith
            _ = a := by linarith

/-! ### Facts about `mod_inverse` -/

theorem mod_inverse_zero {p : Int} (hp : 0 < p) : mod_inverse 0 p = 0 := by
  have h0 : Int.tmod 0 p = 0 := Int.zero_tmod p
  simp only [mod_inverse, h0]
  rw [if_neg (by omega), gcd_rec, if_pos rfl]
  simpa using Int.tmod_self p

theorem mod_inverse_nonneg_lt {p k : Int} (hp : 2 ≤ p) (hk : 0 ≤ k) :
    0 ≤ mod_inverse k p ∧ mod_inverse k p < p := by
  have hppos : (0 : ℤ) < p := by omega
  have hk2 : 0 ≤ Int.tmod k p := Int.tmod_nonneg p hk
  have hbd := (gcd_bounds (Int.tmod k p).natAbs p (Int.tmod k p) le_rfl
    (by omega) hk2).2
  rw [max_eq_right (by omega : (1:ℤ) ≤ p)] at hbd
  simp only [mod_inverse, if_neg (not_lt.mpr hk2)]
  have hsum : 0 ≤ p + (TSS.gcd p (Int.tmod k p)).2.2 := by
    have := abs_le.mp hbd
    omega
  rw [Int.tmod_eq_emod hsum (le_of_lt hppos)]
  exact ⟨Int.emod_nonneg _ (by omega), Int.emod_lt_of_pos _ hppos⟩

theorem mod_inverse_mul {p k : Int} (hp : 2 ≤ p) (hk : 0 ≤ k)
    (h : Int.gcd p k = 1) : (k * mod_inverse k p) % p = 1 % p := by
  have hppos : (0 : ℤ) < p := by omega
  have hk2 : 0 ≤ Int.tmod k p := Int.tmod_nonneg p hk
  obtain ⟨hg, hbez⟩ := gcd_spec (Int.tmod k p).natAbs p (Int.tmod k p) le_rfl
    (by omega) hk2
  have hmodk : Int.tmod k p = k % p := Int.tmod_eq_emod hk (le_of_lt hppos)
  have hgcd_same : Int.gcd p (Int.tmod k p) = Int.gcd p k := by
    rw [gcd_tmod, Int.gcd_comm]
  rw [hgcd_same, h] at hg
  rw [hg] at hbez
  push_cast at hbez
  set t := (TSS.gcd p (Int.tmod k p)).2.2 with htdef
  set s := (TSS.gcd p (Int.tmod k p)).2.1 with hsdef
  -- the result is congruent to the Bézout coefficient t
  have hinv : Int.ModEq p (mod_inverse k p) t := by
    simp only [mod_inverse, if_neg (not_lt.mpr hk2), ← htdef]
    have hbd := (gcd_bounds (Int.tmod k p).natAbs p (Int.tmod k p) le_rfl
      (by omega) hk2).2
    rw [max_eq_right (by omega : (1:ℤ) ≤ p), ← htdef] at hbd
    have hsum : 0 ≤ p + t := by
      have := abs_le.mp hbd
      omega
    rw [Int.tmod_eq_emod hsum (by omega)]
    show (p + t) % p % p = t % p
    rw [Int.emod_emod_of_dvd _ dvd_rfl, add_comm]
    simpa using Int.add_mul_emod_self_left (a := t) (b := p) (c := 1)
  have hcong : Int.ModEq p (k * mod_inverse k p) 1 := by
    calc k * mod_inverse k p ≡ k * t [ZMOD p] := hinv.mul_left k
      _ ≡ (k % p) * t [ZMOD p] := by
          exact Int.ModEq.mul_right t (Int.emod_emod_of_dvd k dvd_rfl).symm
      _ = 1 - s * p := by
          rw [← hmodk]
          linarith [hbez, mul_comm t (Int.tmod k p)]
      _ ≡ 1 [ZMOD p] := Int.modEq_iff_dvd.mpr ⟨s, by ring⟩
  exact hcong

/-- `mod_inverse` produces, for coprime arguments, the representative of the
inverse in `ZMod p`. -/
theorem mod_inverse_zmod {p : ℕ} (hp : 2 ≤ p) (k : Int) (hk : 0 ≤ k)
    (h : Int.gcd p k = 1) :
    ((mod_inverse k p : Int) : ZMod p) * ((k : Int) : ZMod p) = 1 := by
  have hmul := mod_inverse_mul (p := (p : Int)) (by exact_mod_cast hp) hk h
  have : ((k * mod_inverse k p : Int) : ZMod p) = ((1 : Int) : ZMod p) := by
    rw [ZMod.intCast_eq_intCast_iff]
    exact hmul
  push_cast at this
  rw [mul_comm]
  exact_mod_cast this

/-! ### Facts about `wrap64` and `mod_pow` -/

theorem wrap64_eq {z : Int} (h1 : -(2 ^ 63) ≤ z) (h2 : z < 2 ^ 63) :
    wrap64 z = z := by
  have : (z + 2 ^ 63) % 2 ^ 64 = z + 2 ^ 63 :=
    Int.emod_eq_of_lt (by omega) (by omega)
  simp only [wrap64, this]
  omega

theorem modPowAux_spec {p : Int} (hp : 2 ≤ p) (hlt : p ≤ 2 ^ 31) :
    ∀ (fuel e : ℕ) (x acc : Int), e < fuel → 0 ≤ x → x < p → 0 ≤ acc → acc < p →
    0 ≤ modPowAux fuel x e p acc ∧ modPowAux fuel x e p acc < p ∧
    ((modPowAux fuel x e p acc : Int) : ZMod p.toNat) =
      ((acc : Int) : ZMod p.toNat) * ((x : Int) : ZMod p.toNat) ^ e := by
  intro fuel
  induction fuel with
  | zero => intro e x acc he _ _ _ _; exact absurd he (Nat.not_lt_zero _)
  | succ fuel ih =>
    intro e x acc he hx0 hxp hacc0 haccp
    by_cases he0 : e = 0
    · subst he0
      simp only [modPowAux, if_pos rfl]
      exact ⟨hacc0, haccp, by simp⟩
    · have hsq : 0 ≤ Int.tmod (wrap64 (x * x)) p ∧ Int.tmod (wrap64 (x * x)) p < p := by
        rw [wrap64_eq (by nlinarith) (by nlinarith)]
        constructor
        · exact Int.tmod_nonneg p (by positivity)
        · rw [Int.tmod_eq_emod (by positivity) (by omega)]
          exact Int.emod_lt_of_pos _ (by omega)
      have hsq_cast : ((Int.tmod (wrap64 (x * x)) p : Int) : ZMod p.toNat) =
          ((x : Int) : ZMod p.toNat) ^ 2 := by
        rw [wrap64_eq (by nlinarith) (by nlinarith),
          Int.tmod_eq_emod (by positivity) (by omega)]
        have hcast : (((x * x) % p : Int) : ZMod p.toNat) = ((x * x : Int) : ZMod p.toNat) := by
          rw [ZMod.intCast_eq_intCast_iff]
          have : ((p.toNat : Int)) = p := Int.toNat_of_nonneg (by omega)
          rw [this]
          exact Int.emod_emod_of_dvd _ dvd_rfl
        rw [hcast]
        push_cast
        ring
      rcases Nat.even_or_odd e with heven | hodd
      · -- even exponent: acc is unchanged
        have he2 : e % 2 = 0 := Nat.even_iff.mp heven
        simp only [modPowAux, if_neg he0, he2, if_true]
        obtain ⟨h0, h1, h2⟩ := ih (e / 2) _ acc (by omega) hsq.1 hsq.2 hacc0 haccp
        refine ⟨h0, h1, ?_⟩
        rw [h2, hsq_cast, ← pow_mul]
        congr 2
        omega
      · -- odd exponent: multiply the accumulator
        have he2 : ¬ (e % 2 = 0) := by
          rw [Nat.odd_iff] at hodd
          omega
        have hmul : 0 ≤ Int.tmod (wrap64 (acc * x)) p ∧ Int.tmod (wrap64 (acc * x)) p < p := by
          rw [wrap64_eq (by nlinarith) (by nlinarith)]
          constructor
          · exact Int.tmod_nonneg p (by positivity)
          · rw [Int.tmod_eq_emod (by positivity) (by omega)]
            exact Int.emod_lt_of_pos _ (by omega)
        have hmul_cast : ((Int.tmod (wrap64 (acc * x)) p : Int) : ZMod p.toNat) =
            ((acc : Int) : ZMod p.toNat) * ((x : Int) : ZMod p.toNat) := by
          rw [wrap64_eq (by nlinarith) (by nlinarith),
            Int.tmod_eq_emod (by positivity) (by omega)]
          have hcast : (((acc * x) % p : Int) : ZMod p.toNat) =
              ((acc * x : Int) : ZMod p.toNat) := by
            rw [ZMod.intCast_eq_intCast_iff]
            have : ((p.toNat : Int)) = p := Int.toNat_of_nonneg (by omega)
            rw [this]
            exact Int.emod_emod_of_dvd _ dvd_rfl
          rw [hcast]
          push_cast
          ring
        simp only [modPowAux, if_neg he0, if_neg he2]
        obtain ⟨h0, h1, h2⟩ := ih (e / 2) _ _ (by omega) hsq.1 hsq.2 hmul.1 hmul.2
        refine ⟨h0, h1, ?_⟩
        rw [h2, hsq_cast, hmul_cast, ← pow_mul]
        have : e = 2 * (e / 2) + 1 := by omega
        conv_rhs => rw [this]
        rw [pow_succ]
        ring

theorem mod_pow_spec {p : Int} (hp : 2 ≤ p) (hlt : p ≤ 2 ^ 31)
    (x : Int) (e : ℕ) (hx0 : 0 ≤ x) (hxp : x < p) :
    0 ≤ mod_pow x e p ∧ mod_pow x e p < p ∧
    ((mod_pow x e p : Int) : ZMod p.toNat) = ((x : Int) : ZMod p.toNat) ^ e := by
  obtain ⟨h0, h1, h2⟩ := modPowAux_spec hp hlt (e + 1) e x 1 (Nat.lt_succ_self e)
    hx0 hxp (by omega) (by omega)
  exact ⟨h0, h1, by simpa using h2⟩

/-! ### Correctness of the Montgomery backend -/

theorem coprime_pow2_32 {p : ℕ} (hodd : p % 2 = 1) : Nat.Coprime (2 ^ 32) p :=
  Nat.Coprime.pow_left 32 (by
    show Nat.gcd 2 p = 1
    rw [Nat.gcd_rec, hodd]
    rfl)

theorem montNew_n (p : ℕ) : (montNew p).n = p := rfl

theorem intToU32_of_lt {z : Int} (h0 : 0 ≤ z) (h1 : z < 2 ^ 32) :
    (intToU32 z : Int) = z := by
  simp only [intToU32]
  rw [Int.emod_eq_of_lt h0 (by omega), Int.toNat_of_nonneg h0]

theorem r_inv_spec {p : ℕ} (hp : 2 ≤ p) (hp32 : p < 2 ^ 32) (hodd : p % 2 = 1) :
    (montNew p).r_inv < p ∧
    ((montNew p).r_inv : ZMod p) * ((2 ^ 32 : ℕ) : ZMod p) = 1 := by
  have hgcd : Int.gcd (p : Int) ((2 ^ 32 : ℕ) : Int) = 1 := by
    have := coprime_pow2_32 hodd
    simpa [Int.gcd_natCast_natCast, Nat.Coprime, Nat.gcd_comm] using this
  have hmem := mod_inverse_nonneg_lt (p := (p : Int)) (k := ((2 ^ 32 : ℕ) : Int))
    (by exact_mod_cast hp) (by positivity)
  have hval0 : (montNew p).r_inv =
      (if mod_inverse (((2 : ℕ) ^ 32 : ℕ) : Int) (p : Int) < 0 then
        intToU32 (mod_inverse (((2 : ℕ) ^ 32 : ℕ) : Int) (p : Int) + (p : Int))
      else intToU32 (mod_inverse (((2 : ℕ) ^ 32 : ℕ) : Int) (p : Int))) := rfl
  have hval : ((montNew p).r_inv : Int) = mod_inverse ((2 ^ 32 : ℕ) : Int) p := by
    rw [hval0, if_neg (not_lt.mpr hmem.1)]
    exact intToU32_of_lt hmem.1 (by omega)
  constructor
  · have := hmem.2
    have h2 : ((montNew p).r_inv : Int) < (p : Int) := by rw [hval]; exact this
    exact_mod_cast h2
  · have hz := mod_inverse_zmod (p := p) hp ((2 ^ 32 : ℕ) : Int) (by positivity) hgcd
    have hcast : (((montNew p).r_inv : Int) : ZMod p) = ((montNew p).r_inv : ZMod p) := by
      push_cast
      rfl
    rw [← hcast, hval]
    have : ((((2 ^ 32 : ℕ) : Int)) : ZMod p) = ((2 ^ 32 : ℕ) : ZMod p) := by push_cast; rfl
    rw [← this]
    exact hz

theorem n_quote_spec {p : ℕ} (hp : 2 ≤ p) (hodd : p % 2 = 1) :
    ((p : ZMod (2 ^ 32)) * ((montNew p).n_quote : ZMod (2 ^ 32)) = -1) := by
  have hgcdR : Int.gcd ((2 ^ 32 : ℕ) : Int) (p : Int) = 1 := by
    have := coprime_pow2_32 hodd
    simpa [Int.gcd_natCast_natCast] using this
  have hmem := mod_inverse_nonneg_lt (p := ((2 ^ 32 : ℕ) : Int)) (k := (p : Int))
    (by norm_num) (by positivity)
  have hmul := mod_inverse_zmod (p := 2 ^ 32) (by norm_num) (p : Int) (by positivity) hgcdR
  set tmp2 := mod_inverse (p : Int) ((2 ^ 32 : ℕ) : Int) with htmp2
  haveI : Fact (1 < 2 ^ 32) := ⟨by norm_num⟩
  have htmp2ne : tmp2 ≠ 0 := by
    intro h0
    rw [h0] at hmul
    simp only [Int.cast_zero, zero_mul] at hmul
    exact zero_ne_one hmul
  have htmp2pos : 0 < tmp2 := lt_of_le_of_ne hmem.1 (Ne.symm htmp2ne)
  have hval0 : (montNew p).n_quote = intToU32 ((((2 : ℕ) ^ 32 : ℕ) : Int) - tmp2) := rfl
  have hval : ((montNew p).n_quote : Int) = ((2 ^ 32 : ℕ) : Int) - tmp2 := by
    rw [hval0]
    exact intToU32_of_lt (by push_cast at hmem ⊢; omega) (by push_cast at hmem ⊢; omega)
  have hnq : ((montNew p).n_quote : ZMod (2 ^ 32)) = -((tmp2 : Int) : ZMod (2 ^ 32)) := by
    have : (((montNew p).n_quote : Int) : ZMod (2 ^ 32)) =
        ((((2 ^ 32 : ℕ) : Int) - tmp2 : Int) : ZMod (2 ^ 32)) := by rw [hval]
    push_cast at this
    simpa [ZMod.natCast_self] using this
  rw [hnq]
  have hpt : (p : ZMod (2 ^ 32)) * ((tmp2 : Int) : ZMod (2 ^ 32)) = 1 := by
    have h := hmul
    push_cast at h
    rw [mul_comm] at h
    exact h
  rw [mul_neg, hpt]

/-- Canonical-form bound of `redc`: for any modulus below `2^32` and any
`u64` input below `2^32 * n`, the result is below `n` — even when the
wrapping `u64` addition actually wraps. -/
theorem redc_bound (f : MontgomeryField32) (hp0 : 0 < f.n) (hp32 : f.n < 2 ^ 32)
    {a : ℕ} (ha : a < 2 ^ 32 * f.n) : redc f a < f.n := by
  simp only [redc]
  set m := a % 2 ^ 32 * f.n_quote % 2 ^ 32 with hm
  have hmlt : m < 2 ^ 32 := Nat.mod_lt _ (by norm_num)
  set S := a + m * f.n with hS
  have hSlt : S < 2 ^ 33 * f.n := by
    have h1 : m * f.n < 2 ^ 32 * f.n := (Nat.mul_lt_mul_right hp0).mpr hmlt
    omega
  set t := S % 2 ^ 64 / 2 ^ 32 with ht
  by_cases hwrap : S < 2 ^ 64
  · have hmod : S % 2 ^ 64 = S := Nat.mod_eq_of_lt hwrap
    have htlt : t < 2 * f.n := by
      rw [ht, hmod]
      exact Nat.div_lt_of_lt_mul (by omega)
    split <;> omega
  · have hplarge : 2 ^ 31 ≤ f.n := by
      by_contra hcon
      push_neg at hcon
      have : S < 2 ^ 64 := by
        calc S < 2 ^ 33 * f.n := hSlt
        _ ≤ 2 ^ 33 * 2 ^ 31 := by
            exact Nat.mul_le_mul_left _ (by omega)
        _ = 2 ^ 64 := by norm_num
      omega
    have htlt : t < 2 ^ 32 := by
      rw [ht]
      exact Nat.div_lt_of_lt_mul (by
        calc S % 2 ^ 64 < 2 ^ 64 := Nat.mod_lt _ (by norm_num)
        _ = 2 ^ 32 * 2 ^ 32 := by norm_num)
    split <;> omega

/-- Full `redc` specification in the non-wrapping range `n < 2^31`:
canonical output and the Montgomery congruence `redc(a) * R ≡ a  (mod n)`. -/
theorem redc_spec {p : ℕ} (hp : 2 ≤ p) (hp31 : p < 2 ^ 31)
    (f : MontgomeryField32) (hn : f.n = p)
    (hq : (p : ZMod (2 ^ 32)) * (f.n_quote : ZMod (2 ^ 32)) = -1)
    {a : ℕ} (ha : a < 2 ^ 32 * p) :
    redc f a < p ∧
    ((redc f a : ZMod p) * ((2 ^ 32 : ℕ) : ZMod p) = (a : ZMod p)) := by
  simp only [redc, hn]
  set m := a % 2 ^ 32 * f.n_quote % 2 ^ 32 with hm
  have hmlt : m < 2 ^ 32 := Nat.mod_lt _ (by norm_num)
  set S := a + m * p with hS
  have hSlt : S < 2 ^ 64 := by
    have h1 : m * p < 2 ^ 32 * p := (Nat.mul_lt_mul_right (by omega : 0 < p)).mpr hmlt
    have h2 : 2 ^ 32 * p ≤ 2 ^ 32 * 2 ^ 31 := Nat.mul_le_mul_left _ (by omega)
    have h3 : (2 : ℕ) ^ 32 * 2 ^ 31 + 2 ^ 32 * 2 ^ 31 ≤ 2 ^ 64 := by norm_num
    omega
  have hdvd : 2 ^ 32 ∣ S := by
    have hcast : (S : ZMod (2 ^ 32)) = 0 := by
      have hmcast : (m : ZMod (2 ^ 32)) = (a : ZMod (2 ^ 32)) * f.n_quote := by
        rw [hm]
        push_cast [ZMod.natCast_mod]
        rfl
      have : (S : ZMod (2 ^ 32)) = (a : ZMod (2 ^ 32)) * (1 + (f.n_quote : ZMod (2 ^ 32)) * p) := by
        rw [hS]
        push_cast [hmcast]
        ring
      rw [this]
      have : (1 : ZMod (2 ^ 32)) + (f.n_quote : ZMod (2 ^ 32)) * p = 0 := by
        rw [mul_comm, hq]
        ring
      rw [this, mul_zero]
    exact (ZMod.natCast_zmod_eq_zero_iff_dvd S (2 ^ 32)).mp hcast
  have hmod : S % 2 ^ 64 = S := Nat.mod_eq_of_lt hSlt
  set t := S % 2 ^ 64 / 2 ^ 32 with ht
  have htR : t * 2 ^ 32 = S := by
    rw [ht, hmod]
    exact Nat.div_mul_cancel hdvd
  have htlt : t < 2 * p := by
    rw [ht, hmod]
    apply Nat.div_lt_of_lt_mul
    calc S < 2 ^ 32 * p + 2 ^ 32 * p := by
          have : m * p < 2 ^ 32 * p := (Nat.mul_lt_mul_right (by omega : 0 < p)).mpr hmlt
          omega
    _ = 2 ^ 32 * (2 * p) := by ring
  have htcong : (t : ZMod p) * ((2 ^ 32 : ℕ) : ZMod p) = (a : ZMod p) := by
    have h1 : (t : ZMod p) * ((2 ^ 32 : ℕ) : ZMod p) = (S : ZMod p) := by
      rw [← htR]
      push_cast
      ring
    rw [h1, hS]
    push_cast [ZMod.natCast_self]
    ring
  constructor
  · split <;> omega
  · split
    · rename_i hge
      have hcast : (((t - p : ℕ)) : ZMod p) = (t : ZMod p) := by
        push_cast [Nat.cast_sub hge, ZMod.natCast_self]
        ring
      rw [hcast]
      exact htcong
    · exact htcong



/-! ### The Montgomery field operations modulo `p` -/

theorem montMul_spec {p : ℕ} (hp : 2 ≤ p) (hp31 : p < 2 ^ 31)
    (f : MontgomeryField32) (hn : f.n = p)
    (hq : (p : ZMod (2 ^ 32)) * (f.n_quote : ZMod (2 ^ 32)) = -1)
    {a b : ℕ} (ha : a < p) (hb : b < p) :
    montMul f a b < p ∧
    ((montMul f a b : ZMod p) * ((2 ^ 32 : ℕ) : ZMod p) = (a : ZMod p) * (b : ZMod p)) := by
  have hab : a * b < 2 ^ 32 * p := by
    calc a * b ≤ a * p := Nat.mul_le_mul_left a (by omega)
    _ < 2 ^ 32 * p := Nat.mul_lt_mul_of_lt_of_le (by omega) le_rfl (by omega)
  have habmod : a * b % 2 ^ 64 = a * b := by
    apply Nat.mod_eq_of_lt
    calc a * b < 2 ^ 32 * p := hab
    _ < 2 ^ 32 * 2 ^ 32 := Nat.mul_lt_mul_of_le_of_lt le_rfl (by omega) (by norm_num)
    _ = 2 ^ 64 := by norm_num
  have h := redc_spec hp hp31 f hn hq (a := a * b % 2 ^ 64) (by rw [habmod]; exact hab)
  simp only [montMul]
  refine ⟨h.1, ?_⟩
  rw [h.2, habmod]
  push_cast
  ring

theorem montEncode_spec {p : ℕ} (hp : 0 < p) (hp32 : p < 2 ^ 32)
    (f : MontgomeryField32) (hn : f.n = p) {x : ℕ} (hx : x < p) :
    montEncode f x < p ∧
    ((montEncode f x : ZMod p) = (x : ZMod p) * ((2 ^ 32 : ℕ) : ZMod p)) := by
  simp only [montEncode, hn]
  constructor
  · exact Nat.mod_lt _ hp
  · rw [Nat.mod_eq_of_lt (by omega : x < 2 ^ 32)]
    push_cast [ZMod.natCast_mod]
    ring

theorem montDecode_spec {p : ℕ} (hp : 0 < p)
    (f : MontgomeryField32) (hn : f.n = p) (a : ℕ) :
    montDecode f a < p ∧
    ((montDecode f a : ZMod p) = (a : ZMod p) * (f.r_inv : ZMod p)) := by
  simp only [montDecode, hn]
  exact ⟨Nat.mod_lt _ hp, by push_cast [ZMod.natCast_mod]; ring⟩

set_option maxRecDepth 4000 in
theorem r_cube_spec {p : ℕ} (hp : 2 ≤ p) (hp31 : p < 2 ^ 31) :
    (montNew p).r_cube < p ∧
    (((montNew p).r_cube : ZMod p) = ((2 ^ 32 : ℕ) : ZMod p) ^ 3) := by
  have hxval : Int.tmod (((2 : ℕ) ^ 32 : ℕ) : Int) (p : Int) =
      (((2 : ℕ) ^ 32 : ℕ) : Int) % (p : Int) :=
    Int.tmod_eq_emod (by positivity) (by positivity)
  have hx0 : (0 : Int) ≤ (((2 : ℕ) ^ 32 : ℕ) : Int) % (p : Int) :=
    Int.emod_nonneg _ (by positivity)
  have hxp : (((2 : ℕ) ^ 32 : ℕ) : Int) % (p : Int) < (p : Int) :=
    Int.emod_lt_of_pos _ (by positivity)
  have hmp := mod_pow_spec (p := (p : Int)) (by exact_mod_cast hp)
    (by exact_mod_cast (by omega : p ≤ 2 ^ 31)) _ 3 hx0 hxp
  have hval0 : (montNew p).r_cube =
      intToU32 (mod_pow (Int.tmod (((2 : ℕ) ^ 32 : ℕ) : Int) (p : Int)) 3 (p : Int)) := by
    simp only [montNew]
  have hrval : ((montNew p).r_cube : Int) =
      mod_pow (Int.tmod (((2 : ℕ) ^ 32 : ℕ) : Int) (p : Int)) 3 (p : Int) := by
    rw [hval0, hxval]
    refine intToU32_of_lt hmp.1 ?_
    have h1 := hmp.2.1
    have h2 : ((p : ℕ) : Int) < 2 ^ 32 := by exact_mod_cast (by omega : p < 2 ^ 32)
    omega
  have htoNat : ((p : Int)).toNat = p := Int.toNat_natCast p
  constructor
  · have h2 := hmp.2.1
    rw [hxval] at hrval
    have hfin : ((montNew p).r_cube : Int) < (p : Int) := by rw [hrval]; exact h2
    exact_mod_cast hfin
  · have hcast := hmp.2.2
    rw [htoNat] at hcast
    rw [hxval] at hrval
    have h1 : (((montNew p).r_cube : Int) : ZMod p) =
        (((((2 : ℕ) ^ 32 : ℕ) : Int) % (p : Int) : Int) : ZMod p) ^ 3 := by
      rw [hrval]; exact hcast
    have h2 : (((((2 : ℕ) ^ 32 : ℕ) : Int) % (p : Int) : Int) : ZMod p) =
        ((((2 : ℕ) ^ 32 : ℕ) : Int) : ZMod p) := by
      rw [ZMod.intCast_eq_intCast_iff]
      exact Int.emod_emod_of_dvd _ dvd_rfl
    rw [h2] at h1
    push_cast at h1 ⊢
    exact h1

theorem montOne_spec {p : ℕ} (hp : 2 ≤ p) (hp32 : p < 2 ^ 32)
    (f : MontgomeryField32) (hn : f.n = p) :
    montOne f < p ∧ ((montOne f : ZMod p) = ((2 ^ 32 : ℕ) : ZMod p)) := by
  have h := montEncode_spec (by omega) hp32 f hn (x := 1) (by omega)
  simp only [montOne]
  exact ⟨h.1, by rw [h.2]; push_cast; ring⟩

/-- Square-and-multiply invariant of `montPowAux`:
`result * R^e = acc * x^e` in `ZMod p`. -/
theorem montPowAux_spec {p : ℕ} (hp : 2 ≤ p) (hp31 : p < 2 ^ 31)
    (hq : (p : ZMod (2 ^ 32)) * ((montNew p).n_quote : ZMod (2 ^ 32)) = -1) :
    ∀ (fuel e x acc : ℕ), e < fuel → x < p → acc < p →
    montPowAux (montNew p) fuel x e acc < p ∧
    ((montPowAux (montNew p) fuel x e acc : ZMod p) * ((2 ^ 32 : ℕ) : ZMod p) ^ e =
      (acc : ZMod p) * (x : ZMod p) ^ e) := by
  intro fuel
  induction fuel with
  | zero => intro e x acc he _ _; exact absurd he (Nat.not_lt_zero _)
  | succ fuel ih =>
    intro e x acc he hx hacc
    by_cases he0 : e = 0
    · subst he0
      simp only [montPowAux, if_pos rfl]
      exact ⟨hacc, by simp⟩
    · have hsq := montMul_spec hp hp31 (montNew p) rfl hq hx hx
      rcases Nat.even_or_odd e with heven | hodd
      · have he2 : e % 2 = 0 := Nat.even_iff.mp heven
        obtain ⟨m, rfl⟩ : ∃ m, e = 2 * m := ⟨e / 2, by omega⟩
        have hdiv : 2 * m / 2 = m := by omega
        simp only [montPowAux, if_neg he0, he2, if_true, hdiv]
        obtain ⟨h1, h2⟩ := ih m _ acc (by omega) hsq.1 hacc
        refine ⟨h1, ?_⟩
        set r := montPowAux (montNew p) fuel (montMul (montNew p) x x) m acc with hr
        calc (r : ZMod p) * ((2 ^ 32 : ℕ) : ZMod p) ^ (2 * m)
            = ((r : ZMod p) * ((2 ^ 32 : ℕ) : ZMod p) ^ m) *
                ((2 ^ 32 : ℕ) : ZMod p) ^ m := by
              rw [two_mul, pow_add]
              ring
          _ = (acc : ZMod p) * ((montMul (montNew p) x x : ZMod p) ^ m *
                ((2 ^ 32 : ℕ) : ZMod p) ^ m) := by rw [h2]; ring
          _ = (acc : ZMod p) * ((x : ZMod p) * (x : ZMod p)) ^ m := by
              rw [← mul_pow, hsq.2]
          _ = (acc : ZMod p) * (x : ZMod p) ^ (2 * m) := by
              rw [mul_pow, two_mul, pow_add]
      · have he2 : ¬ (e % 2 = 0) := by
          rw [Nat.odd_iff] at hodd
          omega
        have hmul := montMul_spec hp hp31 (montNew p) rfl hq hacc hx
        obtain ⟨m, rfl⟩ : ∃ m, e = 2 * m + 1 := ⟨e / 2, by omega⟩
        have hdiv : (2 * m + 1) / 2 = m := by omega
        simp only [montPowAux, if_neg he0, if_neg he2, hdiv]
        obtain ⟨h1, h2⟩ := ih m _ _ (by omega) hsq.1 hmul.1
        refine ⟨h1, ?_⟩
        set r := montPowAux (montNew p) fuel (montMul (montNew p) x x) m
          (montMul (montNew p) acc x) with hr
        calc (r : ZMod p) * ((2 ^ 32 : ℕ) : ZMod p) ^ (2 * m + 1)
            = ((r : ZMod p) * ((2 ^ 32 : ℕ) : ZMod p) ^ m) *
                (((2 ^ 32 : ℕ) : ZMod p) ^ m * ((2 ^ 32 : ℕ) : ZMod p)) := by
              rw [pow_succ, two_mul, pow_add]
              ring
          _ = ((montMul (montNew p) acc x : ZMod p) * ((2 ^ 32 : ℕ) : ZMod p)) *
                ((montMul (montNew p) x x : ZMod p) ^ m *
                  ((2 ^ 32 : ℕ) : ZMod p) ^ m) := by rw [h2]; ring
          _ = ((acc : ZMod p) * (x : ZMod p)) *
                (((x : ZMod p) * (x : ZMod p)) ^ m) := by
              rw [← mul_pow, hsq.2, hmul.2]
          _ = (acc : ZMod p) * (x : ZMod p) ^ (2 * m + 1) := by
              rw [mul_pow, pow_succ, two_mul, pow_add]
              ring


/-! ### Transfer helpers between `ZMod` and concrete integers -/

theorem int_eq_of_zmod_eq {p : ℕ} {a b : Int} (ha0 : 0 ≤ a) (hap : a < (p : Int))
    (hb0 : 0 ≤ b) (hbp : b < (p : Int))
    (h : ((a : Int) : ZMod p) = ((b : Int) : ZMod p)) : a = b := by
  have hmod : a % (p : Int) = b % (p : Int) := (ZMod.intCast_eq_intCast_iff a b p).mp h
  rw [Int.emod_eq_of_lt ha0 hap, Int.emod_eq_of_lt hb0 hbp] at hmod
  exact hmod

theorem nat_eq_of_zmod_eq {p : ℕ} {a b : ℕ} (hap : a < p) (hbp : b < p)
    (h : (a : ZMod p) = (b : ZMod p)) : a = b := by
  haveI : NeZero p := ⟨by omega⟩
  have ha := ZMod.val_cast_of_lt hap
  have hb := ZMod.val_cast_of_lt hbp
  rw [← ha, ← hb, h]

/-- The helper exponentiation computes `acc * x ^ e` in `ZMod p`. -/
theorem natPowModAux_spec (p : ℕ) : ∀ (fuel e x acc : ℕ), e < fuel →
    ((natPowModAux p fuel x e acc : ZMod p)) = (acc : ZMod p) * (x : ZMod p) ^ e := by
  intro fuel
  induction fuel with
  | zero => intro e x acc he; exact absurd he (Nat.not_lt_zero _)
  | succ fuel ih =>
    intro e x acc he
    by_cases he0 : e = 0
    · subst he0; simp [natPowModAux]
    · rcases Nat.even_or_odd e with heven | hodd
      · have he2 : e % 2 = 0 := Nat.even_iff.mp heven
        obtain ⟨m, rfl⟩ : ∃ m, e = 2 * m := ⟨e / 2, by omega⟩
        have hdiv : 2 * m / 2 = m := by omega
        simp only [natPowModAux, if_neg he0, hdiv,
          if_neg (show ¬ (2 * m % 2 = 1) by omega)]
        rw [ih m _ acc (by omega)]
        push_cast [ZMod.natCast_mod]
        ring
      · have he2 : e % 2 = 1 := Nat.odd_iff.mp hodd
        obtain ⟨m, rfl⟩ : ∃ m, e = 2 * m + 1 := ⟨e / 2, by omega⟩
        have hdiv : (2 * m + 1) / 2 = m := by omega
        simp only [natPowModAux, if_neg he0, hdiv,
          if_pos (show (2 * m + 1) % 2 = 1 by omega)]
        rw [ih m _ _ (by omega)]
        push_cast [ZMod.natCast_mod]
        ring

theorem natPowMod_spec (p x e : ℕ) :
    ((natPowMod p x e : ZMod p)) = (x : ZMod p) ^ e := by
  have h := natPowModAux_spec p (e + 1) e x 1 (Nat.lt_succ_self e)
  simpa [natPowMod] using h

/-! ### `MontgomeryField32::inv` -/

theorem montInv_spec {p : ℕ} (hp : 2 ≤ p) (hodd : p % 2 = 1) (hp31 : p < 2 ^ 31)
    (a : ℕ) :
    montInv (montNew p) a < p ∧
    ((montInv (montNew p) a : ZMod p) * ((2 ^ 32 : ℕ) : ZMod p) =
      ((mod_inverse (a : Int) (p : Int) : Int) : ZMod p) *
        ((2 ^ 32 : ℕ) : ZMod p) ^ 3) := by
  have hq := n_quote_spec hp hodd
  have hrc := r_cube_spec hp hp31
  have hk := mod_inverse_nonneg_lt (p := (p : Int)) (by exact_mod_cast hp)
    (k := (a : Int)) (by positivity)
  set k : Int := mod_inverse (a : Int) (p : Int) with hkdef
  have hpI : ((p : ℕ) : Int) < 2 ^ 31 := by exact_mod_cast hp31
  have hkN : (k.toNat : Int) = k := Int.toNat_of_nonneg hk.1
  have hkNp : k.toNat < p := by
    have h1 : (k.toNat : Int) < (p : Int) := by rw [hkN]; exact hk.2
    exact_mod_cast h1
  have hu64 : intToU64 k = k.toNat := by
    simp only [intToU64]
    rw [Int.emod_eq_of_lt hk.1 (by omega)]
  have hz : k.toNat * (montNew p).r_cube < 2 ^ 32 * p :=
    Nat.mul_lt_mul_of_lt_of_le (show k.toNat < 2 ^ 32 by omega)
      (le_of_lt hrc.1) (by omega)
  have hzmod : k.toNat * (montNew p).r_cube % 2 ^ 64 =
      k.toNat * (montNew p).r_cube := by
    apply Nat.mod_eq_of_lt
    calc k.toNat * (montNew p).r_cube < 2 ^ 32 * p := hz
    _ < 2 ^ 32 * 2 ^ 32 := Nat.mul_lt_mul_of_le_of_lt le_rfl (by omega) (by norm_num)
    _ = 2 ^ 64 := by norm_num
  have hr := redc_spec hp hp31 (montNew p) rfl hq
    (a := k.toNat * (montNew p).r_cube % 2 ^ 64) (by rw [hzmod]; exact hz)
  have hIdef : montInv (montNew p) a =
      redc (montNew p) (k.toNat * (montNew p).r_cube % 2 ^ 64) := by
    simp only [montInv, montNew_n, ← hkdef, hu64]
  rw [hIdef]
  refine ⟨hr.1, ?_⟩
  rw [hr.2, hzmod]
  have hsplit : ((k.toNat * (montNew p).r_cube : ℕ) : ZMod p) =
      ((k.toNat : ℕ) : ZMod p) * (((montNew p).r_cube : ℕ) : ZMod p) := by
    push_cast
    ring
  have hcast : ((k : Int) : ZMod p) = ((k.toNat : ℕ) : ZMod p) := by
    conv_lhs => rw [← hkN]
    push_cast
    ring
  rw [hsplit, hrc.2, hcast]


/-! ### Primality certificate for the counterexample prime `3*2^30 + 1` -/

set_option maxRecDepth 4000 in
theorem prime_3221225473 : Nat.Prime 3221225473 := by
  have hfact : (3221225473 : ℕ) - 1 = 3 * 2 ^ 30 := by norm_num
  apply lucas_primality 3221225473 ((5 : ℕ) : ZMod 3221225473)
  · have hv : natPowMod 3221225473 5 3221225472 = 1 := by decide
    have hs := natPowMod_spec 3221225473 5 3221225472
    rw [hv] at hs
    rw [show (3221225473 : ℕ) - 1 = 3221225472 by norm_num, ← hs]
    norm_num
  · intro q hq hdvd
    rw [hfact] at hdvd
    have hq23 : q = 2 ∨ q = 3 := by
      rcases (Nat.Prime.dvd_mul hq).mp hdvd with h3 | h2
      · exact Or.inr ((Nat.prime_dvd_prime_iff_eq hq (by norm_num)).mp h3)
      · exact Or.inl ((Nat.prime_dvd_prime_iff_eq hq (by norm_num)).mp
          (hq.dvd_of_dvd_pow h2))
    rcases hq23 with rfl | rfl
    · have hdv : ((3221225473 : ℕ) - 1) / 2 = 1610612736 := by norm_num
      rw [hdv]
      have hv : natPowMod 3221225473 5 1610612736 = 3221225472 := by decide
      have hs := natPowMod_spec 3221225473 5 1610612736
      rw [hv] at hs
      intro hone
      have hcontra : ((3221225472 : ℕ) : ZMod 3221225473) = ((1 : ℕ) : ZMod 3221225473) := by
        rw [hs, hone]
        norm_num
      have := nat_eq_of_zmod_eq (by norm_num) (by norm_num) hcontra
      omega
    · have hdv : ((3221225473 : ℕ) - 1) / 3 = 1073741824 := by norm_num
      rw [hdv]
      have hv : natPowMod 3221225473 5 1073741824 = 1610563584 := by decide
      have hs := natPowMod_spec 3221225473 5 1073741824
      rw [hv] at hs
      intro hone
      have hcontra : ((1610563584 : ℕ) : ZMod 3221225473) = ((1 : ℕ) : ZMod 3221225473) := by
        rw [hs, hone]
        norm_num
      have := nat_eq_of_zmod_eq (by norm_num) (by norm_num) hcontra
      omega

/-! ### The C5 agreement theorem between the two backends -/

/-- C5: Backend agreement. As stated for every prime `p < 2^32` the claim is
false (see the counterexample); restricted to odd primes `p < 2^31` — the
regime in which both backends are well defined, since `mod_pow` squares an
`i64` and the Montgomery backend assumes an odd modulus — decoding the
Montgomery `pow` of an encoded `x < p` equals the naive backend's `pow`,
and likewise for `inv` on nonzero `x`. -/
theorem montgomery_matches_natural (p : ℕ) (hp : Nat.Prime p) (hodd : p % 2 = 1)
    (hp31 : p < 2 ^ 31) (x : ℕ) (hx : x < p) (e : ℕ) :
    ((montDecode (montNew p) (montPow (montNew p) (montEncode (montNew p) x) e) : Int) =
      naturalPow (p : Int) (x : Int) e) ∧
    (x ≠ 0 →
      ((montDecode (montNew p) (montInv (montNew p) (montEncode (montNew p) x)) : Int) =
        naturalInv (p : Int) (x : Int))) := by
  haveI : Fact (Nat.Prime p) := ⟨hp⟩
  have hp2 : 2 ≤ p := hp.two_le
  have hq := n_quote_spec hp2 hodd
  have hri := r_inv_spec hp2 (by omega) hodd
  have hR0 : ((2 ^ 32 : ℕ) : ZMod p) ≠ 0 := by
    intro h
    have h1 := hri.2
    rw [h, mul_zero] at h1
    exact zero_ne_one h1
  have henc := montEncode_spec (p := p) (by omega) (by omega) (montNew p) (montNew_n p) hx
  have hone := montOne_spec (p := p) hp2 (by omega) (montNew p) (montNew_n p)
  have hxcast : ((x : ℕ) : ZMod p) = (((x : ℕ) : Int) : ZMod p) := by push_cast; ring
  constructor
  · obtain ⟨hPlt, hPR⟩ := montPowAux_spec hp2 hp31 hq (e + 1) e
      (montEncode (montNew p) x) (montOne (montNew p)) (Nat.lt_succ_self e)
      henc.1 hone.1
    have hPdef : montPow (montNew p) (montEncode (montNew p) x) e =
        montPowAux (montNew p) (e + 1) (montEncode (montNew p) x) e
          (montOne (montNew p)) := rfl
    rw [← hPdef] at hPlt hPR
    have hdec := montDecode_spec (p := p) (by omega) (montNew p) (montNew_n p)
      (montPow (montNew p) (montEncode (montNew p) x) e)
    have hkey : ((montDecode (montNew p)
        (montPow (montNew p) (montEncode (montNew p) x) e) : ℕ) : ZMod p) =
        ((x : ℕ) : ZMod p) ^ e := by
      apply mul_right_cancel₀ (pow_ne_zero (e + 1) hR0)
      calc ((montDecode (montNew p)
              (montPow (montNew p) (montEncode (montNew p) x) e) : ℕ) : ZMod p) *
            ((2 ^ 32 : ℕ) : ZMod p) ^ (e + 1)
          = (((montPow (montNew p) (montEncode (montNew p) x) e : ℕ) : ZMod p) *
              ((2 ^ 32 : ℕ) : ZMod p) ^ e) *
            (((montNew p).r_inv : ZMod p) * ((2 ^ 32 : ℕ) : ZMod p)) := by
            rw [hdec.2, pow_succ]
            ring
        _ = (((montOne (montNew p) : ℕ) : ZMod p) *
              ((montEncode (montNew p) x : ℕ) : ZMod p) ^ e) * 1 := by
            rw [hPR, hri.2]
        _ = ((2 ^ 32 : ℕ) : ZMod p) *
              (((x : ℕ) : ZMod p) * ((2 ^ 32 : ℕ) : ZMod p)) ^ e := by
            rw [hone.2, henc.2, mul_one]
        _ = ((x : ℕ) : ZMod p) ^ e * ((2 ^ 32 : ℕ) : ZMod p) ^ (e + 1) := by
            rw [mul_pow, pow_succ]
            ring
    have hnat := mod_pow_spec (p := (p : Int)) (by exact_mod_cast hp2)
      (by exact_mod_cast hp31.le) ((x : ℕ) : Int) e (by positivity)
      (by exact_mod_cast hx)
    have htoNat : ((p : ℕ) : Int).toNat = p := Int.toNat_natCast p
    rw [htoNat] at hnat
    apply int_eq_of_zmod_eq (Int.natCast_nonneg _) (by exact_mod_cast hdec.1)
      hnat.1 hnat.2.1
    rw [show (((montDecode (montNew p)
        (montPow (montNew p) (montEncode (montNew p) x) e) : ℕ) : Int) : ZMod p) =
        ((montDecode (montNew p)
          (montPow (montNew p) (montEncode (montNew p) x) e) : ℕ) : ZMod p) from by
          push_cast; ring]
    rw [hnat.2.2, ← hxcast]
    exact hkey
  · intro hx0
    have hxz : ((x : ℕ) : ZMod p) ≠ 0 := by
      intro h
      haveI : NeZero p := ⟨by omega⟩
      have hval := ZMod.val_cast_of_lt hx
      rw [h, ZMod.val_zero] at hval
      exact hx0 hval.symm
    have hency : ((montEncode (montNew p) x : ℕ) : ZMod p) ≠ 0 := by
      rw [henc.2]
      exact mul_ne_zero hxz hR0
    have hnd : ¬ (p ∣ montEncode (montNew p) x) := by
      intro hdvd
      have h0 : montEncode (montNew p) x = 0 := Nat.eq_zero_of_dvd_of_lt hdvd henc.1
      rw [h0] at hency
      exact hency Nat.cast_zero
    have hgcd : Int.gcd (p : Int) ((montEncode (montNew p) x : ℕ) : Int) = 1 := by
      have hco : Nat.Coprime p (montEncode (montNew p) x) :=
        (Nat.Prime.coprime_iff_not_dvd hp).mpr hnd
      simpa [Int.gcd_natCast_natCast] using hco
    have hminv := montInv_spec hp2 hodd hp31 (montEncode (montNew p) x)
    have hkz := mod_inverse_zmod hp2 ((montEncode (montNew p) x : ℕ) : Int)
      (by positivity) hgcd
    have hdec := montDecode_spec (p := p) (by omega) (montNew p) (montNew_n p)
      (montInv (montNew p) (montEncode (montNew p) x))
    have henccast : (((montEncode (montNew p) x : ℕ) : Int) : ZMod p) =
        ((x : ℕ) : ZMod p) * ((2 ^ 32 : ℕ) : ZMod p) := by
      rw [← henc.2]
      push_cast
      ring
    have hkey : ((montDecode (montNew p)
        (montInv (montNew p) (montEncode (montNew p) x)) : ℕ) : ZMod p) *
        ((x : ℕ) : ZMod p) = 1 := by
      apply mul_right_cancel₀ (pow_ne_zero 2 hR0)
      calc (((montDecode (montNew p)
              (montInv (montNew p) (montEncode (montNew p) x)) : ℕ) : ZMod p) *
            ((x : ℕ) : ZMod p)) * ((2 ^ 32 : ℕ) : ZMod p) ^ 2
          = (((montInv (montNew p) (montEncode (montNew p) x) : ℕ) : ZMod p) *
              ((2 ^ 32 : ℕ) : ZMod p)) *
            (((montNew p).r_inv : ZMod p) * ((2 ^ 32 : ℕ) : ZMod p)) *
            ((x : ℕ) : ZMod p) := by
            rw [hdec.2]
            ring
        _ = (((mod_inverse ((montEncode (montNew p) x : ℕ) : Int) (p : Int) : Int) :
              ZMod p) * ((2 ^ 32 : ℕ) : ZMod p) ^ 3) * 1 * ((x : ℕ) : ZMod p) := by
            rw [hminv.2, hri.2]
        _ = (((mod_inverse ((montEncode (montNew p) x : ℕ) : Int) (p : Int) : Int) :
              ZMod p) * (((montEncode (montNew p) x : ℕ) : Int) : ZMod p)) *
            ((2 ^ 32 : ℕ) : ZMod p) ^ 2 := by
            rw [henccast]
            ring
        _ = 1 * ((2 ^ 32 : ℕ) : ZMod p) ^ 2 := by rw [hkz]
    have hndx : ¬ (p ∣ x) := fun hd => hx0 (Nat.eq_zero_of_dvd_of_lt hd hx)
    have hgcdx : Int.gcd (p : Int) ((x : ℕ) : Int) = 1 := by
      have hcox : Nat.Coprime p x := (Nat.Prime.coprime_iff_not_dvd hp).mpr hndx
      simpa [Int.gcd_natCast_natCast] using hcox
    have hy := mod_inverse_nonneg_lt (p := (p : Int)) (by exact_mod_cast hp2)
      (k := ((x : ℕ) : Int)) (by positivity)
    have hyz := mod_inverse_zmod hp2 ((x : ℕ) : Int) (by positivity) hgcdx
    apply int_eq_of_zmod_eq (Int.natCast_nonneg _) (by exact_mod_cast hdec.1)
      hy.1 hy.2
    rw [show (((montDecode (montNew p)
        (montInv (montNew p) (montEncode (montNew p) x)) : ℕ) : Int) : ZMod p) =
        ((montDecode (montNew p)
          (montInv (montNew p) (montEncode (montNew p) x)) : ℕ) : ZMod p) from by
          push_cast; ring]
    apply mul_right_cancel₀ hxz
    rw [hkey, hxcast]
    exact hyz.symm


/-! ### Bounds for the remaining Montgomery operations -/

theorem intToU32_lt (z : Int) : intToU32 z < 2 ^ 32 := by
  simp only [intToU32]
  have h1 := Int.emod_nonneg z (show ((2 : Int) ^ 32) ≠ 0 by norm_num)
  have h2 := Int.emod_lt_of_pos z (show (0 : Int) < 2 ^ 32 by norm_num)
  omega

theorem montMul_bound {p : ℕ} (hp0 : 0 < p) (hp32 : p < 2 ^ 32) {a b : ℕ}
    (ha : a ≤ p) (hb : b ≤ p) : montMul (montNew p) a b < p := by
  have hab : a * b % 2 ^ 64 < 2 ^ 32 * p := by
    calc a * b % 2 ^ 64 ≤ a * b := Nat.mod_le _ _
    _ ≤ p * p := Nat.mul_le_mul ha hb
    _ < 2 ^ 32 * p := Nat.mul_lt_mul_of_lt_of_le hp32 le_rfl hp0
  have h := redc_bound (montNew p) (by rw [montNew_n]; exact hp0)
    (by rw [montNew_n]; exact hp32) (a := a * b % 2 ^ 64)
    (by rw [montNew_n]; exact hab)
  rw [montNew_n] at h
  exact h

theorem montEncode_lt {p : ℕ} (hp0 : 0 < p) (x : ℕ) :
    montEncode (montNew p) x < p := by
  simp only [montEncode, montNew_n]
  exact Nat.mod_lt _ hp0

theorem montPowAux_bound {p : ℕ} (hp0 : 0 < p) (hp32 : p < 2 ^ 32) :
    ∀ (fuel x e acc : ℕ), x ≤ p → acc < p →
    montPowAux (montNew p) fuel x e acc < p := by
  intro fuel
  induction fuel with
  | zero => intro x e acc _ hacc; exact hacc
  | succ fuel ih =>
    intro x e acc hx hacc
    by_cases he0 : e = 0
    · simp only [montPowAux, if_pos he0]; exact hacc
    · simp only [montPowAux, if_neg he0]
      by_cases he2 : e % 2 = 0
      · simp only [if_pos he2]
        exact ih _ _ _ (le_of_lt (montMul_bound hp0 hp32 hx hx)) hacc
      · simp only [if_neg he2]
        exact ih _ _ _ (le_of_lt (montMul_bound hp0 hp32 hx hx))
          (montMul_bound hp0 hp32 (le_of_lt hacc) hx)

theorem montInv_bound {p : ℕ} (hp : 2 ≤ p) (hp32 : p < 2 ^ 32) (a : ℕ) :
    montInv (montNew p) a < p := by
  have hk := mod_inverse_nonneg_lt (p := (p : Int)) (by exact_mod_cast hp)
    (k := (a : Int)) (by positivity)
  set k : Int := mod_inverse (a : Int) (p : Int) with hkdef
  have hkN : (k.toNat : Int) = k := Int.toNat_of_nonneg hk.1
  have hkNp : k.toNat < p := by
    have h1 : (k.toNat : Int) < (p : Int) := by rw [hkN]; exact hk.2
    exact_mod_cast h1
  have hp32I : ((p : ℕ) : Int) < 2 ^ 32 := by exact_mod_cast hp32
  have hu64 : intToU64 k = k.toNat := by
    simp only [intToU64]
    rw [Int.emod_eq_of_lt hk.1 (by omega)]
  have hrc32 : (montNew p).r_cube < 2 ^ 32 := by
    have h : (montNew p).r_cube =
        intToU32 (mod_pow (Int.tmod (((2 : ℕ) ^ 32 : ℕ) : Int) (p : Int)) 3 (p : Int)) := by
      simp only [montNew]
    rw [h]
    exact intToU32_lt _
  have hz : k.toNat * (montNew p).r_cube % 2 ^ 64 < 2 ^ 32 * p := by
    calc k.toNat * (montNew p).r_cube % 2 ^ 64
        ≤ k.toNat * (montNew p).r_cube := Nat.mod_le _ _
    _ < p * 2 ^ 32 :=
        Nat.mul_lt_mul_of_lt_of_le hkNp (le_of_lt hrc32) (by norm_num)
    _ = 2 ^ 32 * p := Nat.mul_comm _ _
  have hIdef : montInv (montNew p) a =
      redc (montNew p) (k.toNat * (montNew p).r_cube % 2 ^ 64) := by
    simp only [montInv, montNew_n, ← hkdef, hu64]
  rw [hIdef]
  have h := redc_bound (montNew p) (by rw [montNew_n]; omega)
    (by rw [montNew_n]; exact hp32) (by rw [montNew_n]; exact hz)
  rw [montNew_n] at h
  exact h

/-! ### The C9 canonical-form theorem -/

/-- C9: Montgomery canonical form. The claim as stated is false: `add` only
reduces sums *strictly greater* than `p`, so a sum equal to `p` (e.g.
`2 + 3` mod `5`) is returned as the non-canonical representation `p`, and
`sub` likewise returns `p` for `a - a`; moreover for `p = 2` the backend's
`eq` distinguishes representations with equal decodings. Amended: with
inputs in `[0, p)`, `add` and `sub` return a representation `≤ p` (exactly
`p` is possible) that is congruent to the mathematical result, `mul`,
`pow`, `inv` and `encode` return values in `[0, p)`, and for odd `p ≥ 2`
any two representations with equal decodings do compare equal under `eq`. -/
theorem montgomery_canonical_form (p : ℕ) (hp0 : 0 < p) (hp32 : p < 2 ^ 32) :
    (∀ a b : ℕ, a < p → b < p → montAdd (montNew p) a b ≤ p ∧
      ((montAdd (montNew p) a b : ZMod p) = (a : ZMod p) + (b : ZMod p))) ∧
    (∀ a b : ℕ, a < p → b < p → montSub (montNew p) a b ≤ p ∧
      ((montSub (montNew p) a b : ZMod p) = (a : ZMod p) - (b : ZMod p))) ∧
    (∀ a b : ℕ, a ≤ p → b ≤ p → montMul (montNew p) a b < p) ∧
    (∀ a e : ℕ, a ≤ p → montPow (montNew p) a e < p) ∧
    (2 ≤ p → ∀ a : ℕ, montInv (montNew p) a < p) ∧
    (∀ x : ℕ, montEncode (montNew p) x < p) ∧
    (p % 2 = 1 → 2 ≤ p → ∀ a b : ℕ,
      montDecode (montNew p) a = montDecode (montNew p) b →
      montEq (montNew p) a b = true) := by
  refine ⟨?_, ?_, ?_, ?_, ?_, ?_, ?_⟩
  · intro a b ha hb
    constructor
    · simp only [montAdd, montNew_n]
      split <;> omega
    · simp only [montAdd, montNew_n]
      by_cases h : p < a + b
      · rw [if_pos h, Nat.cast_sub (by omega), ZMod.natCast_self]
        push_cast
        ring
      · rw [if_neg h]
        push_cast
        ring
  · intro a b ha hb
    constructor
    · simp only [montSub, montNew_n]
      split <;> omega
    · simp only [montSub, montNew_n]
      by_cases h : b < a
      · rw [if_pos h, Nat.cast_sub (le_of_lt h)]
      · rw [if_neg h, Nat.cast_sub (by omega : b ≤ a + p)]
        push_cast [ZMod.natCast_self]
        ring
  · intro a b ha hb
    exact montMul_bound hp0 hp32 ha hb
  · intro a e ha
    exact montPowAux_bound hp0 hp32 (e + 1) a e (montOne (montNew p)) ha
      (montEncode_lt hp0 1)
  · intro hp2 a
    exact montInv_bound hp2 hp32 a
  · exact montEncode_lt hp0
  · intro hodd hp2 a b hab
    have hri := r_inv_spec hp2 hp32 hodd
    haveI : Fact (1 < p) := ⟨by omega⟩
    have h1 : ((a * (montNew p).r_inv % p : ℕ) : ZMod p) =
        ((b * (montNew p).r_inv % p : ℕ) : ZMod p) := by
      have := congrArg (Nat.cast : ℕ → ZMod p) hab
      simpa [montDecode, montNew_n] using this
    rw [ZMod.natCast_mod, ZMod.natCast_mod] at h1
    push_cast at h1
    have hcast : (a : ZMod p) = (b : ZMod p) := by
      calc (a : ZMod p)
          = (a : ZMod p) * (((montNew p).r_inv : ZMod p) *
              ((2 ^ 32 : ℕ) : ZMod p)) := by rw [hri.2, mul_one]
        _ = ((a : ZMod p) * ((montNew p).r_inv : ZMod p)) *
              ((2 ^ 32 : ℕ) : ZMod p) := by ring
        _ = ((b : ZMod p) * ((montNew p).r_inv : ZMod p)) *
              ((2 ^ 32 : ℕ) : ZMod p) := by rw [h1]
        _ = (b : ZMod p) * (((montNew p).r_inv : ZMod p) *
              ((2 ^ 32 : ℕ) : ZMod p)) := by ring
        _ = (b : ZMod p) := by rw [hri.2, mul_one]
    have hmod : a % p = b % p := (ZMod.natCast_eq_natCast_iff a b p).mp hcast
    simp [montEq, montNew_n, hmod]

/-- C9 witness: the amended theorem applied at `p = 5`, `a = 2`, `b = 3`. -/
theorem montgomery_canonical_form_witness :
    montAdd (montNew 5) 2 3 ≤ 5 ∧
      ((montAdd (montNew 5) 2 3 : ZMod 5) = ((2 : ℕ) : ZMod 5) + ((3 : ℕ) : ZMod 5)) :=
  (montgomery_canonical_form 5 (by norm_num) (by norm_num)).1 2 3
    (by norm_num) (by norm_num)

set_option maxRecDepth 4000 in
/-- C9 counterexample: with canonical inputs, `add` returns the
non-canonical representation `p` when the sum equals `p` (2 + 3 = 5 mod 5),
`sub` returns `p` for `a - a`, and for `p = 2` the representations `0` and
`1` decode to the same value yet compare unequal under `eq`. -/
theorem montgomery_canonical_form_cex :
    montAdd (montNew 5) 2 3 = 5 ∧
    montSub (montNew 5) 2 2 = 5 ∧
    montDecode (montNew 2) 0 = montDecode (montNew 2) 1 ∧
    montEq (montNew 2) 0 1 = false := by decide

/-! ### The C5 witness and counterexample -/

/-- C5 witness: the agreement theorem applied at `p = 5`, `x = 3`, `e = 2`. -/
theorem montgomery_matches_natural_witness :
    ((montDecode (montNew 5) (montPow (montNew 5) (montEncode (montNew 5) 3) 2) : Int) =
      naturalPow ((5 : ℕ) : Int) ((3 : ℕ) : Int) 2) ∧
    ((montDecode (montNew 5) (montInv (montNew 5) (montEncode (montNew 5) 3)) : Int) =
      naturalInv ((5 : ℕ) : Int) ((3 : ℕ) : Int)) :=
  ⟨(montgomery_matches_natural 5 (by norm_num) (by norm_num) (by norm_num) 3
      (by norm_num) 2).1,
   (montgomery_matches_natural 5 (by norm_num) (by norm_num) (by norm_num) 3
      (by norm_num) 2).2 (by norm_num)⟩

set_option maxRecDepth 4000 in
/-- C5 counterexample: the claim quantifies over *every* prime `p < 2^32`.
At `p = 2` decoding Montgomery `pow(encode 1, 1)` yields `0` while the
naive backend yields `1`; at the prime `p = 3221225473 < 2^32` the naive
backend's `i64` squaring of `p - 1` overflows and returns a negative
number while the Montgomery backend returns `0` (the true value of
`(p-1)^2 mod p` being `1`), so the backends disagree. -/
theorem montgomery_natural_mismatch :
    (Nat.Prime 2 ∧
      (montDecode (montNew 2) (montPow (montNew 2) (montEncode (montNew 2) 1) 1) : Int) = 0 ∧
      naturalPow (2 : Int) (1 : Int) 1 = 1) ∧
    (Nat.Prime 3221225473 ∧ (3221225473 : ℕ) < 2 ^ 32 ∧
      (montDecode (montNew 3221225473)
        (montPow (montNew 3221225473)
          (montEncode (montNew 3221225473) 3221225472) 2) : Int) = 0 ∧
      naturalPow (3221225473 : Int) (3221225472 : Int) 2 = -1789569708) :=
  ⟨⟨by norm_num, by decide, by decide⟩,
   ⟨prime_3221225473, by norm_num, by decide, by decide⟩⟩

/-! ### The C6 theorem: inverse of zero -/

/-- C6: InverseOfZero. The claim is false as stated: neither backend has an
error channel — `inv` is total. On the additive identity it returns the
ordinary element `0`: the naive backend's `mod_inverse(0, p)` is `0`, and
the Montgomery backend's `inv` of its zero representation is `0` as well. -/
theorem inv_zero_yields_zero (p : ℕ) (hp : 2 ≤ p) :
    naturalInv (p : Int) 0 = 0 ∧ montZero (montNew p) = 0 ∧
      montInv (montNew p) (montZero (montNew p)) = 0 := by
  have hppos : (0 : Int) < (p : Int) := by exact_mod_cast (by omega : 0 < p)
  have h0 : mod_inverse 0 (p : Int) = 0 := mod_inverse_zero hppos
  have hz : montZero (montNew p) = 0 := by
    simp [montZero, montEncode]
  refine ⟨h0, hz, ?_⟩
  rw [hz]
  have h0c : mod_inverse ((0 : ℕ) : Int) (((montNew p).n : ℕ) : Int) = 0 := by
    rw [montNew_n]
    simpa using h0
  have hu : intToU64 (0 : Int) = 0 := by simp [intToU64]
  simp only [montInv, h0c, hu, Nat.zero_mul, Nat.zero_mod, redc]
  norm_num

/-- C6 witness: the amended theorem applied at `p = 11`. -/
theorem inv_zero_yields_zero_witness :
    naturalInv ((11 : ℕ) : Int) 0 = 0 ∧ montZero (montNew 11) = 0 ∧
      montInv (montNew 11) (montZero (montNew 11)) = 0 :=
  inv_zero_yields_zero 11 (by norm_num)

/-- C6 counterexample: `inv` on zero does not fail — it returns the
ordinary field element `0` (here for the naive backend at `p = 7`). -/
theorem inv_zero_no_failure : naturalInv (7 : Int) 0 = 0 := by decide

/-! ### The C10 theorem: the binary egcd bug -/

/-- C10: Extended GCD contract for both variants. This is a code bug: the
recursive Euclidean `gcd` satisfies the contract (here checked at the
input `(5, 3)`, and proved in general in `gcd_spec`), but `binary_egcd`
does not — its swap block `a = b; b = a; ...` loses the old values, so at
`(5, 3)` it returns `(3, 0, 1)` whose first component is not
`gcd(5, 3) = 1`. -/
theorem binary_egcd_contract_violation :
    (TSS.gcd 5 3).1 = ((Int.gcd 5 3 : ℕ) : Int) ∧
    (TSS.gcd 5 3).2.1 * 5 + (TSS.gcd 5 3).2.2 * 3 = (TSS.gcd 5 3).1 ∧
    binary_egcd 5 3 = (3, 0, 1) ∧
    (binary_egcd 5 3).1 ≠ ((Int.gcd 5 3 : ℕ) : Int) := by decide


/-! ### Length preservation of the in-place FFT loops -/

theorem length_listSwap (d : List α) (i j : ℕ) :
    (listSwap d i j).length = d.length := by
  rcases hi : d[i]? with _ | x <;> rcases hj : d[j]? with _ | y <;>
    simp [listSwap, hi, hj]

theorem foldl_snd_length {β σ γ : Type _} (f : σ × List β → γ → σ × List β)
    (h : ∀ st x, ((f st x).2).length = st.2.length) :
    ∀ (l : List γ) (st : σ × List β), (((l.foldl f st)).2).length = st.2.length := by
  intro l
  induction l with
  | nil => intro st; rfl
  | cons x xs ih => intro st; rw [List.foldl_cons, ih, h]

theorem length_fft2_in_place_rearrange (data : List α) :
    (fft2_in_place_rearrange data).length = data.length := by
  unfold fft2_in_place_rearrange
  rw [foldl_snd_length]
  intro st x
  simp only [fft2RearrangeStep]
  split <;> simp [length_listSwap]

theorem length_butterfly2 [Field F] (data : List F) (pair step : ℕ) (factor : F) :
    (butterfly2 data pair step factor).length = data.length := by
  simp [butterfly2]

theorem length_fft2PairLoop [Field F] :
    ∀ (fuel pair step jump : ℕ) (factor : F) (data : List F),
    (fft2PairLoop fuel pair step jump factor data).length = data.length := by
  intro fuel
  induction fuel with
  | zero => intro pair step jump factor data; rfl
  | succ fuel ih =>
    intro pair step jump factor data
    simp only [fft2PairLoop]
    split
    · rw [ih, length_butterfly2]
    · rfl

theorem length_fft2Level [Field F] (data : List F) (omega : F) (step : ℕ) :
    (fft2Level data omega step).length = data.length := by
  unfold fft2Level
  rw [foldl_snd_length]
  intro st x
  simp only [fft2GroupStep]
  rw [length_fft2PairLoop]

theorem length_fft2ComputeLoop [Field F] :
    ∀ (fuel depth : ℕ) (omega : F) (data : List F),
    (fft2ComputeLoop fuel depth omega data).length = data.length := by
  intro fuel
  induction fuel with
  | zero => intro depth omega data; rfl
  | succ fuel ih =>
    intro depth omega data
    simp only [fft2ComputeLoop]
    split
    · rw [ih, length_fft2Level]
    · rfl

theorem length_fft2 [Field F] (data : List F) (omega : F) :
    (fft2 data omega).length = data.length := by
  unfold fft2 fft2_in_place_compute
  rw [length_fft2ComputeLoop, length_fft2_in_place_rearrange]

theorem length_fft2_inverse [Field F] (data : List F) (omega : F) :
    (fft2_inverse data omega).length = data.length := by
  simp [fft2_inverse, length_fft2]

theorem length_fft3_in_place_rearrange (data : List α) :
    (fft3_in_place_rearrange data).length = data.length := by
  unfold fft3_in_place_rearrange
  dsimp only
  rw [foldl_snd_length]
  intro st x
  simp only [fft3RearrangeStep]
  split <;> simp [length_listSwap]

theorem length_butterfly3 [Field F] (data : List F) (pair step : ℕ)
    (factor factor_sq bo bo2 : F) :
    (butterfly3 data pair step factor factor_sq bo bo2).length = data.length := by
  simp [butterfly3]

theorem length_fft3PairLoop [Field F] :
    ∀ (fuel pair step jump : ℕ) (factor factor_sq bo bo2 : F) (data : List F),
    (fft3PairLoop fuel pair step jump factor factor_sq bo bo2 data).length =
      data.length := by
  intro fuel
  induction fuel with
  | zero => intro pair step jump factor factor_sq bo bo2 data; rfl
  | succ fuel ih =>
    intro pair step jump factor factor_sq bo bo2 data
    simp only [fft3PairLoop]
    split
    · rw [ih, length_butterfly3]
    · rfl

theorem length_fft3Level [Field F] (data : List F) (omega : F) (step : ℕ)
    (bo bo2 : F) :
    (fft3Level data omega step bo bo2).length = data.length := by
  unfold fft3Level
  rw [foldl_snd_length]
  intro st x
  simp only [fft3GroupStep]
  rw [length_fft3PairLoop]

theorem length_fft3ComputeLoop [Field F] :
    ∀ (fuel step : ℕ) (omega bo bo2 : F) (data : List F),
    (fft3ComputeLoop fuel step omega bo bo2 data).length = data.length := by
  intro fuel
  induction fuel with
  | zero => intro step omega bo bo2 data; rfl
  | succ fuel ih =>
    intro step omega bo bo2 data
    simp only [fft3ComputeLoop]
    split
    · rw [ih, length_fft3Level]
    · rfl

theorem length_fft3 [Field F] (data : List F) (omega : F) :
    (fft3 data omega).length = data.length := by
  unfold fft3 fft3_in_place_compute
  rw [length_fft3ComputeLoop, length_fft3_in_place_rearrange]

theorem length_fft3_inverse [Field F] (data : List F) (omega : F) :
    (fft3_inverse data omega).length = data.length := by
  simp [fft3_inverse, length_fft3]

theorem length_share [Field F] (pss : PackedSecretSharing F)
    (secrets randomness : List F)
    (hsec : secrets.length = pss.secret_count)
    (hrand : randomness.length = pss.threshold)
    (hrl : reconstruct_limit pss ≤ pss.share_count) :
    (share pss secrets randomness).length = pss.share_count := by
  simp only [share, evaluate_polynomial, recover_polynomial]
  rw [List.length_drop, length_fft3, List.length_append, length_fft2_inverse]
  simp only [List.length_append, List.length_replicate, List.length_cons,
    List.length_nil, hsec, hrand]
  simp only [reconstruct_limit] at hrl ⊢
  omega

/-! ### C7 and C8: output size and index-independence of packed
reconstruction -/

/-- C7: `fully_reconstruct` output size.  This is a code bug: on the
Newton-interpolation path the source evaluates at `e` in
`1..reconstruct_limit()` — only `t + k - 1` points — so one value short of
the claimed `m - 1 = t + k`; the FFT path does return all `t + k` values
after the leading zero. -/
theorem fully_reconstruct_size_bug :
    (∀ (F : Type) [Field F] (pss : PackedSecretSharing F) (indices : List ℕ)
      (shares : List F), shares.length ≠ pss.share_count →
      (fully_reconstruct pss indices shares).length = reconstruct_limit pss - 1) ∧
    (∀ (F : Type) [Field F] (pss : PackedSecretSharing F) (indices : List ℕ)
      (shares : List F), shares.length = pss.share_count →
      reconstruct_limit pss ≤ pss.share_count →
      (fully_reconstruct pss indices shares).length = reconstruct_limit pss) := by
  constructor
  · intro F _ pss indices shares hne
    simp [fully_reconstruct, if_neg hne]
  · intro F _ pss indices shares heq hrl
    simp only [fully_reconstruct, if_pos heq]
    rw [List.length_drop, length_fft2, List.length_take, length_fft3_inverse]
    simp only [List.length_append, List.length_cons, List.length_nil, heq]
    omega

/-- C7 witness: the sizes at the `PSS_4_8_3` preset (`t + k = 7`): seven
shares take the Newton path and yield six values, all eight shares take
the FFT path and yield seven. -/
theorem fully_reconstruct_size_bug_witness :
    (fully_reconstruct PSS_4_8_3 [0, 1, 2, 3, 4, 5, 6]
      (List.replicate 7 (0 : ZMod 433))).length = reconstruct_limit PSS_4_8_3 - 1 ∧
    (fully_reconstruct PSS_4_8_3 [0, 1, 2, 3, 4, 5, 6, 7]
      (List.replicate 8 (0 : ZMod 433))).length = reconstruct_limit PSS_4_8_3 :=
  ⟨fully_reconstruct_size_bug.1 (ZMod 433) PSS_4_8_3 _ _ (by decide),
   fully_reconstruct_size_bug.2 (ZMod 433) PSS_4_8_3 _ _ (by decide) (by decide)⟩

/-- C8: when all `share_count` shares are given, both reconstruction
functions take the FFT fast path, whose result never reads `indices`: any
two index vectors give the same output. -/
theorem reconstruct_ignores_indices (F : Type) [Field F]
    (pss : PackedSecretSharing F) (i1 i2 : List ℕ) (shares : List F)
    (h : shares.length = pss.share_count) :
    reconstruct pss i1 shares = reconstruct pss i2 shares ∧
    fully_reconstruct pss i1 shares = fully_reconstruct pss i2 shares := by
  constructor
  · simp only [reconstruct, if_pos h]
  · simp only [fully_reconstruct, if_pos h]

/-- C8 witness: at the `PSS_4_8_3` preset with eight shares, two different
index vectors give identical results. -/
theorem reconstruct_ignores_indices_witness :
    reconstruct PSS_4_8_3 [0, 1, 2, 3, 4, 5, 6, 7] (List.replicate 8 (0 : ZMod 433)) =
      reconstruct PSS_4_8_3 [7, 6, 5, 4, 3, 2, 1, 0] (List.replicate 8 (0 : ZMod 433)) ∧
    fully_reconstruct PSS_4_8_3 [0, 1, 2, 3, 4, 5, 6, 7]
        (List.replicate 8 (0 : ZMod 433)) =
      fully_reconstruct PSS_4_8_3 [7, 6, 5, 4, 3, 2, 1, 0]
        (List.replicate 8 (0 : ZMod 433)) :=
  reconstruct_ignores_indices (ZMod 433) PSS_4_8_3 _ _ _ (by decide)


/-! ### Digit reversal -/

theorem baseRev_zero (B : ℕ) : ∀ ℓ : ℕ, baseRev B ℓ 0 = 0 := by
  intro ℓ
  induction ℓ with
  | zero => rfl
  | succ ℓ ih =>
    have h : baseRev B (ℓ + 1) 0 = baseRev B ℓ (0 / B) + 0 % B * B ^ ℓ := rfl
    rw [h, Nat.zero_div, Nat.zero_mod, ih]
    ring

theorem baseRev_lt {B : ℕ} (hB : 1 ≤ B) : ∀ (ℓ i : ℕ), baseRev B ℓ i < B ^ ℓ := by
  intro ℓ
  induction ℓ with
  | zero =>
    intro i
    show (0 : ℕ) < B ^ 0
    exact pow_pos (by omega) 0
  | succ ℓ ih =>
    intro i
    have h1 := ih (i / B)
    have h2 : i % B < B := Nat.mod_lt _ (by omega)
    calc baseRev B (ℓ + 1) i = baseRev B ℓ (i / B) + i % B * B ^ ℓ := rfl
    _ < B ^ ℓ + i % B * B ^ ℓ := by omega
    _ = (i % B + 1) * B ^ ℓ := by ring
    _ ≤ B * B ^ ℓ := Nat.mul_le_mul_right _ (by omega)
    _ = B ^ (ℓ + 1) := by ring

theorem baseRev_succ_left {B : ℕ} (hB : 2 ≤ B) : ∀ (ℓ i : ℕ), i < B ^ (ℓ + 1) →
    baseRev B (ℓ + 1) i = B * baseRev B ℓ (i % B ^ ℓ) + i / B ^ ℓ := by
  intro ℓ
  induction ℓ with
  | zero =>
    intro i hi
    have hi2 : i < B := by
      have h : B ^ (0 + 1) = B := by ring
      omega
    have h1 : baseRev B 1 i = baseRev B 0 (i / B) + i % B * B ^ 0 := rfl
    have h2 : ∀ j : ℕ, baseRev B 0 j = 0 := fun _ => rfl
    rw [h1, h2, h2, Nat.mod_eq_of_lt hi2, pow_zero]
    omega
  | succ ℓ ih =>
    intro i hi
    have hB0 : 0 < B := by omega
    have hdivlt : i / B < B ^ (ℓ + 1) := by
      rw [Nat.div_lt_iff_lt_mul hB0]
      calc i < B ^ (ℓ + 2) := hi
      _ = B ^ (ℓ + 1) * B := by ring
    have e1 : (i % B ^ (ℓ + 1)) / B = (i / B) % B ^ ℓ := by
      have h : B ^ (ℓ + 1) = B * B ^ ℓ := by ring
      rw [h, Nat.mod_mul_right_div_self]
    have e2 : (i % B ^ (ℓ + 1)) % B = i % B :=
      Nat.mod_mod_of_dvd _ (dvd_pow_self B (by omega))
    have e3 : i / B ^ (ℓ + 1) = (i / B) / B ^ ℓ := by
      rw [Nat.div_div_eq_div_mul]
      congr 1
      ring
    calc baseRev B (ℓ + 2) i
        = baseRev B (ℓ + 1) (i / B) + i % B * B ^ (ℓ + 1) := rfl
    _ = (B * baseRev B ℓ ((i / B) % B ^ ℓ) + (i / B) / B ^ ℓ) + i % B * B ^ (ℓ + 1) := by
        rw [ih (i / B) hdivlt]
    _ = B * (baseRev B ℓ ((i / B) % B ^ ℓ) + i % B * B ^ ℓ) + (i / B) / B ^ ℓ := by
        ring
    _ = B * (baseRev B ℓ ((i % B ^ (ℓ + 1)) / B) + (i % B ^ (ℓ + 1)) % B * B ^ ℓ) +
          i / B ^ (ℓ + 1) := by rw [e1, e2, e3]
    _ = B * baseRev B (ℓ + 1) (i % B ^ (ℓ + 1)) + i / B ^ (ℓ + 1) := rfl

theorem baseRev_baseRev {B : ℕ} (hB : 2 ≤ B) : ∀ (ℓ i : ℕ), i < B ^ ℓ →
    baseRev B ℓ (baseRev B ℓ i) = i := by
  intro ℓ
  induction ℓ with
  | zero =>
    intro i hi
    simp only [pow_zero, Nat.lt_one_iff] at hi
    subst hi
    rfl
  | succ ℓ ih =>
    intro i hi
    have hrlt : baseRev B ℓ (i / B) < B ^ ℓ := baseRev_lt (by omega) ℓ (i / B)
    have hmod : i % B < B := Nat.mod_lt _ (by omega)
    have hall : baseRev B (ℓ + 1) i < B ^ (ℓ + 1) := baseRev_lt (by omega) (ℓ + 1) i
    have hstep : baseRev B (ℓ + 1) i = baseRev B ℓ (i / B) + i % B * B ^ ℓ := rfl
    rw [baseRev_succ_left hB ℓ _ hall, hstep]
    have e1 : (baseRev B ℓ (i / B) + i % B * B ^ ℓ) % B ^ ℓ = baseRev B ℓ (i / B) := by
      rw [Nat.add_mul_mod_self_right, Nat.mod_eq_of_lt hrlt]
    have e2 : (baseRev B ℓ (i / B) + i % B * B ^ ℓ) / B ^ ℓ = i % B := by
      rw [Nat.add_mul_div_right _ _ (pow_pos (show 0 < B by omega) ℓ),
        Nat.div_eq_of_lt hrlt]
      omega
    rw [e1, e2, ih (i / B) (by
      rw [Nat.div_lt_iff_lt_mul (by omega : 0 < B)]
      calc i < B ^ (ℓ + 1) := hi
      _ = B ^ ℓ * B := by ring)]
    exact Nat.div_add_mod i B

/-! ### Bit manipulation on a power-of-two mask -/

theorem testBit_mul_two_pow_add (k b r : ℕ) (hb : b ≤ 1) (hr : r < 2 ^ k) (i : ℕ) :
    (b * 2 ^ k + r).testBit i =
      (if i < k then r.testBit i else if i = k then decide (b = 1) else false) := by
  rcases Nat.lt_trichotomy i k with hik | hik | hik
  · have hk : (2 : ℕ) ^ k = 2 ^ (k - i - 1) * 2 * 2 ^ i := by
      rw [mul_assoc, ← pow_succ']
      rw [← pow_add]
      congr 1
      omega
    have h1 : (b * 2 ^ k + r) / 2 ^ i % 2 = r / 2 ^ i % 2 := by
      have e1 : b * 2 ^ k + r = r + b * (2 ^ (k - i - 1) * 2) * 2 ^ i := by
        rw [hk]; ring
      rw [e1, Nat.add_mul_div_right _ _ (pow_pos (show (0:ℕ) < 2 by omega) i)]
      have hm : b * (2 ^ (k - i - 1) * 2) = 2 * (b * 2 ^ (k - i - 1)) := by ring
      rw [hm, Nat.add_mul_mod_self_left]
    simp only [Nat.testBit_to_div_mod, h1, if_pos hik]
  · have h1 : (b * 2 ^ k + r) / 2 ^ k % 2 = b := by
      have e1 : b * 2 ^ k + r = r + b * 2 ^ k := by ring
      rw [e1, Nat.add_mul_div_right _ _ (pow_pos (show (0:ℕ) < 2 by omega) k),
        Nat.div_eq_of_lt hr]
      omega
    rw [hik]
    simp [Nat.testBit_to_div_mod, h1]
  · have h1 : (b * 2 ^ k + r) / 2 ^ i % 2 = 0 := by
      have hlt2 : b * 2 ^ k + r < 2 ^ i := by
        calc b * 2 ^ k + r < (b + 1) * 2 ^ k := by
              have := pow_pos (show (0:ℕ) < 2 by omega) k
              ring_nf
              omega
        _ ≤ 2 * 2 ^ k := Nat.mul_le_mul_right _ (by omega)
        _ = 2 ^ (k + 1) := by ring
        _ ≤ 2 ^ i := Nat.pow_le_pow_right (by omega) (by omega)
      rw [Nat.div_eq_of_lt hlt2]
    simp only [Nat.testBit_to_div_mod, h1, if_neg (by omega : ¬ i < k),
      if_neg (by omega : ¬ i = k)]
    rfl

theorem and_two_pow_add (k b r : ℕ) (hb : b ≤ 1) (hr : r < 2 ^ k) :
    (b * 2 ^ k + r) &&& 2 ^ k = b * 2 ^ k := by
  apply Nat.eq_of_testBit_eq
  intro i
  rw [Nat.testBit_and, testBit_mul_two_pow_add k b r hb hr,
    show b * 2 ^ k = b * 2 ^ k + 0 by ring,
    testBit_mul_two_pow_add k b 0 hb (pow_pos (show (0:ℕ) < 2 by omega) k)]
  by_cases h : i = k
  · subst h
    simp [Nat.testBit_two_pow_self]
  · rw [Nat.testBit_two_pow_of_ne (fun hk => h hk.symm)]
    simp [h, Nat.zero_testBit]

theorem xor_two_pow_add (k r : ℕ) (hr : r < 2 ^ k) : (2 ^ k + r) ^^^ 2 ^ k = r := by
  apply Nat.eq_of_testBit_eq
  intro i
  rw [Nat.testBit_xor, show (2 : ℕ) ^ k + r = 1 * 2 ^ k + r by ring,
    testBit_mul_two_pow_add k 1 r (by omega) hr]
  by_cases h : i = k
  · subst h
    have : r.testBit i = false :=
      Nat.testBit_lt_two_pow hr
    simp [Nat.testBit_two_pow_self, this]
  · rw [Nat.testBit_two_pow_of_ne (fun hk => h hk.symm)]
    rcases Nat.lt_or_ge i k with hik | hik
    · simp [hik]
    · have hik' : k < i := by omega
      have : r.testBit i = false :=
        Nat.testBit_lt_two_pow (lt_of_lt_of_le hr (Nat.pow_le_pow_right (by omega) (by omega)))
      simp [h, hik, this]

theorem or_two_pow_add (k r : ℕ) (hr : r < 2 ^ k) : r ||| 2 ^ k = 2 ^ k + r := by
  apply Nat.eq_of_testBit_eq
  intro i
  rw [Nat.testBit_or, show (2 : ℕ) ^ k + r = 1 * 2 ^ k + r by ring,
    testBit_mul_two_pow_add k 1 r (by omega) hr]
  by_cases h : i = k
  · subst h
    have : r.testBit i = false := Nat.testBit_lt_two_pow hr
    simp [Nat.testBit_two_pow_self, this]
  · rw [Nat.testBit_two_pow_of_ne (fun hk => h hk.symm)]
    rcases Nat.lt_or_ge i k with hik | hik
    · simp [hik]
    · have : r.testBit i = false :=
        Nat.testBit_lt_two_pow (lt_of_lt_of_le hr (Nat.pow_le_pow_right (by omega) (by omega)))
      simp [h, hik, this]

/-! ### The `maskLoop` target update steps through bit-reversed order -/

theorem maskLoop_spec : ∀ (ℓ fuel pos : ℕ), ℓ ≤ fuel → pos + 1 < 2 ^ ℓ →
    (maskLoop fuel (baseRev 2 ℓ pos) (2 ^ ℓ / 2)).1 |||
      (maskLoop fuel (baseRev 2 ℓ pos) (2 ^ ℓ / 2)).2 = baseRev 2 ℓ (pos + 1) := by
  intro ℓ
  induction ℓ with
  | zero => intro fuel pos _ h; omega
  | succ ℓ ih =>
    intro fuel pos hfuel hpos
    obtain ⟨fuel, rfl⟩ : ∃ f, fuel = f + 1 := ⟨fuel - 1, by omega⟩
    have hmask : 2 ^ (ℓ + 1) / 2 = 2 ^ ℓ := by
      rw [pow_succ, Nat.mul_div_cancel _ (by omega)]
    have hr : baseRev 2 ℓ (pos / 2) < 2 ^ ℓ := baseRev_lt (by omega) ℓ (pos / 2)
    have hstep : baseRev 2 (ℓ + 1) pos = pos % 2 * 2 ^ ℓ + baseRev 2 ℓ (pos / 2) := by
      show baseRev 2 ℓ (pos / 2) + pos % 2 * 2 ^ ℓ = _
      ring
    have hand : baseRev 2 (ℓ + 1) pos &&& 2 ^ ℓ = pos % 2 * 2 ^ ℓ := by
      rw [hstep, and_two_pow_add ℓ (pos % 2) _ (by omega) hr]
    rcases Nat.even_or_odd pos with hev | hod
    · have h2 : pos % 2 = 0 := Nat.even_iff.mp hev
      have hcond : ¬ (baseRev 2 (ℓ + 1) pos &&& 2 ^ ℓ ≠ 0) := by
        rw [hand, h2]
        simp
      rw [hmask]
      simp only [maskLoop, if_neg hcond]
      have htar : baseRev 2 (ℓ + 1) pos = baseRev 2 ℓ (pos / 2) := by
        rw [hstep, h2]
        ring
      rw [htar, or_two_pow_add ℓ _ hr]
      show _ = baseRev 2 ℓ ((pos + 1) / 2) + (pos + 1) % 2 * 2 ^ ℓ
      have e1 : (pos + 1) / 2 = pos / 2 := by omega
      have e2 : (pos + 1) % 2 = 1 := by omega
      rw [e1, e2]
      ring
    · have h2 : pos % 2 = 1 := Nat.odd_iff.mp hod
      have hcond : baseRev 2 (ℓ + 1) pos &&& 2 ^ ℓ ≠ 0 := by
        rw [hand, h2]
        have : 0 < 2 ^ ℓ := pow_pos (show (0:ℕ) < 2 by omega) ℓ
        omega
      rw [hmask]
      simp only [maskLoop, if_pos hcond]
      have hxor : baseRev 2 (ℓ + 1) pos ^^^ 2 ^ ℓ = baseRev 2 ℓ (pos / 2) := by
        rw [hstep, h2, one_mul, xor_two_pow_add ℓ _ hr]
      rw [hxor]
      have hlt : pos / 2 + 1 < 2 ^ ℓ := by
        have : 2 ^ (ℓ + 1) = 2 * 2 ^ ℓ := by ring
        omega
      rw [ih fuel (pos / 2) (by omega) hlt]
      show _ = baseRev 2 ℓ ((pos + 1) / 2) + (pos + 1) % 2 * 2 ^ ℓ
      have e1 : (pos + 1) / 2 = pos / 2 + 1 := by omega
      have e2 : (pos + 1) % 2 = 0 := by omega
      rw [e1, e2]
      ring

/-! ### The radix-2 rearrange loop performs the bit-reversal permutation -/

theorem listSwap_getElem? (d : List α) (i j k : ℕ) (hi : i < d.length)
    (hj : j < d.length) :
    (listSwap d i j)[k]? = if k = i then d[j]? else if k = j then d[i]? else d[k]? := by
  have hi' : d[i]? = some d[i] := List.getElem?_eq_getElem hi
  have hj' : d[j]? = some d[j] := List.getElem?_eq_getElem hj
  have hred : listSwap d i j = (d.set i d[j]).set j d[i] := by
    unfold listSwap
    rw [hi', hj']
  rw [hred]
  by_cases hkj : k = j
  · subst hkj
    rw [List.getElem?_set_eq_of_lt _ (by simpa using hj)]
    by_cases hki : k = i
    · rw [if_pos hki, hki, hi']
    · rw [if_neg hki, if_pos rfl, hi']
  · rw [List.getElem?_set_ne (fun h => hkj h.symm)]
    by_cases hki : k = i
    · subst hki
      rw [List.getElem?_set_eq_of_lt _ hi, if_pos rfl, hj']
    · rw [List.getElem?_set_ne (fun h => hki h.symm), if_neg hki, if_neg hkj]

theorem rearrange2_fold (data : List α) (ℓ : ℕ) (hlen : data.length = 2 ^ ℓ) :
    ∀ P, P ≤ 2 ^ ℓ →
    (P < 2 ^ ℓ → ((List.range P).foldl (fft2RearrangeStep data.length) (0, data)).1
        = baseRev 2 ℓ P) ∧
    (((List.range P).foldl (fft2RearrangeStep data.length) (0, data)).2).length
        = data.length ∧
    (∀ j, j < 2 ^ ℓ →
      (((List.range P).foldl (fft2RearrangeStep data.length) (0, data)).2)[j]? =
        if min j (baseRev 2 ℓ j) < P then data[baseRev 2 ℓ j]? else data[j]?) := by
  intro P
  induction P with
  | zero =>
    intro _
    refine ⟨fun _ => (baseRev_zero 2 ℓ).symm, rfl, ?_⟩
    intro j hj
    rw [if_neg (by omega)]
    rfl
  | succ P ih =>
    intro hP1
    have hP : P < 2 ^ ℓ := by omega
    obtain ⟨htgt, hlen2, hget⟩ := ih (by omega)
    rw [List.range_succ, List.foldl_append, List.foldl_cons, List.foldl_nil]
    set st := (List.range P).foldl (fft2RearrangeStep data.length) (0, data) with hst
    have htgt' : st.1 = baseRev 2 ℓ P := htgt hP
    have hσP : baseRev 2 ℓ P < 2 ^ ℓ := baseRev_lt (by omega) ℓ P
    have hσσ : baseRev 2 ℓ (baseRev 2 ℓ P) = P := baseRev_baseRev (by omega) ℓ P hP
    have hstep : fft2RearrangeStep data.length st P =
        ((maskLoop (data.length / 2 + 1) st.1 (data.length / 2)).1 |||
          (maskLoop (data.length / 2 + 1) st.1 (data.length / 2)).2,
          if P < st.1 then listSwap st.2 st.1 P else st.2) := rfl
    rw [hstep]
    refine ⟨?_, ?_, ?_⟩
    · intro hP1'
      have hfuel : ℓ ≤ 2 ^ ℓ / 2 + 1 := by
        rcases Nat.eq_zero_or_pos ℓ with rfl | hℓ
        · omega
        · obtain ⟨m, rfl⟩ : ∃ m, ℓ = m + 1 := ⟨ℓ - 1, by omega⟩
          have h1 : 2 ^ (m + 1) / 2 = 2 ^ m := by
            rw [pow_succ, Nat.mul_div_cancel _ (by omega)]
          have h2 : m < 2 ^ m := Nat.lt_two_pow m
          omega
      show (maskLoop _ st.1 _).1 ||| (maskLoop _ st.1 _).2 = _
      rw [htgt', hlen]
      exact maskLoop_spec ℓ (2 ^ ℓ / 2 + 1) P hfuel hP1'
    · show (if P < st.1 then listSwap st.2 st.1 P else st.2).length = data.length
      split
      · rw [length_listSwap]
        exact hlen2
      · exact hlen2
    · intro j hj
      show (if P < st.1 then listSwap st.2 st.1 P else st.2)[j]? = _
      have hjσ : baseRev 2 ℓ j < 2 ^ ℓ := baseRev_lt (by omega) ℓ j
      have hjσσ : baseRev 2 ℓ (baseRev 2 ℓ j) = j := baseRev_baseRev (by omega) ℓ j hj
      by_cases hsw : P < st.1
      · rw [if_pos hsw]
        rw [htgt'] at hsw
        have h1 : st.1 < st.2.length := by
          rw [htgt', hlen2, hlen]
          exact hσP
        have h2 : P < st.2.length := by
          rw [hlen2, hlen]
          exact hP
        rw [listSwap_getElem? st.2 st.1 P j h1 h2, htgt']
        by_cases hjeq : j = baseRev 2 ℓ P
        · rw [if_pos hjeq]
          have hj2 : baseRev 2 ℓ j = P := by rw [hjeq, hσσ]
          rw [hget P hP, if_neg (by omega), if_pos (by omega), hj2]
        · rw [if_neg hjeq]
          by_cases hjP : j = P
          · rw [if_pos hjP]
            rw [hget (baseRev 2 ℓ P) hσP, hσσ, if_neg (by omega)]
            have hj2 : baseRev 2 ℓ j = baseRev 2 ℓ P := by rw [hjP]
            rw [if_pos (by omega), hj2]
          · rw [if_neg hjP, hget j hj]
            have hne1 : baseRev 2 ℓ j ≠ P := by
              intro h
              apply hjeq
              rw [← h, hjσσ]
            by_cases hmin : min j (baseRev 2 ℓ j) < P
            · rw [if_pos hmin, if_pos (by omega)]
            · rw [if_neg hmin, if_neg (by omega)]
      · rw [if_neg hsw]
        rw [htgt'] at hsw
        rw [hget j hj]
        by_cases hjP : j = P
        · subst hjP
          by_cases hσeq : baseRev 2 ℓ j = j
          · rw [hσeq]
            rw [if_neg (by omega), if_pos (by omega)]
          · have hσlt : baseRev 2 ℓ j < j := by omega
            rw [if_pos (by omega), if_pos (by omega)]
        · have hiff : ¬ min j (baseRev 2 ℓ j) < P → ¬ min j (baseRev 2 ℓ j) < P + 1 := by
            intro hc hlt
            have hminP : min j (baseRev 2 ℓ j) = P := by omega
            rcases Nat.le_total j (baseRev 2 ℓ j) with hle | hle
            · exact hjP (by omega)
            · have hσjP : baseRev 2 ℓ j = P := by omega
              have hjval : j = baseRev 2 ℓ P := by rw [← hσjP, hjσσ]
              exact hjP (by omega)
          by_cases hmin : min j (baseRev 2 ℓ j) < P
          · rw [if_pos hmin, if_pos (by omega)]
          · rw [if_neg hmin, if_neg (hiff hmin)]

theorem fft2_in_place_rearrange_getElem? (data : List α) (ℓ : ℕ)
    (hlen : data.length = 2 ^ ℓ) (j : ℕ) (hj : j < 2 ^ ℓ) :
    (fft2_in_place_rearrange data)[j]? = data[baseRev 2 ℓ j]? := by
  unfold fft2_in_place_rearrange
  have h := (rearrange2_fold data ℓ hlen (2 ^ ℓ) le_rfl).2.2 j hj
  rw [show List.range data.length = List.range (2 ^ ℓ) from by rw [hlen], h,
    if_pos (lt_of_le_of_lt (min_le_left _ _) hj)]


/-! ### Arithmetic helpers for the butterfly index classes -/

theorem class_add_s_lt {n s k g : ℕ} (hs : 0 < s) (h2s : 2 * s ∣ n) (hg : g < s)
    (hk : k < n) (hmod : k % (2 * s) = g) : k + s < n := by
  obtain ⟨m, hm⟩ := h2s
  have hq : 2 * s * (k / (2 * s)) + g = k := by
    rw [← hmod]
    exact Nat.div_add_mod k (2 * s)
  set q := k / (2 * s) with hqdef
  have hqm : q + 1 ≤ m := by
    by_contra hc
    have h1 : m ≤ q := by omega
    have h2 : 2 * s * m ≤ 2 * s * q := Nat.mul_le_mul_left _ h1
    omega
  have h3 : 2 * s * (q + 1) ≤ 2 * s * m := Nat.mul_le_mul_left _ hqm
  have h4 : 2 * s * (q + 1) = 2 * s * q + 2 * s := by ring
  omega

theorem eq_of_mod_eq_of_lt_add {a k s2 : ℕ} (hmod : k % s2 = a % s2)
    (h1 : a ≤ k) (h2 : k < a + s2) : k = a := by
  have hd : s2 ∣ k - a := (Nat.modEq_iff_dvd' h1).mp hmod.symm
  rcases Nat.eq_zero_or_pos (k - a) with h | h
  · omega
  · have := Nat.le_of_dvd h hd
    omega

theorem mod_two_mul_decompose (k s : ℕ) : k % (2 * s) = k % s + s * (k / s % 2) := by
  rw [show 2 * s = s * 2 by ring]
  exact Nat.mod_mul

theorem mod_two_mul_eq_low {k s g : ℕ} (hs : 0 < s) (hg : g < s) :
    k % (2 * s) = g ↔ (k % s = g ∧ k / s % 2 = 0) := by
  have hdec := mod_two_mul_decompose k s
  have hks : k % s < s := Nat.mod_lt _ (by omega)
  constructor
  · intro h
    rcases (by omega : k / s % 2 = 0 ∨ k / s % 2 = 1) with h0 | h1
    · rw [h0, Nat.mul_zero, Nat.add_zero] at hdec
      exact ⟨by omega, h0⟩
    · rw [h1, Nat.mul_one] at hdec
      omega
  · rintro ⟨h1, h2⟩
    rw [h2, Nat.mul_zero, Nat.add_zero] at hdec
    omega

theorem mod_two_mul_eq_high {k s g : ℕ} (hs : 0 < s) (hg : g < s) :
    k % (2 * s) = g + s ↔ (k % s = g ∧ k / s % 2 = 1) := by
  have hdec := mod_two_mul_decompose k s
  have hks : k % s < s := Nat.mod_lt _ (by omega)
  constructor
  · intro h
    rcases (by omega : k / s % 2 = 0 ∨ k / s % 2 = 1) with h0 | h1
    · rw [h0, Nat.mul_zero, Nat.add_zero] at hdec
      omega
    · rw [h1, Nat.mul_one] at hdec
      exact ⟨by omega, h1⟩
  · rintro ⟨h1, h2⟩
    rw [h2, Nat.mul_one] at hdec
    omega

theorem add_s_mod {pair s g : ℕ} (hs : 0 < s) (hg : g < s) (hp : pair % (2 * s) = g) :
    (pair + s) % (2 * s) = g + s := by
  rw [Nat.add_mod, hp, Nat.mod_eq_of_lt (show s < 2 * s by omega),
    Nat.mod_eq_of_lt (show g + s < 2 * s by omega)]

theorem sub_s_mod {k s : ℕ} (hks : s ≤ k) : (k - s) % s = k % s := by
  conv_rhs => rw [show k = k - s + s by omega]
  rw [Nat.add_mod_right]

/-! ### Pointwise description of one radix-2 butterfly pass -/

theorem butterfly2_getD [Field F] {d : List F} {pair s₀ : ℕ} (f : F) (hs : 0 < s₀)
    (hps : pair + s₀ < d.length) (k : ℕ) :
    (butterfly2 d pair s₀ f).getD k 0 =
      if k = pair then d.getD pair 0 + d.getD (pair + s₀) 0 * f
      else if k = pair + s₀ then d.getD pair 0 - d.getD (pair + s₀) 0 * f
      else d.getD k 0 := by
  have hset : butterfly2 d pair s₀ f =
      (d.set pair (d.getD pair 0 + d.getD (pair + s₀) 0 * f)).set (pair + s₀)
        (d.getD pair 0 - d.getD (pair + s₀) 0 * f) := rfl
  rw [hset]
  by_cases h1 : k = pair + s₀
  · rw [if_neg (by omega), if_pos h1, h1, List.getD_eq_getElem?_getD,
      List.getElem?_set_eq_of_lt _ (by simpa using hps)]
    rfl
  · rw [List.getD_eq_getElem?_getD, List.getElem?_set_ne (fun h => h1 h.symm)]
    by_cases h2 : k = pair
    · rw [if_pos h2, h2, List.getElem?_set_eq_of_lt _ (by omega)]
      rfl
    · rw [if_neg h2, if_neg h1, List.getElem?_set_ne (fun h => h2 h.symm),
        ← List.getD_eq_getElem?_getD]

/-! ### Pointwise description of the radix-2 pair loop -/

theorem fft2PairLoop_getD [Field F] {n s g : ℕ} (hs : 0 < s) (h2s : 2 * s ∣ n)
    (hg : g < s) :
    ∀ (fuel pair : ℕ) (f : F) (d : List F), d.length = n → n ≤ fuel + pair →
      pair % (2 * s) = g →
    ∀ k, k < n →
      (fft2PairLoop fuel pair s (2 * s) f d).getD k 0 =
        if k % (2 * s) = g ∧ pair ≤ k then d.getD k 0 + d.getD (k + s) 0 * f
        else if k % (2 * s) = g + s ∧ pair ≤ k then d.getD (k - s) 0 - d.getD k 0 * f
        else d.getD k 0 := by
  intro fuel
  induction fuel with
  | zero =>
    intro pair f d hd hfuel hpair k hk
    show d.getD k 0 = _
    rw [if_neg (by omega), if_neg (by omega)]
  | succ fuel ih =>
    intro pair f d hd hfuel hpair k hk
    by_cases hlt : pair < d.length
    · simp only [fft2PairLoop, if_pos hlt]
      have hpn : pair < n := by omega
      have hps : pair + s < n := class_add_s_lt hs h2s hg hpn hpair
      have hlen' : (butterfly2 d pair s f).length = n := by
        rw [length_butterfly2, hd]
      have hpair' : (pair + 2 * s) % (2 * s) = g := by
        rw [Nat.add_mod_right, hpair]
      have hrec := ih (pair + 2 * s) f (butterfly2 d pair s f) hlen' (by omega)
        hpair' k hk
      rw [hrec]
      have hbd : pair + s < d.length := by omega
      have hpmod : (pair + s) % (2 * s) = g + s := add_s_mod hs hg hpair
      by_cases hcg : k % (2 * s) = g ∧ pair ≤ k
      · rw [if_pos hcg]
        rcases Nat.lt_or_ge k (pair + 2 * s) with hksm | hkbig
        · have hkp : k = pair :=
            eq_of_mod_eq_of_lt_add (by rw [hcg.1, hpair]) hcg.2 hksm
          rw [if_neg (by omega), if_neg (by omega)]
          rw [butterfly2_getD f hs hbd k, if_pos hkp, hkp]
        · rw [if_pos ⟨hcg.1, hkbig⟩]
          rw [butterfly2_getD f hs hbd k, if_neg (by omega), if_neg (by omega),
            butterfly2_getD f hs hbd (k + s), if_neg (by omega), if_neg (by omega)]
      · by_cases hcg2 : k % (2 * s) = g + s ∧ pair ≤ k
        · rw [if_neg hcg, if_pos hcg2]
          rcases Nat.lt_or_ge k (pair + 2 * s) with hksm | hkbig
          · have hge : pair + s ≤ k := by
              by_contra hc
              have hr : k % (2 * s) = g + (k - pair) := by
                conv_lhs => rw [show k = pair + (k - pair) by omega]
                rw [Nat.add_mod, hpair,
                  Nat.mod_eq_of_lt (show k - pair < 2 * s by omega),
                  Nat.mod_eq_of_lt (show g + (k - pair) < 2 * s by omega)]
              omega
            have hkp : k = pair + s :=
              eq_of_mod_eq_of_lt_add (by rw [hcg2.1, hpmod]) hge (by omega)
            rw [if_neg (by omega), if_neg (by omega)]
            rw [butterfly2_getD f hs hbd k, if_neg (by omega), if_pos hkp, hkp]
            congr 2
            omega
          · rw [if_neg (by omega), if_pos ⟨hcg2.1, hkbig⟩]
            have hks : s ≤ k := by omega
            have hkne1 : k - s ≠ pair := by
              intro h
              have : k = pair + s := by omega
              omega
            have hkne2 : k - s ≠ pair + s := by
              intro h
              have hkval : k = pair + 2 * s := by omega
              have : k % (2 * s) = g := by rw [hkval, Nat.add_mod_right, hpair]
              omega
            rw [butterfly2_getD f hs hbd k, if_neg (by omega), if_neg (by omega),
              butterfly2_getD f hs hbd (k - s), if_neg hkne1, if_neg hkne2]
        · rw [if_neg hcg, if_neg hcg2]
          have hrc1 : ¬ (k % (2 * s) = g ∧ pair + 2 * s ≤ k) := by
            intro h
            exact hcg ⟨h.1, by omega⟩
          have hrc2 : ¬ (k % (2 * s) = g + s ∧ pair + 2 * s ≤ k) := by
            intro h
            exact hcg2 ⟨h.1, by omega⟩
          rw [if_neg hrc1, if_neg hrc2]
          have hkne1 : k ≠ pair := by
            intro h
            exact hcg ⟨by rw [h, hpair], by omega⟩
          have hkne2 : k ≠ pair + s := by
            intro h
            exact hcg2 ⟨by rw [h, hpmod], by omega⟩
          rw [butterfly2_getD f hs hbd k, if_neg hkne1, if_neg hkne2]
    · simp only [fft2PairLoop, if_neg hlt]
      rw [if_neg (by omega), if_neg (by omega)]

/-! ### Pointwise description of one radix-2 level -/

theorem fft2Level_fold [Field F] (d : List F) (str : F) (s : ℕ) (hs : 0 < s)
    (h2s : 2 * s ∣ d.length) :
    ∀ G, G ≤ s →
      ((List.range G).foldl (fft2GroupStep s str) (1, d)).1 = str ^ G ∧
      (((List.range G).foldl (fft2GroupStep s str) (1, d)).2).length = d.length ∧
      ∀ k, k < d.length →
        (((List.range G).foldl (fft2GroupStep s str) (1, d)).2).getD k 0 =
          if k % s < G then
            (if k / s % 2 = 0 then d.getD k 0 + d.getD (k + s) 0 * str ^ (k % s)
             else d.getD (k - s) 0 - d.getD k 0 * str ^ (k % s))
          else d.getD k 0 := by
  intro G
  induction G with
  | zero =>
    intro _
    refine ⟨(pow_zero str).symm, rfl, ?_⟩
    intro k hk
    rw [if_neg (by omega)]
    rfl
  | succ G ihG =>
    intro hG1
    have hG : G < s := by omega
    obtain ⟨hfac, hlen2, hget⟩ := ihG (by omega)
    rw [List.range_succ, List.foldl_append, List.foldl_cons, List.foldl_nil]
    set st := (List.range G).foldl (fft2GroupStep s str) (1, d) with hst
    have hstep : fft2GroupStep s str st G =
        (st.1 * str, fft2PairLoop (st.2.length + 1) G s (2 * s) st.1 st.2) := rfl
    rw [hstep]
    have h2s' : 2 * s ∣ st.2.length := by rw [hlen2]; exact h2s
    refine ⟨?_, ?_, ?_⟩
    · show st.1 * str = str ^ (G + 1)
      rw [hfac, pow_succ]
    · show (fft2PairLoop (st.2.length + 1) G s (2 * s) st.1 st.2).length = d.length
      rw [length_fft2PairLoop, hlen2]
    · intro k hk
      show (fft2PairLoop (st.2.length + 1) G s (2 * s) st.1 st.2).getD k 0 = _
      have hGmod : G % (2 * s) = G := Nat.mod_eq_of_lt (by omega)
      have hpl := fft2PairLoop_getD (n := st.2.length) hs h2s' hG
        (st.2.length + 1) G st.1 st.2 rfl (by omega) hGmod k (by omega)
      rw [hpl, hfac]
      have hks : k % s < s := Nat.mod_lt _ (by omega)
      by_cases hc1 : k % (2 * s) = G ∧ G ≤ k
      · -- lower butterfly position of group G: k % s = G, k / s even
        have hkmods : k % s = G ∧ k / s % 2 = 0 :=
          (mod_two_mul_eq_low hs hG).mp hc1.1
        rw [if_pos hc1]
        have hkps : k + s < d.length :=
          class_add_s_lt hs h2s (by omega) (by omega) hc1.1
        have hkpss : (k + s) % s = k % s := by
          rw [Nat.add_mod_right]
        rw [hget k (by omega), if_neg (by omega)]
        rw [hget (k + s) hkps, hkpss, if_neg (by omega)]
        rw [if_pos (by omega), if_pos (by omega), hkmods.1]
      · by_cases hc2 : k % (2 * s) = G + s ∧ G ≤ k
        · -- upper butterfly position of group G: k % s = G, k / s odd
          have hkmods : k % s = G ∧ k / s % 2 = 1 :=
            (mod_two_mul_eq_high hs hG).mp hc2.1
          rw [if_neg hc1, if_pos hc2]
          have hsk : s ≤ k := by
            have h1 := Nat.mod_le k (2 * s)
            omega
          have hkss : (k - s) % s = k % s := sub_s_mod hsk
          rw [hget k (by omega), if_neg (by omega)]
          rw [hget (k - s) (by omega), hkss, if_neg (by omega)]
          rw [if_pos (by omega), if_neg (by omega), hkmods.1]
        · rw [if_neg hc1, if_neg hc2, hget k (by omega)]
          -- k is not in group G: either already done (k % s < G) or untouched
          have hkne : k % s ≠ G := by
            intro hmod
            have hGle : G ≤ k := by
              have := Nat.mod_le k s
              omega
            rcases (by omega : k / s % 2 = 0 ∨ k / s % 2 = 1) with h0 | h1
            · exact hc1 ⟨(mod_two_mul_eq_low hs hG).mpr ⟨hmod, h0⟩, hGle⟩
            · exact hc2 ⟨(mod_two_mul_eq_high hs hG).mpr ⟨hmod, h1⟩, hGle⟩
          by_cases hlt2 : k % s < G
          · rw [if_pos hlt2, if_pos (show k % s < G + 1 by omega)]
          · rw [if_neg hlt2, if_neg (show ¬ k % s < G + 1 by omega)]

theorem fft2Level_getD [Field F] (d : List F) (omega : F) (s : ℕ) (hs : 0 < s)
    (h2s : 2 * s ∣ d.length) (k : ℕ) (hk : k < d.length) :
    (fft2Level d omega s).getD k 0 =
      if k / s % 2 = 0
      then d.getD k 0 + d.getD (k + s) 0 * (omega ^ (d.length / s / 2)) ^ (k % s)
      else d.getD (k - s) 0 - d.getD k 0 * (omega ^ (d.length / s / 2)) ^ (k % s) := by
  have h := (fft2Level_fold d (omega ^ (d.length / s / 2)) s hs h2s s le_rfl).2.2 k hk
  have hks : k % s < s := Nat.mod_lt _ (by omega)
  unfold fft2Level
  rw [h, if_pos hks]


/-! ### Unrolling the fft2 compute loop into a sequence of levels -/

/-- Splitting a sum over `range (m + n)` into the first `m` and last `n` terms. -/
theorem sum_range_add_split {M : Type _} [AddCommMonoid M] (f : ℕ → M) (m n : ℕ) :
    ∑ i ∈ Finset.range (m + n), f i =
      (∑ i ∈ Finset.range m, f i) + ∑ i ∈ Finset.range n, f (m + i) := by
  induction n with
  | zero => simp
  | succ n ih =>
    rw [show m + (n + 1) = (m + n) + 1 from rfl, Finset.sum_range_succ, ih,
      Finset.sum_range_succ, add_assoc]

/-- The state of `fft2_in_place_compute` after the first `d` iterations of its
depth loop: `fft2Level` applied at steps `2^0, ..., 2^(d-1)` in order. -/
def applyLevels2 [Field F] (omega : F) (a : List F) : ℕ → List F
  | 0 => a
  | d + 1 => fft2Level (applyLevels2 omega a d) omega (2 ^ d)

theorem length_applyLevels2 [Field F] (omega : F) (a : List F) :
    ∀ d, (applyLevels2 omega a d).length = a.length := by
  intro d
  induction d with
  | zero => rfl
  | succ d ih =>
    show (fft2Level (applyLevels2 omega a d) omega (2 ^ d)).length = a.length
    rw [length_fft2Level, ih]

theorem fft2ComputeLoop_eq_applyLevels2 [Field F] (omega : F) (a : List F)
    (l : ℕ) (ha : a.length = 2 ^ l) :
    ∀ m d fuel, d + m = l → m < fuel →
      fft2ComputeLoop fuel d omega (applyLevels2 omega a d) =
        applyLevels2 omega a l := by
  intro m
  induction m with
  | zero =>
    intro d fuel hd hf
    obtain ⟨f, rfl⟩ : ∃ f, fuel = f + 1 := ⟨fuel - 1, by omega⟩
    have hd' : d = l := by omega
    subst hd'
    have hunfold : fft2ComputeLoop (f + 1) d omega (applyLevels2 omega a d) =
        if 2 ^ d < (applyLevels2 omega a d).length then
          fft2ComputeLoop f (d + 1) omega
            (fft2Level (applyLevels2 omega a d) omega (2 ^ d))
        else applyLevels2 omega a d := rfl
    rw [hunfold, length_applyLevels2, ha, if_neg (by omega)]
  | succ m ih =>
    intro d fuel hd hf
    obtain ⟨f, rfl⟩ : ∃ f, fuel = f + 1 := ⟨fuel - 1, by omega⟩
    have hunfold : fft2ComputeLoop (f + 1) d omega (applyLevels2 omega a d) =
        if 2 ^ d < (applyLevels2 omega a d).length then
          fft2ComputeLoop f (d + 1) omega
            (fft2Level (applyLevels2 omega a d) omega (2 ^ d))
        else applyLevels2 omega a d := rfl
    rw [hunfold, length_applyLevels2, ha,
      if_pos (Nat.pow_lt_pow_right (by norm_num) (by omega))]
    have hnext : fft2Level (applyLevels2 omega a d) omega (2 ^ d) =
        applyLevels2 omega a (d + 1) := rfl
    rw [hnext]
    exact ih (d + 1) f (by omega) (by omega)

theorem fft2_in_place_compute_eq_applyLevels2 [Field F] (omega : F) (a : List F)
    (l : ℕ) (ha : a.length = 2 ^ l) :
    fft2_in_place_compute a omega = applyLevels2 omega a l := by
  have h := fft2ComputeLoop_eq_applyLevels2 omega a l ha l 0 (a.length + 1)
    (by omega) (by rw [ha]; have := Nat.lt_two_pow l; omega)
  exact h

/-- `k/s*s` against the block of size `2*s` containing `k`. -/
theorem div_mul_two_decompose (k s : ℕ) (hs : 0 < s) :
    k / s * s = k / (2 * s) * (2 * s) + s * (k / s % 2) := by
  have h1 : k / (2 * s) = k / s / 2 := by
    rw [Nat.div_div_eq_div_mul, Nat.mul_comm s 2]
  have h2 : 2 * (k / s / 2) + k / s % 2 = k / s := Nat.div_add_mod (k / s) 2
  calc k / s * s = (2 * (k / s / 2) + k / s % 2) * s := by rw [h2]
    _ = k / s / 2 * (2 * s) + s * (k / s % 2) := by ring
    _ = k / (2 * s) * (2 * s) + s * (k / s % 2) := by rw [h1]

/-- The radix-2 DIT invariant: after the first `d` levels (on a rearranged
input `a` of length `2^l`), position `k` holds the order-`2^d` DFT of the
block of `a` containing `k`, with the input indices of the block traversed in
bit-reversed order.  Only `omega^(2^l) = 1` and `omega^(2^(l-1)) = -1` are
needed. -/
theorem applyLevels2_getD [Field F] (omega : F) (l : ℕ) (a : List F)
    (ha : a.length = 2 ^ l)
    (h1 : omega ^ 2 ^ l = 1) (hm : 1 ≤ l → omega ^ 2 ^ (l - 1) = -1) :
    ∀ d, d ≤ l → ∀ k, k < 2 ^ l →
      (applyLevels2 omega a d).getD k 0 =
        ∑ t ∈ Finset.range (2 ^ d),
          a.getD (k / 2 ^ d * 2 ^ d + t) 0 *
            (omega ^ 2 ^ (l - d)) ^ (k % 2 ^ d * baseRev 2 d t) := by
  intro d
  induction d with
  | zero =>
    intro _ k hk
    have hshow : applyLevels2 omega a 0 = a := rfl
    have hbr : baseRev 2 0 0 = 0 := rfl
    rw [hshow, show (2:ℕ) ^ 0 = 1 from rfl, Finset.sum_range_one, hbr]
    simp [Nat.mod_one]
  | succ d ih =>
    intro hdl k hk
    have hs : (0:ℕ) < 2 ^ d := pow_pos (by norm_num) d
    have hy : applyLevels2 omega a (d + 1) =
        fft2Level (applyLevels2 omega a d) omega (2 ^ d) := rfl
    have hylen : (applyLevels2 omega a d).length = 2 ^ l := by
      rw [length_applyLevels2, ha]
    have h2pow : (2:ℕ) * 2 ^ d = 2 ^ (d + 1) := (pow_succ' 2 d).symm
    have h2s : 2 * 2 ^ d ∣ (applyLevels2 omega a d).length := by
      rw [hylen, h2pow]
      exact pow_dvd_pow 2 hdl
    have hstride : (applyLevels2 omega a d).length / 2 ^ d / 2 = 2 ^ (l - (d + 1)) := by
      rw [hylen, Nat.pow_div (by omega) (by norm_num),
        show l - d = (l - (d + 1)) + 1 from by omega, pow_succ]
      exact Nat.mul_div_cancel _ (by norm_num)
    have hlev := fft2Level_getD (applyLevels2 omega a d) omega (2 ^ d) hs h2s k
      (by rw [hylen]; exact hk)
    rw [hstride] at hlev
    rw [hy, hlev]
    have hmod2 : k % 2 ^ (d + 1) = k % 2 ^ d + 2 ^ d * (k / 2 ^ d % 2) := by
      rw [← h2pow]
      exact mod_two_mul_decompose k (2 ^ d)
    have hdiv2 : k / 2 ^ d * 2 ^ d =
        k / 2 ^ (d + 1) * 2 ^ (d + 1) + 2 ^ d * (k / 2 ^ d % 2) := by
      rw [← h2pow]
      exact div_mul_two_decompose k (2 ^ d) hs
    have hsplitn : (2:ℕ) ^ (d + 1) = 2 ^ d + 2 ^ d := by rw [pow_succ]; ring
    have hC : ∀ m : ℕ, (omega ^ 2 ^ (l - (d + 1))) ^ (2 * m) =
        (omega ^ 2 ^ (l - d)) ^ m := by
      intro m
      rw [← pow_mul, ← pow_mul]
      congr 1
      rw [show l - d = (l - (d + 1)) + 1 from by omega, pow_succ]
      ring
    have hW1 : (omega ^ 2 ^ (l - (d + 1))) ^ (2 ^ (d + 1)) = 1 := by
      rw [← pow_mul, ← pow_add, show l - (d + 1) + (d + 1) = l from by omega]
      exact h1
    have hWpow1 : ∀ m : ℕ, (omega ^ 2 ^ (l - (d + 1))) ^ (2 ^ (d + 1) * m) = 1 := by
      intro m
      rw [pow_mul, hW1, one_pow]
    have hWneg : (omega ^ 2 ^ (l - (d + 1))) ^ (2 ^ d) = -1 := by
      rw [← pow_mul, show (2:ℕ) ^ (l - (d + 1)) * 2 ^ d = 2 ^ (l - 1) from by
        rw [← pow_add]; congr 1; omega]
      exact hm (by omega)
    rcases (by omega : k / 2 ^ d % 2 = 0 ∨ k / 2 ^ d % 2 = 1) with he | he
    · rw [if_pos he]
      simp only [he, Nat.mul_zero, Nat.add_zero] at hmod2 hdiv2
      have hgS : k % (2 * 2 ^ d) < 2 ^ d := by
        rw [h2pow, hmod2]
        exact Nat.mod_lt _ hs
      have hkps : k + 2 ^ d < 2 ^ l :=
        class_add_s_lt hs (by rw [h2pow]; exact pow_dvd_pow 2 hdl) hgS hk rfl
      have hIHk := ih (by omega) k hk
      have hIHks := ih (by omega) (k + 2 ^ d) hkps
      simp only [Nat.add_div_right k hs, Nat.add_mod_right, Nat.add_mul,
        Nat.one_mul] at hIHks
      simp only [hdiv2] at hIHk hIHks
      rw [hIHk, hIHks]
      simp only [hmod2]
      rw [show Finset.range (2 ^ (d + 1)) = Finset.range (2 ^ d + 2 ^ d) from by
        rw [hsplitn]]
      simp only [sum_range_add_split]
      congr 1
      · exact Finset.sum_congr rfl (fun t ht => by
          have htlt : t < 2 ^ d := Finset.mem_range.mp ht
          have htlt2 : t < 2 ^ (d + 1) := by rw [hsplitn]; omega
          have hbrt : baseRev 2 (d + 1) t = 2 * baseRev 2 d t := by
            rw [baseRev_succ_left (by norm_num) d t htlt2, Nat.mod_eq_of_lt htlt,
              Nat.div_eq_of_lt htlt]
            omega
          rw [hbrt, show k % 2 ^ d * (2 * baseRev 2 d t) =
            2 * (k % 2 ^ d * baseRev 2 d t) from by ring, hC])
      · rw [Finset.sum_mul]
        exact Finset.sum_congr rfl (fun t ht => by
          have htlt : t < 2 ^ d := Finset.mem_range.mp ht
          have hult : 2 ^ d + t < 2 ^ (d + 1) := by rw [hsplitn]; omega
          have hbru : baseRev 2 (d + 1) (2 ^ d + t) = 2 * baseRev 2 d t + 1 := by
            rw [baseRev_succ_left (by norm_num) d (2 ^ d + t) hult,
              Nat.add_mod_left, Nat.mod_eq_of_lt htlt,
              show (2 ^ d + t) / 2 ^ d = 1 from by
                rw [Nat.add_comm, Nat.add_div_right t hs, Nat.div_eq_of_lt htlt]]
          rw [hbru, ← Nat.add_assoc,
            show k % 2 ^ d * (2 * baseRev 2 d t + 1) =
              2 * (k % 2 ^ d * baseRev 2 d t) + k % 2 ^ d from by ring,
            pow_add (omega ^ 2 ^ (l - (d + 1))) (2 * (k % 2 ^ d * baseRev 2 d t))
              (k % 2 ^ d),
            hC (k % 2 ^ d * baseRev 2 d t), mul_assoc])
    · rw [if_neg (by omega : ¬ k / 2 ^ d % 2 = 0)]
      simp only [he, Nat.mul_one] at hmod2 hdiv2
      have hsk : 2 ^ d ≤ k := by
        by_contra hc
        rw [Nat.div_eq_of_lt (by omega)] at he
        omega
      have hj : k - 2 ^ d + 2 ^ d = k := by omega
      have hjdiv : k / 2 ^ d = (k - 2 ^ d) / 2 ^ d + 1 := by
        conv_lhs => rw [← hj]
        rw [Nat.add_div_right _ hs]
      have hjB : (k - 2 ^ d) / 2 ^ d * 2 ^ d = k / 2 ^ (d + 1) * 2 ^ (d + 1) := by
        have h := hdiv2
        rw [hjdiv, Nat.add_mul, Nat.one_mul] at h
        omega
      have hjmod : (k - 2 ^ d) % 2 ^ d = k % 2 ^ d := sub_s_mod hsk
      have hIHj := ih (by omega) (k - 2 ^ d) (by omega)
      have hIHk := ih (by omega) k hk
      simp only [hjB, hjmod] at hIHj
      simp only [hdiv2] at hIHk
      rw [hIHj, hIHk]
      simp only [hmod2]
      rw [show Finset.range (2 ^ (d + 1)) = Finset.range (2 ^ d + 2 ^ d) from by
        rw [hsplitn]]
      simp only [sum_range_add_split]
      have hR1 : ∑ t ∈ Finset.range (2 ^ d),
          a.getD (k / 2 ^ (d + 1) * 2 ^ (d + 1) + t) 0 *
            (omega ^ 2 ^ (l - (d + 1))) ^
              ((k % 2 ^ d + 2 ^ d) * baseRev 2 (d + 1) t) =
          ∑ t ∈ Finset.range (2 ^ d),
          a.getD (k / 2 ^ (d + 1) * 2 ^ (d + 1) + t) 0 *
            (omega ^ 2 ^ (l - d)) ^ (k % 2 ^ d * baseRev 2 d t) :=
        Finset.sum_congr rfl (fun t ht => by
          have htlt : t < 2 ^ d := Finset.mem_range.mp ht
          have htlt2 : t < 2 ^ (d + 1) := by rw [hsplitn]; omega
          have hbrt : baseRev 2 (d + 1) t = 2 * baseRev 2 d t := by
            rw [baseRev_succ_left (by norm_num) d t htlt2, Nat.mod_eq_of_lt htlt,
              Nat.div_eq_of_lt htlt]
            omega
          rw [hbrt, show (k % 2 ^ d + 2 ^ d) * (2 * baseRev 2 d t) =
              2 * (k % 2 ^ d * baseRev 2 d t) + 2 ^ (d + 1) * baseRev 2 d t from by
                rw [pow_succ]; ring,
            pow_add (omega ^ 2 ^ (l - (d + 1))) (2 * (k % 2 ^ d * baseRev 2 d t))
              (2 ^ (d + 1) * baseRev 2 d t),
            hC (k % 2 ^ d * baseRev 2 d t), hWpow1 (baseRev 2 d t), mul_one])
      have hR2 : ∑ t ∈ Finset.range (2 ^ d),
          a.getD (k / 2 ^ (d + 1) * 2 ^ (d + 1) + (2 ^ d + t)) 0 *
            (omega ^ 2 ^ (l - (d + 1))) ^
              ((k % 2 ^ d + 2 ^ d) * baseRev 2 (d + 1) (2 ^ d + t)) =
          -((∑ t ∈ Finset.range (2 ^ d),
            a.getD (k / 2 ^ (d + 1) * 2 ^ (d + 1) + 2 ^ d + t) 0 *
              (omega ^ 2 ^ (l - d)) ^ (k % 2 ^ d * baseRev 2 d t)) *
            (omega ^ 2 ^ (l - (d + 1))) ^ (k % 2 ^ d)) := by
        rw [Finset.sum_mul, ← Finset.sum_neg_distrib]
        exact Finset.sum_congr rfl (fun t ht => by
          have htlt : t < 2 ^ d := Finset.mem_range.mp ht
          have hult : 2 ^ d + t < 2 ^ (d + 1) := by rw [hsplitn]; omega
          have hbru : baseRev 2 (d + 1) (2 ^ d + t) = 2 * baseRev 2 d t + 1 := by
            rw [baseRev_succ_left (by norm_num) d (2 ^ d + t) hult,
              Nat.add_mod_left, Nat.mod_eq_of_lt htlt,
              show (2 ^ d + t) / 2 ^ d = 1 from by
                rw [Nat.add_comm, Nat.add_div_right t hs, Nat.div_eq_of_lt htlt]]
          have hpowE : (omega ^ 2 ^ (l - (d + 1))) ^
              ((k % 2 ^ d + 2 ^ d) * (2 * baseRev 2 d t + 1)) =
              (omega ^ 2 ^ (l - d)) ^ (k % 2 ^ d * baseRev 2 d t) *
                (omega ^ 2 ^ (l - (d + 1))) ^ (k % 2 ^ d) * (-1) := by
            rw [show (k % 2 ^ d + 2 ^ d) * (2 * baseRev 2 d t + 1) =
                2 * (k % 2 ^ d * baseRev 2 d t) + 2 ^ (d + 1) * baseRev 2 d t +
                  (k % 2 ^ d + 2 ^ d) from by rw [pow_succ]; ring,
              pow_add (omega ^ 2 ^ (l - (d + 1)))
                (2 * (k % 2 ^ d * baseRev 2 d t) + 2 ^ (d + 1) * baseRev 2 d t)
                (k % 2 ^ d + 2 ^ d),
              pow_add (omega ^ 2 ^ (l - (d + 1))) (2 * (k % 2 ^ d * baseRev 2 d t))
                (2 ^ (d + 1) * baseRev 2 d t),
              pow_add (omega ^ 2 ^ (l - (d + 1))) (k % 2 ^ d) (2 ^ d),
              hC (k % 2 ^ d * baseRev 2 d t), hWpow1 (baseRev 2 d t), hWneg]
            ring
          rw [hbru, ← Nat.add_assoc, hpowE]
          ring)
      rw [hR1, hR2]
      ring


/-! ### The DFT characterisation of `fft2` -/

/-- `fft2` computes the discrete Fourier transform: entry `r` of the output is
`∑ t, a[t] * omega^(r*t)`.  Only `omega^(2^l) = 1` and `omega^(2^(l-1)) = -1`
are required. -/
theorem fft2_dft [Field F] (a : List F) (omega : F) (l : ℕ)
    (ha : a.length = 2 ^ l)
    (h1 : omega ^ 2 ^ l = 1) (hm : 1 ≤ l → omega ^ 2 ^ (l - 1) = -1)
    (r : ℕ) (hr : r < 2 ^ l) :
    (fft2 a omega).getD r 0 =
      ∑ t ∈ Finset.range (2 ^ l), a.getD t 0 * omega ^ (r * t) := by
  have ha' : (fft2_in_place_rearrange a).length = 2 ^ l := by
    rw [length_fft2_in_place_rearrange, ha]
  have hcomp : fft2 a omega =
      applyLevels2 omega (fft2_in_place_rearrange a) l := by
    unfold fft2
    exact fft2_in_place_compute_eq_applyLevels2 omega _ l ha'
  rw [hcomp, applyLevels2_getD omega l (fft2_in_place_rearrange a) ha' h1 hm l
    le_rfl r hr]
  have hgd : ∀ t, t < 2 ^ l →
      (fft2_in_place_rearrange a).getD t 0 = a.getD (baseRev 2 l t) 0 := by
    intro t ht
    rw [List.getD_eq_getElem?_getD, List.getD_eq_getElem?_getD,
      fft2_in_place_rearrange_getElem? a l ha t ht]
  have hstep : ∑ t ∈ Finset.range (2 ^ l),
      (fft2_in_place_rearrange a).getD (r / 2 ^ l * 2 ^ l + t) 0 *
        (omega ^ 2 ^ (l - l)) ^ (r % 2 ^ l * baseRev 2 l t) =
      ∑ t ∈ Finset.range (2 ^ l),
        a.getD (baseRev 2 l t) 0 * omega ^ (r * baseRev 2 l t) := by
    apply Finset.sum_congr rfl
    intro t ht
    have htlt : t < 2 ^ l := Finset.mem_range.mp ht
    rw [Nat.div_eq_of_lt hr, Nat.zero_mul, Nat.zero_add, hgd t htlt,
      Nat.mod_eq_of_lt hr, Nat.sub_self, pow_zero, pow_one]
  rw [hstep]
  apply Finset.sum_nbij' (baseRev 2 l) (baseRev 2 l)
  · intro t ht
    exact Finset.mem_range.mpr (baseRev_lt (by norm_num) l t)
  · intro t ht
    exact Finset.mem_range.mpr (baseRev_lt (by norm_num) l t)
  · intro t ht
    exact baseRev_baseRev (by norm_num) l t (Finset.mem_range.mp ht)
  · intro t ht
    exact baseRev_baseRev (by norm_num) l t (Finset.mem_range.mp ht)
  · intro t ht
    rfl

/-! ### Roots of unity: derived facts and orthogonality -/

theorem prim_root_ne_zero [Field F] {omega : F} {N : ℕ} (hN : 0 < N)
    (h1 : omega ^ N = 1) : omega ≠ 0 := by
  intro h0
  rw [h0, zero_pow (by omega)] at h1
  exact zero_ne_one h1

theorem prim_root_neg_one [Field F] {omega : F} {l : ℕ}
    (hprim : IsPrimitiveRoot omega (2 ^ l)) (hl : 1 ≤ l) :
    omega ^ 2 ^ (l - 1) = -1 := by
  have h2 : (2:ℕ) ^ (l - 1) * 2 = 2 ^ l := by
    rw [← pow_succ]
    congr 1
    omega
  have hsq : omega ^ 2 ^ (l - 1) * omega ^ 2 ^ (l - 1) = 1 := by
    rw [← pow_add, show 2 ^ (l - 1) + 2 ^ (l - 1) = 2 ^ l from by
      rw [← h2]; omega]
    exact hprim.pow_eq_one
  rcases mul_self_eq_one_iff.mp hsq with h | h
  · exfalso
    have hdvd := (hprim.pow_eq_one_iff_dvd (2 ^ (l - 1))).mp h
    have hle := Nat.le_of_dvd (pow_pos (by norm_num) _) hdvd
    have hlt : (2:ℕ) ^ (l - 1) < 2 ^ l :=
      Nat.pow_lt_pow_right (by norm_num) (by omega)
    omega
  · exact h

/-- Geometric-series orthogonality for a primitive `N`-th root of unity. -/
theorem root_orthogonality [Field F] {omega : F} {N : ℕ}
    (hprim : IsPrimitiveRoot omega N) (hN : 0 < N) (t j : ℕ)
    (ht : t < N) (hj : j < N) :
    ∑ r ∈ Finset.range N, (omega ^ t * omega⁻¹ ^ j) ^ r =
      if t = j then (N : F) else 0 := by
  have homega : omega ≠ 0 := prim_root_ne_zero hN hprim.pow_eq_one
  rcases eq_or_ne t j with rfl | hne
  · rw [if_pos rfl]
    have hone : omega ^ t * omega⁻¹ ^ t = 1 := by
      rw [inv_pow, mul_inv_cancel₀ (pow_ne_zero _ homega)]
    rw [hone]
    simp
  · rw [if_neg hne]
    have hz1 : omega ^ t * omega⁻¹ ^ j ≠ 1 := by
      intro h
      rw [inv_pow] at h
      exact hne (hprim.pow_inj ht hj
        ((mul_inv_eq_one₀ (pow_ne_zero _ homega)).mp h))
    have hzN : (omega ^ t * omega⁻¹ ^ j) ^ N = 1 := by
      have e1 : (omega ^ t) ^ N = 1 := by
        rw [← pow_mul, mul_comm, pow_mul, hprim.pow_eq_one, one_pow]
      have e2 : (omega⁻¹ ^ j) ^ N = 1 := by
        rw [inv_pow, inv_pow, ← pow_mul, mul_comm, pow_mul,
          hprim.pow_eq_one, one_pow, inv_one]
      rw [mul_pow, e1, e2, mul_one]
    rw [geom_sum_eq hz1 N, hzN, sub_self, zero_div]

/-- Entries of a list scaled pointwise by a constant. -/
theorem getD_map_mul [Field F] (x : List F) (c : F) (t : ℕ) (ht : t < x.length) :
    (x.map (fun v => v * c)).getD t 0 = x.getD t 0 * c := by
  rw [List.getD_eq_getElem?_getD, List.getElem?_map, List.getElem?_eq_getElem ht,
    List.getD_eq_getElem?_getD, List.getElem?_eq_getElem ht]
  rfl

/-! ### The fft2 round trips -/

/-- Summing a DFT against powers of `omega⁻¹` recovers an entry scaled by the
length: the computational core of both round-trip directions. -/
theorem fft2_inversion_sum [Field F] {omega : F} {l : ℕ}
    (hprim : IsPrimitiveRoot omega (2 ^ l)) (a : List F) (j : ℕ) (hj : j < 2 ^ l) :
    ∑ r ∈ Finset.range (2 ^ l),
        (∑ t ∈ Finset.range (2 ^ l), a.getD t 0 * omega ^ (r * t)) *
          omega⁻¹ ^ (j * r) =
      a.getD j 0 * ((2 ^ l : ℕ) : F) := by
  calc ∑ r ∈ Finset.range (2 ^ l),
      (∑ t ∈ Finset.range (2 ^ l), a.getD t 0 * omega ^ (r * t)) *
        omega⁻¹ ^ (j * r)
      = ∑ r ∈ Finset.range (2 ^ l), ∑ t ∈ Finset.range (2 ^ l),
          a.getD t 0 * omega ^ (r * t) * omega⁻¹ ^ (j * r) :=
        Finset.sum_congr rfl (fun r _ => Finset.sum_mul _ _ _)
    _ = ∑ t ∈ Finset.range (2 ^ l), ∑ r ∈ Finset.range (2 ^ l),
          a.getD t 0 * omega ^ (r * t) * omega⁻¹ ^ (j * r) := Finset.sum_comm
    _ = ∑ t ∈ Finset.range (2 ^ l),
          a.getD t 0 * ∑ r ∈ Finset.range (2 ^ l),
            (omega ^ t * omega⁻¹ ^ j) ^ r := by
        apply Finset.sum_congr rfl
        intro t _
        rw [Finset.mul_sum]
        apply Finset.sum_congr rfl
        intro r _
        rw [mul_pow, ← pow_mul, ← pow_mul, mul_comm t r, mul_comm j r]
        ring
    _ = ∑ t ∈ Finset.range (2 ^ l),
          (if t = j then a.getD t 0 * ((2 ^ l : ℕ) : F) else 0) := by
        apply Finset.sum_congr rfl
        intro t ht
        rw [root_orthogonality hprim (pow_pos (by norm_num) l) t j
          (Finset.mem_range.mp ht) hj]
        rcases eq_or_ne t j with rfl | hne
        · rw [if_pos rfl, if_pos rfl]
        · rw [if_neg hne, if_neg hne, mul_zero]
    _ = a.getD j 0 * ((2 ^ l : ℕ) : F) := by
        rw [Finset.sum_ite_eq' (Finset.range (2 ^ l)) j
          (fun t => a.getD t 0 * ((2 ^ l : ℕ) : F)),
          if_pos (Finset.mem_range.mpr hj)]

set_option maxHeartbeats 2000000 in
/-- C3 core, radix 2, forward direction: `fft2_inverse` undoes `fft2`. -/
theorem fft2_fft2_inverse [Field F] (a : List F) (omega : F) (l : ℕ)
    (ha : a.length = 2 ^ l) (hprim : IsPrimitiveRoot omega (2 ^ l)) :
    fft2_inverse (fft2 a omega) omega = a := by
  have hN0 : (0:ℕ) < 2 ^ l := pow_pos (by norm_num) l
  have h1 : omega ^ 2 ^ l = 1 := hprim.pow_eq_one
  have hm : 1 ≤ l → omega ^ 2 ^ (l - 1) = -1 := prim_root_neg_one hprim
  have h1i : omega⁻¹ ^ 2 ^ l = 1 := by rw [inv_pow, h1, inv_one]
  have hmi : 1 ≤ l → omega⁻¹ ^ 2 ^ (l - 1) = -1 := by
    intro hl
    rw [inv_pow, hm hl, inv_neg, inv_one]
  haveI : NeZero (2 ^ l) := ⟨by omega⟩
  have hNne : ((2 ^ l : ℕ) : F) ≠ 0 := (hprim.neZero' (R := F)).out
  have hb : (fft2 a omega).length = 2 ^ l := by rw [length_fft2, ha]
  have hfb : (fft2 (fft2 a omega) omega⁻¹).length = 2 ^ l := by
    rw [length_fft2, hb]
  have hshape : fft2_inverse (fft2 a omega) omega =
      (fft2 (fft2 a omega) omega⁻¹).map
        (fun v => v * (((fft2 a omega).length : F))⁻¹) := rfl
  apply List.ext_getElem?
  intro j
  rcases Nat.lt_or_ge j (2 ^ l) with hj | hj
  · have hjmap : j < ((fft2 (fft2 a omega) omega⁻¹).map
        (fun v => v * (((fft2 a omega).length : F))⁻¹)).length := by
      rw [List.length_map, hfb]
      exact hj
    have hja : j < a.length := by rw [ha]; exact hj
    rw [hshape, List.getElem?_eq_getElem hjmap, List.getElem?_eq_getElem hja]
    congr 1
    rw [← List.getD_eq_getElem _ 0 hjmap, ← List.getD_eq_getElem _ 0 hja]
    rw [getD_map_mul _ _ j (by rw [hfb]; exact hj)]
    rw [fft2_dft (fft2 a omega) omega⁻¹ l hb h1i hmi j hj]
    have hbr : ∀ r ∈ Finset.range (2 ^ l),
        (fft2 a omega).getD r 0 * omega⁻¹ ^ (j * r) =
        (∑ t ∈ Finset.range (2 ^ l), a.getD t 0 * omega ^ (r * t)) *
          omega⁻¹ ^ (j * r) := by
      intro r hr
      rw [fft2_dft a omega l ha h1 hm r (Finset.mem_range.mp hr)]
    rw [Finset.sum_congr rfl hbr, fft2_inversion_sum hprim a j hj, hb,
      mul_assoc, mul_inv_cancel₀ hNne, mul_one]
  · rw [hshape, List.getElem?_eq_none (by rw [List.length_map, hfb]; exact hj),
      List.getElem?_eq_none (by rw [ha]; exact hj)]

set_option maxHeartbeats 2000000 in
/-- C1 helper, radix 2, reverse direction: `fft2` undoes `fft2_inverse`. -/
theorem fft2_inverse_fft2 [Field F] (b : List F) (omega : F) (l : ℕ)
    (hb : b.length = 2 ^ l) (hprim : IsPrimitiveRoot omega (2 ^ l)) :
    fft2 (fft2_inverse b omega) omega = b := by
  have hN0 : (0:ℕ) < 2 ^ l := pow_pos (by norm_num) l
  have h1 : omega ^ 2 ^ l = 1 := hprim.pow_eq_one
  have hm : 1 ≤ l → omega ^ 2 ^ (l - 1) = -1 := prim_root_neg_one hprim
  have h1i : omega⁻¹ ^ 2 ^ l = 1 := by rw [inv_pow, h1, inv_one]
  have hmi : 1 ≤ l → omega⁻¹ ^ 2 ^ (l - 1) = -1 := by
    intro hl
    rw [inv_pow, hm hl, inv_neg, inv_one]
  haveI : NeZero (2 ^ l) := ⟨by omega⟩
  have hNne : ((2 ^ l : ℕ) : F) ≠ 0 := (hprim.neZero' (R := F)).out
  have hfbl : (fft2 b omega⁻¹).length = 2 ^ l := by rw [length_fft2, hb]
  have hshape : fft2_inverse b omega =
      (fft2 b omega⁻¹).map (fun v => v * ((b.length : F))⁻¹) := rfl
  have hinvlen : (fft2_inverse b omega).length = 2 ^ l := by
    rw [length_fft2_inverse, hb]
  have houtlen : (fft2 (fft2_inverse b omega) omega).length = 2 ^ l := by
    rw [length_fft2, hinvlen]
  have hgetinv : ∀ t, t < 2 ^ l → (fft2_inverse b omega).getD t 0 =
      (fft2 b omega⁻¹).getD t 0 * ((2 ^ l : ℕ) : F)⁻¹ := by
    intro t ht
    rw [hshape, getD_map_mul _ _ t (by rw [hfbl]; exact ht), hb]
  apply List.ext_getElem?
  intro j
  rcases Nat.lt_or_ge j (2 ^ l) with hj | hj
  · have hjout : j < (fft2 (fft2_inverse b omega) omega).length := by
      rw [houtlen]; exact hj
    have hjb : j < b.length := by rw [hb]; exact hj
    rw [List.getElem?_eq_getElem hjout, List.getElem?_eq_getElem hjb]
    congr 1
    rw [← List.getD_eq_getElem _ 0 hjout, ← List.getD_eq_getElem _ 0 hjb]
    rw [fft2_dft (fft2_inverse b omega) omega l hinvlen h1 hm j hj]
    have hbr : ∀ r ∈ Finset.range (2 ^ l),
        (fft2_inverse b omega).getD r 0 * omega ^ (j * r) =
        ((∑ t ∈ Finset.range (2 ^ l), b.getD t 0 * omega⁻¹ ^ (r * t)) *
          (omega⁻¹)⁻¹ ^ (j * r)) * ((2 ^ l : ℕ) : F)⁻¹ := by
      intro r hr
      rw [hgetinv r (Finset.mem_range.mp hr),
        fft2_dft b omega⁻¹ l hb h1i hmi r (Finset.mem_range.mp hr), inv_inv]
      ring
    rw [Finset.sum_congr rfl hbr, ← Finset.sum_mul,
      fft2_inversion_sum (hprim.inv) b j hj,
      mul_assoc, mul_inv_cancel₀ hNne, mul_one]
  · rw [List.getElem?_eq_none (by rw [houtlen]; exact hj),
      List.getElem?_eq_none (by rw [hb]; exact hj)]


/-! ### Arithmetic helpers for the radix-3 butterfly index classes -/

theorem mod_three_mul_decompose (k s : ℕ) : k % (3 * s) = k % s + s * (k / s % 3) := by
  rw [show 3 * s = s * 3 by ring]
  exact Nat.mod_mul

theorem mod_three_mul_eq {k s g e : ℕ} (hs : 0 < s) (hg : g < s) (he : e < 3) :
    k % (3 * s) = g + e * s ↔ (k % s = g ∧ k / s % 3 = e) := by
  have hdec := mod_three_mul_decompose k s
  have hks : k % s < s := Nat.mod_lt _ (by omega)
  constructor
  · intro h
    rcases (by omega : e = 0 ∨ e = 1 ∨ e = 2) with rfl | rfl | rfl <;>
      rcases (by omega : k / s % 3 = 0 ∨ k / s % 3 = 1 ∨ k / s % 3 = 2)
        with h3 | h3 | h3 <;>
      rw [h3] at hdec <;> omega
  · rintro ⟨h1, h2⟩
    rw [h2] at hdec
    rcases (by omega : e = 0 ∨ e = 1 ∨ e = 2) with rfl | rfl | rfl <;> omega

theorem class3_add_lt {n s k g : ℕ} (hs : 0 < s) (h3s : 3 * s ∣ n) (hg : g < s)
    (hk : k < n) (hmod : k % (3 * s) = g) : k + 2 * s < n := by
  obtain ⟨m, hm⟩ := h3s
  have hq : 3 * s * (k / (3 * s)) + g = k := by
    rw [← hmod]
    exact Nat.div_add_mod k (3 * s)
  set q := k / (3 * s) with hqdef
  have hqm : q + 1 ≤ m := by
    by_contra hc
    have h1 : m ≤ q := by omega
    have h2 : 3 * s * m ≤ 3 * s * q := Nat.mul_le_mul_left _ h1
    omega
  have h3 : 3 * s * (q + 1) ≤ 3 * s * m := Nat.mul_le_mul_left _ hqm
  have h4 : 3 * s * (q + 1) = 3 * s * q + 3 * s := by ring
  omega

/-- Adding a small offset to a value with known residue. -/
theorem add_small_mod {pair s2 g a : ℕ} (h : pair % s2 = g) (hga : g + a < s2) :
    (pair + a) % s2 = g + a := by
  have hs2 : 0 < s2 := by omega
  rw [Nat.add_mod, h, Nat.mod_eq_of_lt (show a < s2 by omega),
    Nat.mod_eq_of_lt hga]

/-- Within one window of length `s3` starting at `pair`, the residue class
determines the position. -/
theorem window_unique {pair k s3 g c : ℕ} (hpair : pair % s3 = g)
    (hgc : g + c < s3) (h1 : pair ≤ k) (h2 : k < pair + s3) (hk : k % s3 = g + c) :
    k = pair + c := by
  have hd : k = pair + (k - pair) := by omega
  have hdlt : k - pair < s3 := by omega
  have hmod : k % s3 = (g + (k - pair)) % s3 := by
    conv_lhs => rw [hd]
    rw [Nat.add_mod, hpair, Nat.mod_eq_of_lt hdlt]
  rcases Nat.lt_or_ge (g + (k - pair)) s3 with hc | hc
  · rw [Nat.mod_eq_of_lt hc] at hmod
    omega
  · have hsub : (g + (k - pair)) % s3 = g + (k - pair) - s3 := by
      rw [Nat.mod_eq_sub_mod hc, Nat.mod_eq_of_lt (by omega)]
    rw [hsub] at hmod
    omega

/-! ### Pointwise description of the radix-3 butterfly -/

theorem butterfly3_getD [Field F] {d : List F} {pair s₀ : ℕ} (f fsq bo bo2 : F)
    (hs : 0 < s₀) (hps : pair + 2 * s₀ < d.length) (k : ℕ) :
    (butterfly3 d pair s₀ f fsq bo bo2).getD k 0 =
      if k = pair then
        d.getD pair 0 + d.getD (pair + s₀) 0 * f + d.getD (pair + 2 * s₀) 0 * fsq
      else if k = pair + s₀ then
        d.getD pair 0 + bo * (d.getD (pair + s₀) 0 * f) +
          bo2 * (d.getD (pair + 2 * s₀) 0 * fsq)
      else if k = pair + 2 * s₀ then
        d.getD pair 0 + bo2 * (d.getD (pair + s₀) 0 * f) +
          bo * (d.getD (pair + 2 * s₀) 0 * fsq)
      else d.getD k 0 := by
  have hset : butterfly3 d pair s₀ f fsq bo bo2 =
      ((d.set pair (d.getD pair 0 + d.getD (pair + s₀) 0 * f +
          d.getD (pair + 2 * s₀) 0 * fsq)).set (pair + s₀)
        (d.getD pair 0 + bo * (d.getD (pair + s₀) 0 * f) +
          bo2 * (d.getD (pair + 2 * s₀) 0 * fsq))).set (pair + 2 * s₀)
        (d.getD pair 0 + bo2 * (d.getD (pair + s₀) 0 * f) +
          bo * (d.getD (pair + 2 * s₀) 0 * fsq)) := rfl
  rw [hset]
  by_cases h2 : k = pair + 2 * s₀
  · rw [if_neg (by omega), if_neg (by omega), if_pos h2, h2,
      List.getD_eq_getElem?_getD,
      List.getElem?_set_eq_of_lt _ (by simpa using hps)]
    rfl
  · rw [List.getD_eq_getElem?_getD, List.getElem?_set_ne (fun h => h2 h.symm)]
    by_cases h1 : k = pair + s₀
    · rw [if_neg (by omega), if_pos h1, h1,
        List.getElem?_set_eq_of_lt _ (by simp; omega)]
      rfl
    · rw [List.getElem?_set_ne (fun h => h1 h.symm)]
      by_cases h0 : k = pair
      · rw [if_pos h0, h0, List.getElem?_set_eq_of_lt _ (by omega)]
        rfl
      · rw [if_neg h0, if_neg h1, if_neg h2,
          List.getElem?_set_ne (fun h => h0 h.symm), ← List.getD_eq_getElem?_getD]

/-! ### Pointwise description of the radix-3 pair loop -/

theorem fft3PairLoop_getD [Field F] {n s g : ℕ} (hs : 0 < s) (h3s : 3 * s ∣ n)
    (hg : g < s) :
    ∀ (fuel pair : ℕ) (f fsq bo bo2 : F) (d : List F), d.length = n →
      n ≤ fuel + pair → pair % (3 * s) = g →
    ∀ k, k < n →
      (fft3PairLoop fuel pair s (3 * s) f fsq bo bo2 d).getD k 0 =
        if k % (3 * s) = g ∧ pair ≤ k then
          d.getD k 0 + d.getD (k + s) 0 * f + d.getD (k + 2 * s) 0 * fsq
        else if k % (3 * s) = g + s ∧ pair ≤ k then
          d.getD (k - s) 0 + bo * (d.getD k 0 * f) +
            bo2 * (d.getD (k + s) 0 * fsq)
        else if k % (3 * s) = g + 2 * s ∧ pair ≤ k then
          d.getD (k - 2 * s) 0 + bo2 * (d.getD (k - s) 0 * f) +
            bo * (d.getD k 0 * fsq)
        else d.getD k 0 := by
  intro fuel
  induction fuel with
  | zero =>
    intro pair f fsq bo bo2 d hd hfuel hpair k hk
    show d.getD k 0 = _
    rw [if_neg (by omega), if_neg (by omega), if_neg (by omega)]
  | succ fuel ih =>
    intro pair f fsq bo bo2 d hd hfuel hpair k hk
    by_cases hlt : pair < d.length
    · simp only [fft3PairLoop, if_pos hlt]
      have hpn : pair < n := by omega
      have hp2s : pair + 2 * s < n := class3_add_lt hs h3s hg hpn hpair
      have hbd : pair + 2 * s < d.length := by omega
      have hlen' : (butterfly3 d pair s f fsq bo bo2).length = n := by
        rw [length_butterfly3, hd]
      have hpair' : (pair + 3 * s) % (3 * s) = g := by
        rw [Nat.add_mod_right, hpair]
      have hpm1 : (pair + s) % (3 * s) = g + s :=
        add_small_mod hpair (by omega)
      have hpm2 : (pair + 2 * s) % (3 * s) = g + 2 * s :=
        add_small_mod hpair (by omega)
      have hrec := ih (pair + 3 * s) f fsq bo bo2 (butterfly3 d pair s f fsq bo bo2)
        hlen' (by omega) hpair' k hk
      rw [hrec]
      by_cases hc0 : k % (3 * s) = g ∧ pair ≤ k
      · rw [if_pos hc0]
        rcases Nat.lt_or_ge k (pair + 3 * s) with hksm | hkbig
        · have hkp : k = pair :=
            window_unique (c := 0) hpair (by omega) hc0.2 hksm (by omega)
          rw [if_neg (by omega), if_neg (by omega), if_neg (by omega),
            butterfly3_getD f fsq bo bo2 hs hbd k, if_pos hkp, hkp]
        · rw [if_pos ⟨hc0.1, hkbig⟩,
            butterfly3_getD f fsq bo bo2 hs hbd k,
            if_neg (by omega), if_neg (by omega), if_neg (by omega),
            butterfly3_getD f fsq bo bo2 hs hbd (k + s),
            if_neg (by omega), if_neg (by omega), if_neg (by omega),
            butterfly3_getD f fsq bo bo2 hs hbd (k + 2 * s),
            if_neg (by omega), if_neg (by omega), if_neg (by omega)]
      · by_cases hc1 : k % (3 * s) = g + s ∧ pair ≤ k
        · rw [if_neg hc0, if_pos hc1]
          rcases Nat.lt_or_ge k (pair + 3 * s) with hksm | hkbig
          · have hkp : k = pair + s :=
              window_unique hpair (by omega) hc1.2 hksm hc1.1
            rw [if_neg (by omega), if_neg (by omega), if_neg (by omega),
              butterfly3_getD f fsq bo bo2 hs hbd k,
              if_neg (by omega), if_pos hkp,
              show k - s = pair from by omega, show k + s = pair + 2 * s from by omega,
              hkp]
          · rw [if_neg (by omega), if_pos ⟨hc1.1, hkbig⟩]
            have hks : s ≤ k := by omega
            have hne1 : k - s ≠ pair := by
              intro h
              have : k = pair + s := by omega
              omega
            have hne2 : k - s ≠ pair + s := by
              intro h
              have : k = pair + 2 * s := by omega
              omega
            have hne3 : k - s ≠ pair + 2 * s := by
              intro h
              have hkv : k = pair + 3 * s := by omega
              have : k % (3 * s) = g := by rw [hkv, Nat.add_mod_right, hpair]
              omega
            rw [butterfly3_getD f fsq bo bo2 hs hbd k,
              if_neg (by omega), if_neg (by omega), if_neg (by omega),
              butterfly3_getD f fsq bo bo2 hs hbd (k - s),
              if_neg hne1, if_neg hne2, if_neg hne3,
              butterfly3_getD f fsq bo bo2 hs hbd (k + s),
              if_neg (by omega), if_neg (by omega), if_neg (by omega)]
        · by_cases hc2 : k % (3 * s) = g + 2 * s ∧ pair ≤ k
          · rw [if_neg hc0, if_neg hc1, if_pos hc2]
            rcases Nat.lt_or_ge k (pair + 3 * s) with hksm | hkbig
            · have hkp : k = pair + 2 * s :=
                window_unique hpair (by omega) hc2.2 hksm hc2.1
              rw [if_neg (by omega), if_neg (by omega), if_neg (by omega),
                butterfly3_getD f fsq bo bo2 hs hbd k,
                if_neg (by omega), if_neg (by omega), if_pos hkp,
                show k - 2 * s = pair from by omega,
                show k - s = pair + s from by omega, hkp]
            · rw [if_neg (by omega), if_neg (by omega), if_pos ⟨hc2.1, hkbig⟩]
              have hks : 2 * s ≤ k := by omega
              have hne1 : k - 2 * s ≠ pair := by
                intro h
                have : k = pair + 2 * s := by omega
                omega
              have hne2 : k - 2 * s ≠ pair + s := by
                intro h
                have hkv : k = pair + 3 * s := by omega
                have : k % (3 * s) = g := by rw [hkv, Nat.add_mod_right, hpair]
                omega
              have hne3 : k - 2 * s ≠ pair + 2 * s := by
                intro h
                have hkv : k = pair + 4 * s := by omega
                have : k % (3 * s) = g + s := by
                  rw [show k = pair + s + 3 * s from by omega, Nat.add_mod_right,
                    hpm1]
                omega
              have hne4 : k - s ≠ pair := by
                intro h
                have : k = pair + s := by omega
                omega
              have hne5 : k - s ≠ pair + s := by
                intro h
                have : k = pair + 2 * s := by omega
                omega
              have hne6 : k - s ≠ pair + 2 * s := by
                intro h
                have hkv : k = pair + 3 * s := by omega
                have : k % (3 * s) = g := by rw [hkv, Nat.add_mod_right, hpair]
                omega
              rw [butterfly3_getD f fsq bo bo2 hs hbd k,
                if_neg (by omega), if_neg (by omega), if_neg (by omega),
                butterfly3_getD f fsq bo bo2 hs hbd (k - 2 * s),
                if_neg hne1, if_neg hne2, if_neg hne3,
                butterfly3_getD f fsq bo bo2 hs hbd (k - s),
                if_neg hne4, if_neg hne5, if_neg hne6]
          · rw [if_neg hc0, if_neg hc1, if_neg hc2]
            have hrc0 : ¬ (k % (3 * s) = g ∧ pair + 3 * s ≤ k) := by
              intro h
              exact hc0 ⟨h.1, by omega⟩
            have hrc1 : ¬ (k % (3 * s) = g + s ∧ pair + 3 * s ≤ k) := by
              intro h
              exact hc1 ⟨h.1, by omega⟩
            have hrc2 : ¬ (k % (3 * s) = g + 2 * s ∧ pair + 3 * s ≤ k) := by
              intro h
              exact hc2 ⟨h.1, by omega⟩
            rw [if_neg hrc0, if_neg hrc1, if_neg hrc2]
            have hne0 : k ≠ pair := by
              intro h
              exact hc0 ⟨by rw [h, hpair], by omega⟩
            have hne1 : k ≠ pair + s := by
              intro h
              exact hc1 ⟨by rw [h, hpm1], by omega⟩
            have hne2 : k ≠ pair + 2 * s := by
              intro h
              exact hc2 ⟨by rw [h, hpm2], by omega⟩
            rw [butterfly3_getD f fsq bo bo2 hs hbd k,
              if_neg hne0, if_neg hne1, if_neg hne2]
    · simp only [fft3PairLoop, if_neg hlt]
      rw [if_neg (by omega), if_neg (by omega), if_neg (by omega)]


/-! ### Pointwise description of one radix-3 level -/

/-- Residue after subtracting a small offset. -/
theorem sub_small_mod {k s3 g a : ℕ} (hg : g < s3) (h : k % s3 = g + a)
    (hak : a ≤ k) : (k - a) % s3 = g := by
  have hdm := Nat.div_add_mod k s3
  have hk' : k - a = g + s3 * (k / s3) := by omega
  rw [hk', Nat.add_mul_mod_self_left, Nat.mod_eq_of_lt hg]

theorem fft3Level_fold [Field F] (d : List F) (str bo bo2 : F) (s : ℕ) (hs : 0 < s)
    (h3s : 3 * s ∣ d.length) :
    ∀ G, G ≤ s →
      ((List.range G).foldl (fft3GroupStep s str bo bo2) (1, d)).1 = str ^ G ∧
      (((List.range G).foldl (fft3GroupStep s str bo bo2) (1, d)).2).length = d.length ∧
      ∀ k, k < d.length →
        (((List.range G).foldl (fft3GroupStep s str bo bo2) (1, d)).2).getD k 0 =
          if k % s < G then
            (if k / s % 3 = 0 then
              d.getD k 0 + d.getD (k + s) 0 * str ^ (k % s) +
                d.getD (k + 2 * s) 0 * (str ^ (k % s) * str ^ (k % s))
             else if k / s % 3 = 1 then
              d.getD (k - s) 0 + bo * (d.getD k 0 * str ^ (k % s)) +
                bo2 * (d.getD (k + s) 0 * (str ^ (k % s) * str ^ (k % s)))
             else
              d.getD (k - 2 * s) 0 + bo2 * (d.getD (k - s) 0 * str ^ (k % s)) +
                bo * (d.getD k 0 * (str ^ (k % s) * str ^ (k % s))))
          else d.getD k 0 := by
  intro G
  induction G with
  | zero =>
    intro _
    refine ⟨(pow_zero str).symm, rfl, ?_⟩
    intro k hk
    rw [if_neg (by omega)]
    rfl
  | succ G ihG =>
    intro hG1
    have hG : G < s := by omega
    obtain ⟨hfac, hlen2, hget⟩ := ihG (by omega)
    rw [List.range_succ, List.foldl_append, List.foldl_cons, List.foldl_nil]
    set st := (List.range G).foldl (fft3GroupStep s str bo bo2) (1, d) with hst
    have hstep : fft3GroupStep s str bo bo2 st G =
        (st.1 * str,
          fft3PairLoop (st.2.length + 1) G s (3 * s) st.1 (st.1 * st.1)
            bo bo2 st.2) := rfl
    rw [hstep]
    have h3s' : 3 * s ∣ st.2.length := by rw [hlen2]; exact h3s
    refine ⟨?_, ?_, ?_⟩
    · show st.1 * str = str ^ (G + 1)
      rw [hfac, pow_succ]
    · show (fft3PairLoop (st.2.length + 1) G s (3 * s) st.1 (st.1 * st.1)
          bo bo2 st.2).length = d.length
      rw [length_fft3PairLoop, hlen2]
    · intro k hk
      show (fft3PairLoop (st.2.length + 1) G s (3 * s) st.1 (st.1 * st.1)
          bo bo2 st.2).getD k 0 = _
      have hGmod : G % (3 * s) = G := Nat.mod_eq_of_lt (by omega)
      have hpl := fft3PairLoop_getD (n := st.2.length) hs h3s' hG
        (st.2.length + 1) G st.1 (st.1 * st.1) bo bo2 st.2 rfl (by omega) hGmod
        k (by omega)
      rw [hpl, hfac]
      have hks : k % s < s := Nat.mod_lt _ (by omega)
      by_cases hc0 : k % (3 * s) = G ∧ G ≤ k
      · have hkmods : k % s = G ∧ k / s % 3 = 0 :=
          (mod_three_mul_eq hs hG (by norm_num)).mp (by omega)
        rw [if_pos hc0]
        have hk2s : k + 2 * s < d.length :=
          class3_add_lt hs h3s (show k % (3 * s) < s by omega) hk rfl
        have hksmod : (k + s) % s = k % s := Nat.add_mod_right _ _
        have hk2smod : (k + 2 * s) % s = k % s := Nat.add_mul_mod_self_right k 2 s
        rw [hget k (by omega), if_neg (by omega)]
        rw [hget (k + s) (by omega), hksmod, if_neg (by omega)]
        rw [hget (k + 2 * s) hk2s, hk2smod, if_neg (by omega)]
        rw [if_pos (by omega), if_pos (by omega), hkmods.1]
      · by_cases hc1 : k % (3 * s) = G + s ∧ G ≤ k
        · have hkmods : k % s = G ∧ k / s % 3 = 1 :=
            (mod_three_mul_eq hs hG (by norm_num)).mp (by omega)
          rw [if_neg hc0, if_pos hc1]
          have hsk : s ≤ k := by
            have h1 := Nat.mod_le k (3 * s)
            omega
          have hkm : (k - s) % (3 * s) = G := sub_small_mod (by omega) hc1.1 hsk
          have hk1s : k + s < d.length := by
            have := class3_add_lt hs h3s (show (k - s) % (3 * s) < s by omega)
              (show k - s < d.length by omega) rfl
            omega
          have hksub : (k - s) % s = k % s := sub_s_mod hsk
          have hksmod : (k + s) % s = k % s := Nat.add_mod_right _ _
          rw [hget (k - s) (by omega), hksub, if_neg (by omega)]
          rw [hget k (by omega), if_neg (by omega)]
          rw [hget (k + s) hk1s, hksmod, if_neg (by omega)]
          rw [if_pos (by omega), if_neg (by omega), if_pos (by omega), hkmods.1]
        · by_cases hc2 : k % (3 * s) = G + 2 * s ∧ G ≤ k
          · have hkmods : k % s = G ∧ k / s % 3 = 2 :=
              (mod_three_mul_eq hs hG (by norm_num)).mp (by omega)
            rw [if_neg hc0, if_neg hc1, if_pos hc2]
            have hsk : 2 * s ≤ k := by
              have h1 := Nat.mod_le k (3 * s)
              omega
            have hksub1 : (k - s) % s = k % s := sub_s_mod (by omega)
            have hksub2 : (k - 2 * s) % s = k % s := by
              rw [show k - 2 * s = k - s - s from by omega, sub_s_mod (by omega),
                hksub1]
            rw [hget (k - 2 * s) (by omega), hksub2, if_neg (by omega)]
            rw [hget (k - s) (by omega), hksub1, if_neg (by omega)]
            rw [hget k (by omega), if_neg (by omega)]
            rw [if_pos (by omega), if_neg (by omega), if_neg (by omega),
              hkmods.1]
          · rw [if_neg hc0, if_neg hc1, if_neg hc2, hget k (by omega)]
            have hkne : k % s ≠ G := by
              intro hmod
              have hGle : G ≤ k := by
                have := Nat.mod_le k s
                omega
              rcases (by omega : k / s % 3 = 0 ∨ k / s % 3 = 1 ∨ k / s % 3 = 2)
                with h3 | h3 | h3
              · exact hc0 ⟨by
                  have := (mod_three_mul_eq hs hG (show (0:ℕ) < 3 by norm_num)).mpr
                    ⟨hmod, h3⟩
                  omega, hGle⟩
              · exact hc1 ⟨by
                  have := (mod_three_mul_eq hs hG (show (1:ℕ) < 3 by norm_num)).mpr
                    ⟨hmod, h3⟩
                  omega, hGle⟩
              · exact hc2 ⟨by
                  have := (mod_three_mul_eq hs hG (show (2:ℕ) < 3 by norm_num)).mpr
                    ⟨hmod, h3⟩
                  omega, hGle⟩
            by_cases hlt2 : k % s < G
            · rw [if_pos hlt2, if_pos (show k % s < G + 1 by omega)]
            · rw [if_neg hlt2, if_neg (show ¬ k % s < G + 1 by omega)]

theorem fft3Level_getD [Field F] (d : List F) (omega bo bo2 : F) (s : ℕ)
    (hs : 0 < s) (h3s : 3 * s ∣ d.length) (k : ℕ) (hk : k < d.length) :
    (fft3Level d omega s bo bo2).getD k 0 =
      if k / s % 3 = 0 then
        d.getD k 0 + d.getD (k + s) 0 * (omega ^ (d.length / s / 3)) ^ (k % s) +
          d.getD (k + 2 * s) 0 *
            ((omega ^ (d.length / s / 3)) ^ (k % s) *
              (omega ^ (d.length / s / 3)) ^ (k % s))
      else if k / s % 3 = 1 then
        d.getD (k - s) 0 +
          bo * (d.getD k 0 * (omega ^ (d.length / s / 3)) ^ (k % s)) +
          bo2 * (d.getD (k + s) 0 *
            ((omega ^ (d.length / s / 3)) ^ (k % s) *
              (omega ^ (d.length / s / 3)) ^ (k % s)))
      else
        d.getD (k - 2 * s) 0 +
          bo2 * (d.getD (k - s) 0 * (omega ^ (d.length / s / 3)) ^ (k % s)) +
          bo * (d.getD k 0 *
            ((omega ^ (d.length / s / 3)) ^ (k % s) *
              (omega ^ (d.length / s / 3)) ^ (k % s))) := by
  have h := (fft3Level_fold d (omega ^ (d.length / s / 3)) bo bo2 s hs h3s s
    le_rfl).2.2 k hk
  have hks : k % s < s := Nat.mod_lt _ (by omega)
  unfold fft3Level
  rw [h, if_pos hks]

/-! ### Unrolling the fft3 compute loop into levels -/

/-- The state of `fft3_in_place_compute` after the first `d` iterations of its
step loop. -/
def applyLevels3 [Field F] (omega bo bo2 : F) (a : List F) : ℕ → List F
  | 0 => a
  | d + 1 => fft3Level (applyLevels3 omega bo bo2 a d) omega (3 ^ d) bo bo2

theorem length_applyLevels3 [Field F] (omega bo bo2 : F) (a : List F) :
    ∀ d, (applyLevels3 omega bo bo2 a d).length = a.length := by
  intro d
  induction d with
  | zero => rfl
  | succ d ih =>
    show (fft3Level (applyLevels3 omega bo bo2 a d) omega (3 ^ d) bo
      bo2).length = a.length
    rw [length_fft3Level, ih]

theorem fft3ComputeLoop_eq_applyLevels3 [Field F] (omega bo bo2 : F) (a : List F)
    (u : ℕ) (ha : a.length = 3 ^ u) :
    ∀ m e fuel, e + m = u → m < fuel →
      fft3ComputeLoop fuel (3 ^ e) omega bo bo2 (applyLevels3 omega bo bo2 a e) =
        applyLevels3 omega bo bo2 a u := by
  intro m
  induction m with
  | zero =>
    intro e fuel he hf
    obtain ⟨f, rfl⟩ : ∃ f, fuel = f + 1 := ⟨fuel - 1, by omega⟩
    have he' : e = u := by omega
    subst he'
    have hunfold : fft3ComputeLoop (f + 1) (3 ^ e) omega bo bo2
        (applyLevels3 omega bo bo2 a e) =
        if 3 ^ e < (applyLevels3 omega bo bo2 a e).length then
          fft3ComputeLoop f (3 * 3 ^ e) omega bo bo2
            (fft3Level (applyLevels3 omega bo bo2 a e) omega (3 ^ e) bo bo2)
        else applyLevels3 omega bo bo2 a e := rfl
    rw [hunfold, length_applyLevels3, ha, if_neg (by omega)]
  | succ m ih =>
    intro e fuel he hf
    obtain ⟨f, rfl⟩ : ∃ f, fuel = f + 1 := ⟨fuel - 1, by omega⟩
    have hunfold : fft3ComputeLoop (f + 1) (3 ^ e) omega bo bo2
        (applyLevels3 omega bo bo2 a e) =
        if 3 ^ e < (applyLevels3 omega bo bo2 a e).length then
          fft3ComputeLoop f (3 * 3 ^ e) omega bo bo2
            (fft3Level (applyLevels3 omega bo bo2 a e) omega (3 ^ e) bo bo2)
        else applyLevels3 omega bo bo2 a e := rfl
    rw [hunfold, length_applyLevels3, ha,
      if_pos (Nat.pow_lt_pow_right (by norm_num) (by omega)),
      show (3:ℕ) * 3 ^ e = 3 ^ (e + 1) from (pow_succ' 3 e).symm]
    have hnext : fft3Level (applyLevels3 omega bo bo2 a e) omega (3 ^ e) bo bo2 =
        applyLevels3 omega bo bo2 a (e + 1) := rfl
    rw [hnext]
    exact ih (e + 1) f (by omega) (by omega)

theorem fft3_in_place_compute_eq_applyLevels3 [Field F] (omega : F) (a : List F)
    (u : ℕ) (ha : a.length = 3 ^ u) :
    fft3_in_place_compute a omega =
      applyLevels3 omega (omega ^ (a.length / 3))
        (omega ^ (a.length / 3) * omega ^ (a.length / 3)) a u := by
  have h := fft3ComputeLoop_eq_applyLevels3 omega (omega ^ (a.length / 3))
    (omega ^ (a.length / 3) * omega ^ (a.length / 3)) a u ha u 0 (a.length + 1)
    (by omega)
    (by
      rw [ha]
      have h3 : u < 3 ^ u := Nat.lt_pow_self (by norm_num) u
      omega)
  rw [show (3:ℕ) ^ 0 = 1 from rfl] at h
  exact h


/-! ### The base-3 counter of `fft3_in_place_rearrange` -/

/-- Little-endian base-3 digits of `p`, width `u`: the contents of the
`trigits` array when the rearrange loop is at position `p`. -/
def ctr3 : ℕ → ℕ → List ℕ
  | 0, _ => []
  | u + 1, p => p % 3 :: ctr3 u (p / 3)

/-- The `powers` list of `fft3_in_place_rearrange`. -/
def powers3 (u : ℕ) : List Int :=
  ((List.range u).map (fun x => (3 : Int) ^ x)).reverse

theorem powers3_succ (u : ℕ) : powers3 (u + 1) = (3 : Int) ^ u :: powers3 u := by
  unfold powers3
  rw [List.range_succ, List.map_append, List.reverse_append]
  rfl

theorem ctr3_zero : ∀ u, ctr3 u 0 = List.replicate u 0 := by
  intro u
  induction u with
  | zero => rfl
  | succ u ih =>
    show 0 % 3 :: ctr3 u (0 / 3) = List.replicate (u + 1) 0
    rw [List.replicate_succ]
    rw [show (0:ℕ) % 3 = 0 from rfl, show (0:ℕ) / 3 = 0 from rfl, ih]

/-- One increment of the base-3 counter: digits and digit-reversed target both
advance from `p` to `p + 1`. -/
theorem trigitsInc_spec : ∀ (u p : ℕ), p + 1 < 3 ^ u →
    trigitsInc (ctr3 u p) (powers3 u) ((baseRev 3 u p : ℕ) : Int) =
      (ctr3 u (p + 1), ((baseRev 3 u (p + 1) : ℕ) : Int)) := by
  intro u
  induction u with
  | zero =>
    intro p hp
    rw [pow_zero] at hp
    omega
  | succ u ih =>
    intro p hp
    have hctr : ctr3 (u + 1) p = p % 3 :: ctr3 u (p / 3) := rfl
    have hbr : baseRev 3 (u + 1) p = baseRev 3 u (p / 3) + p % 3 * 3 ^ u := rfl
    have hctr' : ctr3 (u + 1) (p + 1) = (p + 1) % 3 :: ctr3 u ((p + 1) / 3) := rfl
    have hbr' : baseRev 3 (u + 1) (p + 1) =
        baseRev 3 u ((p + 1) / 3) + (p + 1) % 3 * 3 ^ u := rfl
    rw [hctr, powers3_succ]
    have hInc : trigitsInc (p % 3 :: ctr3 u (p / 3))
        ((3 : Int) ^ u :: powers3 u) ((baseRev 3 (u + 1) p : ℕ) : Int) =
        if p % 3 < 2 then
          ((p % 3 + 1) :: ctr3 u (p / 3),
            ((baseRev 3 (u + 1) p : ℕ) : Int) + (3 : Int) ^ u)
        else
          (0 :: (trigitsInc (ctr3 u (p / 3)) (powers3 u)
              (((baseRev 3 (u + 1) p : ℕ) : Int) - 2 * (3 : Int) ^ u)).1,
            (trigitsInc (ctr3 u (p / 3)) (powers3 u)
              (((baseRev 3 (u + 1) p : ℕ) : Int) - 2 * (3 : Int) ^ u)).2) := rfl
    rw [hInc]
    by_cases h2 : p % 3 < 2
    · rw [if_pos h2]
      have hmod : (p + 1) % 3 = p % 3 + 1 := by omega
      have hdiv : (p + 1) / 3 = p / 3 := by omega
      refine Prod.ext ?_ ?_
      · show (p % 3 + 1) :: ctr3 u (p / 3) = ctr3 (u + 1) (p + 1)
        rw [hctr', hmod, hdiv]
      · show ((baseRev 3 (u + 1) p : ℕ) : Int) + (3 : Int) ^ u =
          ((baseRev 3 (u + 1) (p + 1) : ℕ) : Int)
        rw [hbr, hbr', hmod, hdiv]
        push_cast
        ring
    · rw [if_neg h2]
      have h3 : p % 3 = 2 := by omega
      have hple : p / 3 + 1 < 3 ^ u := by
        have h31 : (3 : ℕ) ^ (u + 1) = 3 * 3 ^ u := pow_succ' 3 u
        omega
      have hT : ((baseRev 3 (u + 1) p : ℕ) : Int) - 2 * (3 : Int) ^ u =
          ((baseRev 3 u (p / 3) : ℕ) : Int) := by
        rw [hbr, h3]
        push_cast
        ring
      rw [hT, ih (p / 3) hple]
      have hmod : (p + 1) % 3 = 0 := by omega
      have hdiv : (p + 1) / 3 = p / 3 + 1 := by omega
      refine Prod.ext ?_ ?_
      · show 0 :: ctr3 u (p / 3 + 1) = ctr3 (u + 1) (p + 1)
        rw [hctr', hmod, hdiv]
      · show ((baseRev 3 u (p / 3 + 1) : ℕ) : Int) =
          ((baseRev 3 (u + 1) (p + 1) : ℕ) : Int)
        rw [hbr', hmod, hdiv]
        push_cast
        ring

/-! ### `trigits_len` on a power of three -/

theorem trigitsLenLoop_spec (u : ℕ) :
    ∀ fuel r, 1 ≤ r → r ≤ u → u ≤ r + fuel →
      trigitsLenLoop fuel r (3 ^ r) (3 ^ u - 1) = u := by
  intro fuel
  induction fuel with
  | zero =>
    intro r h1 h2 h3
    have hr : r = u := by omega
    subst hr
    rfl
  | succ fuel ih =>
    intro r h1 h2 h3
    have hunfold : trigitsLenLoop (fuel + 1) r (3 ^ r) (3 ^ u - 1) =
        if 3 ^ r < 3 ^ u - 1 + 1 then
          trigitsLenLoop fuel (r + 1) (3 ^ r * 3) (3 ^ u - 1)
        else r := rfl
    rw [hunfold]
    have h3u : (1 : ℕ) ≤ 3 ^ u := Nat.one_le_pow _ _ (by norm_num)
    rcases Nat.lt_or_ge r u with hlt | hge
    · rw [if_pos (by
        have := Nat.pow_lt_pow_right (show 1 < 3 by norm_num) hlt
        omega)]
      rw [show (3 : ℕ) ^ r * 3 = 3 ^ (r + 1) from (pow_succ 3 r).symm]
      exact ih (r + 1) (by omega) (by omega) (by omega)
    · have hru : r = u := by omega
      subst hru
      rw [if_neg (by omega)]

theorem trigits_len_pow (u : ℕ) (hu : 1 ≤ u) : trigits_len (3 ^ u - 1) = u := by
  have hlt : u < 3 ^ u := Nat.lt_pow_self (by norm_num) u
  have h := trigitsLenLoop_spec u (3 ^ u - 1 + 2) 1 le_rfl hu (by omega)
  exact h

/-! ### The radix-3 rearrange permutation -/

theorem rearrange3_fold (data : List α) (u : ℕ) (hu : 1 ≤ u)
    (hlen : data.length = 3 ^ u) :
    ∀ P, P ≤ 3 ^ u →
    (P < 3 ^ u →
      ((List.range P).foldl (fft3RearrangeStep (powers3 u))
        ((List.replicate u 0, 0), data)).1 =
        (ctr3 u P, ((baseRev 3 u P : ℕ) : Int))) ∧
    (((List.range P).foldl (fft3RearrangeStep (powers3 u))
        ((List.replicate u 0, 0), data)).2).length = data.length ∧
    (∀ j, j < 3 ^ u →
      (((List.range P).foldl (fft3RearrangeStep (powers3 u))
        ((List.replicate u 0, 0), data)).2)[j]? =
        if min j (baseRev 3 u j) < P then data[baseRev 3 u j]? else data[j]?) := by
  intro P
  induction P with
  | zero =>
    intro _
    refine ⟨fun _ => ?_, rfl, ?_⟩
    · show (List.replicate u 0, (0 : Int)) = (ctr3 u 0, ((baseRev 3 u 0 : ℕ) : Int))
      rw [ctr3_zero, baseRev_zero]
      rfl
    · intro j hj
      rw [if_neg (by omega)]
      rfl
  | succ P ih =>
    intro hP1
    have hP : P < 3 ^ u := by omega
    obtain ⟨htgt, hlen2, hget⟩ := ih (by omega)
    rw [List.range_succ, List.foldl_append, List.foldl_cons, List.foldl_nil]
    set st := (List.range P).foldl (fft3RearrangeStep (powers3 u))
      ((List.replicate u 0, 0), data) with hst
    have htgt' : st.1 = (ctr3 u P, ((baseRev 3 u P : ℕ) : Int)) := htgt hP
    have htoN : st.1.2.toNat = baseRev 3 u P := by
      rw [htgt']
      exact Int.toNat_natCast _
    have hσP : baseRev 3 u P < 3 ^ u := baseRev_lt (by norm_num) u P
    have hσσ : baseRev 3 u (baseRev 3 u P) = P := baseRev_baseRev (by norm_num) u P hP
    have hstep : fft3RearrangeStep (powers3 u) st P =
        (trigitsInc st.1.1 (powers3 u) st.1.2,
          if P < st.1.2.toNat then listSwap st.2 st.1.2.toNat P else st.2) := rfl
    rw [hstep]
    refine ⟨?_, ?_, ?_⟩
    · intro hP1'
      show trigitsInc st.1.1 (powers3 u) st.1.2 = _
      rw [htgt']
      exact trigitsInc_spec u P (by omega)
    · show (if P < st.1.2.toNat then listSwap st.2 st.1.2.toNat P else st.2).length
        = data.length
      split
      · rw [length_listSwap]
        exact hlen2
      · exact hlen2
    · intro j hj
      show (if P < st.1.2.toNat then listSwap st.2 st.1.2.toNat P else st.2)[j]? = _
      have hjσ : baseRev 3 u j < 3 ^ u := baseRev_lt (by norm_num) u j
      have hjσσ : baseRev 3 u (baseRev 3 u j) = j := baseRev_baseRev (by norm_num) u j hj
      rw [htoN]
      by_cases hsw : P < baseRev 3 u P
      · rw [if_pos hsw]
        have h1 : baseRev 3 u P < st.2.length := by
          rw [hlen2, hlen]
          exact hσP
        have h2 : P < st.2.length := by
          rw [hlen2, hlen]
          exact hP
        rw [listSwap_getElem? st.2 (baseRev 3 u P) P j h1 h2]
        by_cases hjeq : j = baseRev 3 u P
        · rw [if_pos hjeq]
          have hj2 : baseRev 3 u j = P := by rw [hjeq, hσσ]
          rw [hget P hP, if_neg (by omega), if_pos (by omega), hj2]
        · rw [if_neg hjeq]
          by_cases hjP : j = P
          · rw [if_pos hjP]
            rw [hget (baseRev 3 u P) hσP, hσσ, if_neg (by omega)]
            have hj2 : baseRev 3 u j = baseRev 3 u P := by rw [hjP]
            rw [if_pos (by omega), hj2]
          · rw [if_neg hjP, hget j hj]
            have hne1 : baseRev 3 u j ≠ P := by
              intro h
              apply hjeq
              rw [← h, hjσσ]
            by_cases hmin : min j (baseRev 3 u j) < P
            · rw [if_pos hmin, if_pos (by omega)]
            · rw [if_neg hmin, if_neg (by omega)]
      · rw [if_neg hsw]
        rw [hget j hj]
        by_cases hjP : j = P
        · subst hjP
          by_cases hσeq : baseRev 3 u j = j
          · rw [hσeq]
            rw [if_neg (by omega), if_pos (by omega)]
          · have hσlt : baseRev 3 u j < j := by omega
            rw [if_pos (by omega), if_pos (by omega)]
        · have hiff : ¬ min j (baseRev 3 u j) < P → ¬ min j (baseRev 3 u j) < P + 1 := by
            intro hc hlt
            have hminP : min j (baseRev 3 u j) = P := by omega
            rcases Nat.le_total j (baseRev 3 u j) with hle | hle
            · exact hjP (by omega)
            · have hσjP : baseRev 3 u j = P := by omega
              have hjval : j = baseRev 3 u P := by rw [← hσjP, hjσσ]
              exact hjP (by omega)
          by_cases hmin : min j (baseRev 3 u j) < P
          · rw [if_pos hmin, if_pos (by omega)]
          · rw [if_neg hmin, if_neg (hiff hmin)]

theorem fft3_in_place_rearrange_getElem? (data : List α) (u : ℕ) (hu : 1 ≤ u)
    (hlen : data.length = 3 ^ u) (j : ℕ) (hj : j < 3 ^ u) :
    (fft3_in_place_rearrange data)[j]? = data[baseRev 3 u j]? := by
  have htl : trigits_len (data.length - 1) = u := by
    rw [hlen]
    exact trigits_len_pow u hu
  show (((List.range data.length).foldl
      (fft3RearrangeStep
        (((List.range (trigits_len (data.length - 1))).map
          (fun x => (3 : Int) ^ x)).reverse))
      ((List.replicate (trigits_len (data.length - 1)) 0, 0), data)).2)[j]? = _
  rw [htl, hlen]
  have h := (rearrange3_fold data u hu hlen (3 ^ u) le_rfl).2.2 j hj
  rw [show ((List.range u).map (fun x => (3 : Int) ^ x)).reverse = powers3 u
    from rfl, h, if_pos (lt_of_le_of_lt (min_le_left _ _) hj)]


/-! ### The radix-3 DIT invariant -/

theorem div_mul_three_decompose (k s : ℕ) (hs : 0 < s) :
    k / s * s = k / (3 * s) * (3 * s) + s * (k / s % 3) := by
  have h1 : k / (3 * s) = k / s / 3 := by
    rw [Nat.div_div_eq_div_mul, Nat.mul_comm s 3]
  have h2 : 3 * (k / s / 3) + k / s % 3 = k / s := Nat.div_add_mod (k / s) 3
  calc k / s * s = (3 * (k / s / 3) + k / s % 3) * s := by rw [h2]
    _ = k / s / 3 * (3 * s) + s * (k / s % 3) := by ring
    _ = k / (3 * s) * (3 * s) + s * (k / s % 3) := by rw [h1]

/-- The radix-3 DIT invariant: after the first `d` levels on a rearranged input
of length `3^u`, position `k` holds the order-`3^d` DFT of the enclosing block,
indices traversed in base-3 digit-reversed order.  `bo` is `omega^(3^(u-1))`
(the global `big_omega` of the source) and `bo2` its square. -/
theorem applyLevels3_getD [Field F] (omega bo bo2 : F) (u : ℕ) (a : List F)
    (ha : a.length = 3 ^ u) (h1 : omega ^ 3 ^ u = 1)
    (hbo : 1 ≤ u → bo = omega ^ 3 ^ (u - 1)) (hbo2 : bo2 = bo * bo) :
    ∀ d, d ≤ u → ∀ k, k < 3 ^ u →
      (applyLevels3 omega bo bo2 a d).getD k 0 =
        ∑ t ∈ Finset.range (3 ^ d),
          a.getD (k / 3 ^ d * 3 ^ d + t) 0 *
            (omega ^ 3 ^ (u - d)) ^ (k % 3 ^ d * baseRev 3 d t) := by
  intro d
  induction d with
  | zero =>
    intro _ k hk
    have hshow : applyLevels3 omega bo bo2 a 0 = a := rfl
    have hbr : baseRev 3 0 0 = 0 := rfl
    rw [hshow, show (3:ℕ) ^ 0 = 1 from rfl, Finset.sum_range_one, hbr]
    simp [Nat.mod_one]
  | succ d ih =>
    intro hdl k hk
    have hs : (0:ℕ) < 3 ^ d := pow_pos (by norm_num) d
    have hy : applyLevels3 omega bo bo2 a (d + 1) =
        fft3Level (applyLevels3 omega bo bo2 a d) omega (3 ^ d) bo bo2 := rfl
    have hylen : (applyLevels3 omega bo bo2 a d).length = 3 ^ u := by
      rw [length_applyLevels3, ha]
    have h3pow : (3:ℕ) * 3 ^ d = 3 ^ (d + 1) := (pow_succ' 3 d).symm
    have h3s : 3 * 3 ^ d ∣ (applyLevels3 omega bo bo2 a d).length := by
      rw [hylen, h3pow]
      exact pow_dvd_pow 3 hdl
    have hstride : (applyLevels3 omega bo bo2 a d).length / 3 ^ d / 3 =
        3 ^ (u - (d + 1)) := by
      rw [hylen, Nat.pow_div (by omega) (by norm_num),
        show u - d = (u - (d + 1)) + 1 from by omega, pow_succ]
      exact Nat.mul_div_cancel _ (by norm_num)
    have hlev := fft3Level_getD (applyLevels3 omega bo bo2 a d) omega bo bo2
      (3 ^ d) hs h3s k (by rw [hylen]; exact hk)
    rw [hstride] at hlev
    rw [hy, hlev]
    have hmod3 : k % 3 ^ (d + 1) = k % 3 ^ d + 3 ^ d * (k / 3 ^ d % 3) := by
      rw [← h3pow]
      exact mod_three_mul_decompose k (3 ^ d)
    have hdiv3 : k / 3 ^ d * 3 ^ d =
        k / 3 ^ (d + 1) * 3 ^ (d + 1) + 3 ^ d * (k / 3 ^ d % 3) := by
      rw [← h3pow]
      exact div_mul_three_decompose k (3 ^ d) hs
    have hsplitn : (3:ℕ) ^ (d + 1) = 3 ^ d + (3 ^ d + 3 ^ d) := by
      rw [pow_succ]; ring
    have hC3 : ∀ m : ℕ, (omega ^ 3 ^ (u - (d + 1))) ^ (3 * m) =
        (omega ^ 3 ^ (u - d)) ^ m := by
      intro m
      rw [← pow_mul, ← pow_mul]
      congr 1
      rw [show u - d = (u - (d + 1)) + 1 from by omega, pow_succ]
      ring
    have hW1 : (omega ^ 3 ^ (u - (d + 1))) ^ 3 ^ (d + 1) = 1 := by
      rw [← pow_mul, ← pow_add, show u - (d + 1) + (d + 1) = u from by omega]
      exact h1
    have hWpow1 : ∀ m : ℕ, (omega ^ 3 ^ (u - (d + 1))) ^ (3 ^ (d + 1) * m) = 1 := by
      intro m
      rw [pow_mul, hW1, one_pow]
    have hWbo : (omega ^ 3 ^ (u - (d + 1))) ^ 3 ^ d = bo := by
      rw [← pow_mul, show (3:ℕ) ^ (u - (d + 1)) * 3 ^ d = 3 ^ (u - 1) from by
        rw [← pow_add]; congr 1; omega]
      exact (hbo (by omega)).symm
    have hWboPow : ∀ x : ℕ, (omega ^ 3 ^ (u - (d + 1))) ^ (3 ^ d * x) = bo ^ x := by
      intro x
      rw [pow_mul, hWbo]
    have hbo3 : bo ^ 3 = 1 := by
      rw [hbo (by omega), ← pow_mul, show (3:ℕ) ^ (u - 1) * 3 = 3 ^ u from by
        rw [← pow_succ]; congr 1; omega]
      exact h1
    have hbo4 : bo ^ 4 = bo := by
      calc bo ^ 4 = bo ^ 3 * bo := by ring
        _ = bo := by rw [hbo3, one_mul]
    have hkey : ∀ c j m : ℕ,
        (omega ^ 3 ^ (u - (d + 1))) ^ ((k % 3 ^ d + 3 ^ d * c) * (3 * m + j)) =
          (omega ^ 3 ^ (u - d)) ^ (k % 3 ^ d * m) *
            ((omega ^ 3 ^ (u - (d + 1))) ^ (k % 3 ^ d)) ^ j * bo ^ (c * j) := by
      intro c j m
      rw [show (k % 3 ^ d + 3 ^ d * c) * (3 * m + j) =
          3 * (k % 3 ^ d * m) + 3 ^ (d + 1) * (c * m) + j * (k % 3 ^ d) +
            3 ^ d * (c * j) from by rw [pow_succ]; ring,
        pow_add (omega ^ 3 ^ (u - (d + 1)))
          (3 * (k % 3 ^ d * m) + 3 ^ (d + 1) * (c * m) + j * (k % 3 ^ d))
          (3 ^ d * (c * j)),
        pow_add (omega ^ 3 ^ (u - (d + 1)))
          (3 * (k % 3 ^ d * m) + 3 ^ (d + 1) * (c * m)) (j * (k % 3 ^ d)),
        pow_add (omega ^ 3 ^ (u - (d + 1))) (3 * (k % 3 ^ d * m))
          (3 ^ (d + 1) * (c * m)),
        hC3 (k % 3 ^ d * m), hWpow1 (c * m), hWboPow (c * j),
        show (omega ^ 3 ^ (u - (d + 1))) ^ (j * (k % 3 ^ d)) =
          ((omega ^ 3 ^ (u - (d + 1))) ^ (k % 3 ^ d)) ^ j from by
            rw [pow_mul']]
      ring
    have hbr0 : ∀ t, t < 3 ^ d → baseRev 3 (d + 1) t = 3 * baseRev 3 d t := by
      intro t ht
      have ht2 : t < 3 ^ (d + 1) := by rw [hsplitn]; omega
      rw [baseRev_succ_left (by norm_num) d t ht2, Nat.mod_eq_of_lt ht,
        Nat.div_eq_of_lt ht]
      omega
    have hbr1 : ∀ t, t < 3 ^ d →
        baseRev 3 (d + 1) (3 ^ d + t) = 3 * baseRev 3 d t + 1 := by
      intro t ht
      have ht2 : 3 ^ d + t < 3 ^ (d + 1) := by rw [hsplitn]; omega
      rw [baseRev_succ_left (by norm_num) d (3 ^ d + t) ht2,
        Nat.add_mod_left, Nat.mod_eq_of_lt ht,
        show (3 ^ d + t) / 3 ^ d = 1 from by
          rw [Nat.add_comm, Nat.add_div_right t hs, Nat.div_eq_of_lt ht]]
    have hbr2 : ∀ t, t < 3 ^ d →
        baseRev 3 (d + 1) (3 ^ d + (3 ^ d + t)) = 3 * baseRev 3 d t + 2 := by
      intro t ht
      have ht2 : 3 ^ d + (3 ^ d + t) < 3 ^ (d + 1) := by rw [hsplitn]; omega
      rw [show (3:ℕ) ^ d + (3 ^ d + t) = t + 3 ^ d * 2 from by ring] at ht2 ⊢
      rw [baseRev_succ_left (by norm_num) d (t + 3 ^ d * 2) ht2,
        Nat.add_mul_mod_self_left, Nat.mod_eq_of_lt ht,
        Nat.add_mul_div_left t 2 hs, Nat.div_eq_of_lt ht]
    rcases (by omega : k / 3 ^ d % 3 = 0 ∨ k / 3 ^ d % 3 = 1 ∨ k / 3 ^ d % 3 = 2)
      with he | he | he
    · -- digit 0: butterfly top output
      rw [if_pos he]
      simp only [he, Nat.mul_zero, Nat.add_zero] at hmod3 hdiv3
      have hgS : k % (3 * 3 ^ d) < 3 ^ d := by
        rw [h3pow, hmod3]
        exact Nat.mod_lt _ hs
      have hk2 : k + 2 * 3 ^ d < 3 ^ u :=
        class3_add_lt hs (by rw [h3pow]; exact pow_dvd_pow 3 hdl) hgS hk rfl
      have hIHk := ih (by omega) k hk
      have hIHa := ih (by omega) (k + 3 ^ d) (by omega)
      have hIHb := ih (by omega) (k + 2 * 3 ^ d) hk2
      simp only [Nat.add_div_right k hs, Nat.add_mod_right, Nat.add_mul,
        Nat.one_mul] at hIHa
      have hdiv2s : (k + 2 * 3 ^ d) / 3 ^ d = k / 3 ^ d + 2 := by
        rw [show k + 2 * 3 ^ d = k + 3 ^ d * 2 from by ring,
          Nat.add_mul_div_left k 2 hs]
      have hmod2s : (k + 2 * 3 ^ d) % 3 ^ d = k % 3 ^ d :=
        Nat.add_mul_mod_self_right k 2 (3 ^ d)
      simp only [hdiv2s, hmod2s, Nat.add_mul] at hIHb
      simp only [hdiv3] at hIHk hIHa hIHb
      rw [hIHk, hIHa, hIHb]
      simp only [hmod3]
      rw [show Finset.range (3 ^ (d + 1)) = Finset.range (3 ^ d + (3 ^ d + 3 ^ d))
        from by rw [hsplitn]]
      simp only [sum_range_add_split]
      have hR0 : ∑ t ∈ Finset.range (3 ^ d),
          a.getD (k / 3 ^ (d + 1) * 3 ^ (d + 1) + t) 0 *
            (omega ^ 3 ^ (u - (d + 1))) ^ (k % 3 ^ d * baseRev 3 (d + 1) t) =
          ∑ t ∈ Finset.range (3 ^ d),
          a.getD (k / 3 ^ (d + 1) * 3 ^ (d + 1) + t) 0 *
            (omega ^ 3 ^ (u - d)) ^ (k % 3 ^ d * baseRev 3 d t) :=
        Finset.sum_congr rfl (fun t ht => by
          have htlt : t < 3 ^ d := Finset.mem_range.mp ht
          rw [hbr0 t htlt,
            show k % 3 ^ d * (3 * baseRev 3 d t) =
              (k % 3 ^ d + 3 ^ d * 0) * (3 * baseRev 3 d t + 0) from by ring,
            hkey 0 0 (baseRev 3 d t)]
          simp only [Nat.zero_mul, pow_zero, mul_one])
      have hR1 : ∑ t ∈ Finset.range (3 ^ d),
          a.getD (k / 3 ^ (d + 1) * 3 ^ (d + 1) + (3 ^ d + t)) 0 *
            (omega ^ 3 ^ (u - (d + 1))) ^
              (k % 3 ^ d * baseRev 3 (d + 1) (3 ^ d + t)) =
          (∑ t ∈ Finset.range (3 ^ d),
            a.getD (k / 3 ^ (d + 1) * 3 ^ (d + 1) + 3 ^ d + t) 0 *
              (omega ^ 3 ^ (u - d)) ^ (k % 3 ^ d * baseRev 3 d t)) *
            (omega ^ 3 ^ (u - (d + 1))) ^ (k % 3 ^ d) := by
        rw [Finset.sum_mul]
        exact Finset.sum_congr rfl (fun t ht => by
          have htlt : t < 3 ^ d := Finset.mem_range.mp ht
          rw [hbr1 t htlt,
            show k / 3 ^ (d + 1) * 3 ^ (d + 1) + (3 ^ d + t) =
              k / 3 ^ (d + 1) * 3 ^ (d + 1) + 3 ^ d + t from by ring,
            show k % 3 ^ d * (3 * baseRev 3 d t + 1) =
              (k % 3 ^ d + 3 ^ d * 0) * (3 * baseRev 3 d t + 1) from by ring,
            hkey 0 1 (baseRev 3 d t)]
          simp only [Nat.zero_mul, pow_zero, pow_one, mul_one]
          ring)
      have hR2 : ∑ t ∈ Finset.range (3 ^ d),
          a.getD (k / 3 ^ (d + 1) * 3 ^ (d + 1) + (3 ^ d + (3 ^ d + t))) 0 *
            (omega ^ 3 ^ (u - (d + 1))) ^
              (k % 3 ^ d * baseRev 3 (d + 1) (3 ^ d + (3 ^ d + t))) =
          (∑ t ∈ Finset.range (3 ^ d),
            a.getD (k / 3 ^ (d + 1) * 3 ^ (d + 1) + 2 * 3 ^ d + t) 0 *
              (omega ^ 3 ^ (u - d)) ^ (k % 3 ^ d * baseRev 3 d t)) *
            ((omega ^ 3 ^ (u - (d + 1))) ^ (k % 3 ^ d) *
              (omega ^ 3 ^ (u - (d + 1))) ^ (k % 3 ^ d)) := by
        rw [Finset.sum_mul]
        exact Finset.sum_congr rfl (fun t ht => by
          have htlt : t < 3 ^ d := Finset.mem_range.mp ht
          rw [hbr2 t htlt,
            show k / 3 ^ (d + 1) * 3 ^ (d + 1) + (3 ^ d + (3 ^ d + t)) =
              k / 3 ^ (d + 1) * 3 ^ (d + 1) + 2 * 3 ^ d + t from by ring,
            show k % 3 ^ d * (3 * baseRev 3 d t + 2) =
              (k % 3 ^ d + 3 ^ d * 0) * (3 * baseRev 3 d t + 2) from by ring,
            hkey 0 2 (baseRev 3 d t)]
          simp only [Nat.zero_mul, pow_zero, mul_one, pow_two]
          ring)
      rw [hR0, hR1, hR2]
      ring
    · -- digit 1: middle butterfly output
      rw [if_neg (show ¬ k / 3 ^ d % 3 = 0 by omega), if_pos he]
      simp only [he, Nat.mul_one] at hmod3 hdiv3
      have hsk : 3 ^ d ≤ k := by
        by_contra hc
        rw [Nat.div_eq_of_lt (by omega)] at he
        omega
      have hkm : (k - 3 ^ d) % (3 * 3 ^ d) = k % 3 ^ d := by
        have hlt' : k % 3 ^ d < 3 ^ d := Nat.mod_lt _ (by omega)
        refine sub_small_mod (by omega) ?_ hsk
        rw [h3pow]
        exact hmod3
      have hk1 : k + 3 ^ d < 3 ^ u := by
        have := class3_add_lt hs (by rw [h3pow]; exact pow_dvd_pow 3 hdl)
          (show (k - 3 ^ d) % (3 * 3 ^ d) < 3 ^ d from by
            rw [hkm]; exact Nat.mod_lt _ (by omega))
          (show k - 3 ^ d < 3 ^ u from by omega) rfl
        omega
      have hj1 : k / 3 ^ d = (k - 3 ^ d) / 3 ^ d + 1 := by
        conv_lhs => rw [show k = k - 3 ^ d + 3 ^ d from by omega]
        rw [Nat.add_div_right _ hs]
      have hjB : (k - 3 ^ d) / 3 ^ d * 3 ^ d =
          k / 3 ^ (d + 1) * 3 ^ (d + 1) := by
        have h := hdiv3
        rw [hj1, Nat.add_mul, Nat.one_mul] at h
        omega
      have hjmod : (k - 3 ^ d) % 3 ^ d = k % 3 ^ d := sub_s_mod hsk
      have hIHm := ih (by omega) (k - 3 ^ d) (by omega)
      have hIHk := ih (by omega) k hk
      have hIHa := ih (by omega) (k + 3 ^ d) (by omega)
      simp only [hjB, hjmod] at hIHm
      simp only [Nat.add_div_right k hs, Nat.add_mod_right, Nat.add_mul,
        Nat.one_mul] at hIHa
      simp only [hdiv3] at hIHk hIHa
      rw [hIHm, hIHk, hIHa]
      simp only [hmod3]
      rw [show Finset.range (3 ^ (d + 1)) = Finset.range (3 ^ d + (3 ^ d + 3 ^ d))
        from by rw [hsplitn]]
      simp only [sum_range_add_split]
      have hR0 : ∑ t ∈ Finset.range (3 ^ d),
          a.getD (k / 3 ^ (d + 1) * 3 ^ (d + 1) + t) 0 *
            (omega ^ 3 ^ (u - (d + 1))) ^
              ((k % 3 ^ d + 3 ^ d) * baseRev 3 (d + 1) t) =
          ∑ t ∈ Finset.range (3 ^ d),
          a.getD (k / 3 ^ (d + 1) * 3 ^ (d + 1) + t) 0 *
            (omega ^ 3 ^ (u - d)) ^ (k % 3 ^ d * baseRev 3 d t) :=
        Finset.sum_congr rfl (fun t ht => by
          have htlt : t < 3 ^ d := Finset.mem_range.mp ht
          rw [hbr0 t htlt,
            show (k % 3 ^ d + 3 ^ d) * (3 * baseRev 3 d t) =
              (k % 3 ^ d + 3 ^ d * 1) * (3 * baseRev 3 d t + 0) from by ring,
            hkey 1 0 (baseRev 3 d t)]
          simp only [Nat.mul_zero, pow_zero, mul_one])
      have hR1 : ∑ t ∈ Finset.range (3 ^ d),
          a.getD (k / 3 ^ (d + 1) * 3 ^ (d + 1) + (3 ^ d + t)) 0 *
            (omega ^ 3 ^ (u - (d + 1))) ^
              ((k % 3 ^ d + 3 ^ d) * baseRev 3 (d + 1) (3 ^ d + t)) =
          bo * ((∑ t ∈ Finset.range (3 ^ d),
            a.getD (k / 3 ^ (d + 1) * 3 ^ (d + 1) + 3 ^ d + t) 0 *
              (omega ^ 3 ^ (u - d)) ^ (k % 3 ^ d * baseRev 3 d t)) *
            (omega ^ 3 ^ (u - (d + 1))) ^ (k % 3 ^ d)) := by
        rw [Finset.sum_mul, Finset.mul_sum]
        exact Finset.sum_congr rfl (fun t ht => by
          have htlt : t < 3 ^ d := Finset.mem_range.mp ht
          rw [hbr1 t htlt,
            show k / 3 ^ (d + 1) * 3 ^ (d + 1) + (3 ^ d + t) =
              k / 3 ^ (d + 1) * 3 ^ (d + 1) + 3 ^ d + t from by ring,
            show (k % 3 ^ d + 3 ^ d) * (3 * baseRev 3 d t + 1) =
              (k % 3 ^ d + 3 ^ d * 1) * (3 * baseRev 3 d t + 1) from by ring,
            hkey 1 1 (baseRev 3 d t)]
          simp only [Nat.one_mul, pow_one]
          ring)
      have hR2 : ∑ t ∈ Finset.range (3 ^ d),
          a.getD (k / 3 ^ (d + 1) * 3 ^ (d + 1) + (3 ^ d + (3 ^ d + t))) 0 *
            (omega ^ 3 ^ (u - (d + 1))) ^
              ((k % 3 ^ d + 3 ^ d) * baseRev 3 (d + 1) (3 ^ d + (3 ^ d + t))) =
          bo2 * ((∑ t ∈ Finset.range (3 ^ d),
            a.getD (k / 3 ^ (d + 1) * 3 ^ (d + 1) + 3 ^ d + 3 ^ d + t) 0 *
              (omega ^ 3 ^ (u - d)) ^ (k % 3 ^ d * baseRev 3 d t)) *
            ((omega ^ 3 ^ (u - (d + 1))) ^ (k % 3 ^ d) *
              (omega ^ 3 ^ (u - (d + 1))) ^ (k % 3 ^ d))) := by
        rw [Finset.sum_mul, Finset.mul_sum]
        exact Finset.sum_congr rfl (fun t ht => by
          have htlt : t < 3 ^ d := Finset.mem_range.mp ht
          rw [hbr2 t htlt,
            show k / 3 ^ (d + 1) * 3 ^ (d + 1) + (3 ^ d + (3 ^ d + t)) =
              k / 3 ^ (d + 1) * 3 ^ (d + 1) + 3 ^ d + 3 ^ d + t from by ring,
            show (k % 3 ^ d + 3 ^ d) * (3 * baseRev 3 d t + 2) =
              (k % 3 ^ d + 3 ^ d * 1) * (3 * baseRev 3 d t + 2) from by ring,
            hkey 1 2 (baseRev 3 d t), hbo2]
          simp only [Nat.one_mul, pow_two]
          ring)
      rw [hR0, hR1, hR2]
      ring
    · -- digit 2: bottom butterfly output
      rw [if_neg (show ¬ k / 3 ^ d % 3 = 0 by omega),
        if_neg (show ¬ k / 3 ^ d % 3 = 1 by omega)]
      simp only [he] at hmod3 hdiv3
      have hsk : 2 * 3 ^ d ≤ k := by
        have hq2 : 2 ≤ k / 3 ^ d := by
          have h := Nat.mod_le (k / 3 ^ d) 3
          rw [he] at h
          exact h
        have h1' := Nat.mul_le_mul_right (3 ^ d) hq2
        have h2' := Nat.div_mul_le_self k (3 ^ d)
        omega
      have hj1 : k / 3 ^ d = (k - 3 ^ d) / 3 ^ d + 1 := by
        conv_lhs => rw [show k = k - 3 ^ d + 3 ^ d from by omega]
        rw [Nat.add_div_right _ hs]
      have hj2 : (k - 3 ^ d) / 3 ^ d = (k - 2 * 3 ^ d) / 3 ^ d + 1 := by
        conv_lhs => rw [show k - 3 ^ d = k - 2 * 3 ^ d + 3 ^ d from by omega]
        rw [Nat.add_div_right _ hs]
      have hjB1 : (k - 3 ^ d) / 3 ^ d * 3 ^ d =
          k / 3 ^ (d + 1) * 3 ^ (d + 1) + 3 ^ d := by
        have h := hdiv3
        rw [hj1, Nat.add_mul, Nat.one_mul] at h
        omega
      have hjB2 : (k - 2 * 3 ^ d) / 3 ^ d * 3 ^ d =
          k / 3 ^ (d + 1) * 3 ^ (d + 1) := by
        have h := hjB1
        rw [hj2, Nat.add_mul, Nat.one_mul] at h
        omega
      have hjmod1 : (k - 3 ^ d) % 3 ^ d = k % 3 ^ d := sub_s_mod (by omega)
      have hjmod2 : (k - 2 * 3 ^ d) % 3 ^ d = k % 3 ^ d := by
        rw [show k - 2 * 3 ^ d = k - 3 ^ d - 3 ^ d from by omega,
          sub_s_mod (by omega), hjmod1]
      have hIHm2 := ih (by omega) (k - 2 * 3 ^ d) (by omega)
      have hIHm1 := ih (by omega) (k - 3 ^ d) (by omega)
      have hIHk := ih (by omega) k hk
      simp only [hjB2, hjmod2] at hIHm2
      simp only [hjB1, hjmod1] at hIHm1
      simp only [hdiv3] at hIHk
      rw [hIHm2, hIHm1, hIHk]
      simp only [hmod3]
      rw [show Finset.range (3 ^ (d + 1)) = Finset.range (3 ^ d + (3 ^ d + 3 ^ d))
        from by rw [hsplitn]]
      simp only [sum_range_add_split]
      have hR0 : ∑ t ∈ Finset.range (3 ^ d),
          a.getD (k / 3 ^ (d + 1) * 3 ^ (d + 1) + t) 0 *
            (omega ^ 3 ^ (u - (d + 1))) ^
              ((k % 3 ^ d + 3 ^ d * 2) * baseRev 3 (d + 1) t) =
          ∑ t ∈ Finset.range (3 ^ d),
          a.getD (k / 3 ^ (d + 1) * 3 ^ (d + 1) + t) 0 *
            (omega ^ 3 ^ (u - d)) ^ (k % 3 ^ d * baseRev 3 d t) :=
        Finset.sum_congr rfl (fun t ht => by
          have htlt : t < 3 ^ d := Finset.mem_range.mp ht
          rw [hbr0 t htlt,
            show (k % 3 ^ d + 3 ^ d * 2) * (3 * baseRev 3 d t) =
              (k % 3 ^ d + 3 ^ d * 2) * (3 * baseRev 3 d t + 0) from by ring,
            hkey 2 0 (baseRev 3 d t)]
          simp only [Nat.mul_zero, pow_zero, mul_one])
      have hR1 : ∑ t ∈ Finset.range (3 ^ d),
          a.getD (k / 3 ^ (d + 1) * 3 ^ (d + 1) + (3 ^ d + t)) 0 *
            (omega ^ 3 ^ (u - (d + 1))) ^
              ((k % 3 ^ d + 3 ^ d * 2) * baseRev 3 (d + 1) (3 ^ d + t)) =
          bo2 * ((∑ t ∈ Finset.range (3 ^ d),
            a.getD (k / 3 ^ (d + 1) * 3 ^ (d + 1) + 3 ^ d + t) 0 *
              (omega ^ 3 ^ (u - d)) ^ (k % 3 ^ d * baseRev 3 d t)) *
            (omega ^ 3 ^ (u - (d + 1))) ^ (k % 3 ^ d)) := by
        rw [Finset.sum_mul, Finset.mul_sum]
        exact Finset.sum_congr rfl (fun t ht => by
          have htlt : t < 3 ^ d := Finset.mem_range.mp ht
          rw [hbr1 t htlt,
            show k / 3 ^ (d + 1) * 3 ^ (d + 1) + (3 ^ d + t) =
              k / 3 ^ (d + 1) * 3 ^ (d + 1) + 3 ^ d + t from by ring,
            hkey 2 1 (baseRev 3 d t), hbo2,
            show (2:ℕ) * 1 = 2 from rfl]
          simp only [pow_one, pow_two]
          ring)
      have hR2 : ∑ t ∈ Finset.range (3 ^ d),
          a.getD (k / 3 ^ (d + 1) * 3 ^ (d + 1) + (3 ^ d + (3 ^ d + t))) 0 *
            (omega ^ 3 ^ (u - (d + 1))) ^
              ((k % 3 ^ d + 3 ^ d * 2) * baseRev 3 (d + 1) (3 ^ d + (3 ^ d + t))) =
          bo * ((∑ t ∈ Finset.range (3 ^ d),
            a.getD (k / 3 ^ (d + 1) * 3 ^ (d + 1) + 3 ^ d * 2 + t) 0 *
              (omega ^ 3 ^ (u - d)) ^ (k % 3 ^ d * baseRev 3 d t)) *
            ((omega ^ 3 ^ (u - (d + 1))) ^ (k % 3 ^ d) *
              (omega ^ 3 ^ (u - (d + 1))) ^ (k % 3 ^ d))) := by
        rw [Finset.sum_mul, Finset.mul_sum]
        exact Finset.sum_congr rfl (fun t ht => by
          have htlt : t < 3 ^ d := Finset.mem_range.mp ht
          rw [hbr2 t htlt,
            show k / 3 ^ (d + 1) * 3 ^ (d + 1) + (3 ^ d + (3 ^ d + t)) =
              k / 3 ^ (d + 1) * 3 ^ (d + 1) + 3 ^ d * 2 + t from by ring,
            hkey 2 2 (baseRev 3 d t),
            show (2:ℕ) * 2 = 4 from rfl, hbo4]
          simp only [pow_two]
          ring)
      rw [hR0, hR1, hR2]
      ring


/-! ### The DFT characterisation of `fft3` -/

theorem fft3_rearrange_len_one (data : List α) (h : data.length = 1) :
    fft3_in_place_rearrange data = data := by
  show (((List.range data.length).foldl
      (fft3RearrangeStep
        (((List.range (trigits_len (data.length - 1))).map
          (fun x => (3 : Int) ^ x)).reverse))
      ((List.replicate (trigits_len (data.length - 1)) 0, 0), data)).2) = data
  rw [h]
  rfl

/-- `fft3` computes the discrete Fourier transform; only `omega^(3^u) = 1` is
needed. -/
theorem fft3_dft [Field F] (a : List F) (omega : F) (u : ℕ)
    (ha : a.length = 3 ^ u) (h1 : omega ^ 3 ^ u = 1)
    (r : ℕ) (hr : r < 3 ^ u) :
    (fft3 a omega).getD r 0 =
      ∑ t ∈ Finset.range (3 ^ u), a.getD t 0 * omega ^ (r * t) := by
  rcases Nat.eq_zero_or_pos u with rfl | hu
  · have ha1 : a.length = 1 := ha
    have hr0 : r = 0 := by
      rw [pow_zero] at hr
      omega
    have hcomp : fft3 a omega = a := by
      unfold fft3
      rw [fft3_rearrange_len_one a ha1]
      exact fft3_in_place_compute_eq_applyLevels3 omega a 0 ha
    rw [hcomp, hr0, show (3:ℕ) ^ 0 = 1 from rfl, Finset.sum_range_one]
    simp
  · have ha' : (fft3_in_place_rearrange a).length = 3 ^ u := by
      rw [length_fft3_in_place_rearrange, ha]
    have hdiv : (3 : ℕ) ^ u / 3 = 3 ^ (u - 1) :=
      Nat.pow_div (show 1 ≤ u by omega) (by norm_num)
    have hcomp : fft3 a omega =
        applyLevels3 omega (omega ^ ((fft3_in_place_rearrange a).length / 3))
          (omega ^ ((fft3_in_place_rearrange a).length / 3) *
            omega ^ ((fft3_in_place_rearrange a).length / 3))
          (fft3_in_place_rearrange a) u := by
      unfold fft3
      exact fft3_in_place_compute_eq_applyLevels3 omega _ u ha'
    rw [hcomp, applyLevels3_getD omega _ _ u (fft3_in_place_rearrange a) ha' h1
      (by intro _; rw [ha', hdiv]) rfl u le_rfl r hr]
    have hgd : ∀ t, t < 3 ^ u →
        (fft3_in_place_rearrange a).getD t 0 = a.getD (baseRev 3 u t) 0 := by
      intro t ht
      rw [List.getD_eq_getElem?_getD, List.getD_eq_getElem?_getD,
        fft3_in_place_rearrange_getElem? a u hu ha t ht]
    have hstep : ∑ t ∈ Finset.range (3 ^ u),
        (fft3_in_place_rearrange a).getD (r / 3 ^ u * 3 ^ u + t) 0 *
          (omega ^ 3 ^ (u - u)) ^ (r % 3 ^ u * baseRev 3 u t) =
        ∑ t ∈ Finset.range (3 ^ u),
          a.getD (baseRev 3 u t) 0 * omega ^ (r * baseRev 3 u t) := by
      apply Finset.sum_congr rfl
      intro t ht
      have htlt : t < 3 ^ u := Finset.mem_range.mp ht
      rw [Nat.div_eq_of_lt hr, Nat.zero_mul, Nat.zero_add, hgd t htlt,
        Nat.mod_eq_of_lt hr, Nat.sub_self, pow_zero, pow_one]
    rw [hstep]
    apply Finset.sum_nbij' (baseRev 3 u) (baseRev 3 u)
    · intro t ht
      exact Finset.mem_range.mpr (baseRev_lt (by norm_num) u t)
    · intro t ht
      exact Finset.mem_range.mpr (baseRev_lt (by norm_num) u t)
    · intro t ht
      exact baseRev_baseRev (by norm_num) u t (Finset.mem_range.mp ht)
    · intro t ht
      exact baseRev_baseRev (by norm_num) u t (Finset.mem_range.mp ht)
    · intro t ht
      rfl

/-! ### The fft3 round trips -/

/-- Summing a DFT against powers of `omega⁻¹` recovers an entry scaled by the
length (general order). -/
theorem dft_inversion_sum [Field F] {omega : F} {N : ℕ}
    (hprim : IsPrimitiveRoot omega N) (hN : 0 < N) (a : List F) (j : ℕ)
    (hj : j < N) :
    ∑ r ∈ Finset.range N,
        (∑ t ∈ Finset.range N, a.getD t 0 * omega ^ (r * t)) *
          omega⁻¹ ^ (j * r) =
      a.getD j 0 * ((N : ℕ) : F) := by
  calc ∑ r ∈ Finset.range N,
      (∑ t ∈ Finset.range N, a.getD t 0 * omega ^ (r * t)) * omega⁻¹ ^ (j * r)
      = ∑ r ∈ Finset.range N, ∑ t ∈ Finset.range N,
          a.getD t 0 * omega ^ (r * t) * omega⁻¹ ^ (j * r) :=
        Finset.sum_congr rfl (fun r _ => Finset.sum_mul _ _ _)
    _ = ∑ t ∈ Finset.range N, ∑ r ∈ Finset.range N,
          a.getD t 0 * omega ^ (r * t) * omega⁻¹ ^ (j * r) := Finset.sum_comm
    _ = ∑ t ∈ Finset.range N,
          a.getD t 0 * ∑ r ∈ Finset.range N,
            (omega ^ t * omega⁻¹ ^ j) ^ r := by
        apply Finset.sum_congr rfl
        intro t _
        rw [Finset.mul_sum]
        apply Finset.sum_congr rfl
        intro r _
        rw [mul_pow, ← pow_mul, ← pow_mul, mul_comm t r, mul_comm j r]
        ring
    _ = ∑ t ∈ Finset.range N,
          (if t = j then a.getD t 0 * ((N : ℕ) : F) else 0) := by
        apply Finset.sum_congr rfl
        intro t ht
        rw [root_orthogonality hprim hN t j (Finset.mem_range.mp ht) hj]
        rcases eq_or_ne t j with rfl | hne
        · rw [if_pos rfl, if_pos rfl]
        · rw [if_neg hne, if_neg hne, mul_zero]
    _ = a.getD j 0 * ((N : ℕ) : F) := by
        rw [Finset.sum_ite_eq' (Finset.range N) j
          (fun t => a.getD t 0 * ((N : ℕ) : F)),
          if_pos (Finset.mem_range.mpr hj)]

set_option maxHeartbeats 2000000 in
/-- C3 core, radix 3, forward direction: `fft3_inverse` undoes `fft3`. -/
theorem fft3_fft3_inverse [Field F] (a : List F) (omega : F) (u : ℕ)
    (ha : a.length = 3 ^ u) (hprim : IsPrimitiveRoot omega (3 ^ u)) :
    fft3_inverse (fft3 a omega) omega = a := by
  have hN0 : (0:ℕ) < 3 ^ u := pow_pos (by norm_num) u
  have h1 : omega ^ 3 ^ u = 1 := hprim.pow_eq_one
  have h1i : omega⁻¹ ^ 3 ^ u = 1 := by rw [inv_pow, h1, inv_one]
  haveI : NeZero (3 ^ u) := ⟨by omega⟩
  have hNne : ((3 ^ u : ℕ) : F) ≠ 0 := (hprim.neZero' (R := F)).out
  have hb : (fft3 a omega).length = 3 ^ u := by rw [length_fft3, ha]
  have hfb : (fft3 (fft3 a omega) omega⁻¹).length = 3 ^ u := by
    rw [length_fft3, hb]
  have hshape : fft3_inverse (fft3 a omega) omega =
      (fft3 (fft3 a omega) omega⁻¹).map
        (fun v => v * (((fft3 a omega).length : F))⁻¹) := rfl
  apply List.ext_getElem?
  intro j
  rcases Nat.lt_or_ge j (3 ^ u) with hj | hj
  · have hjmap : j < ((fft3 (fft3 a omega) omega⁻¹).map
        (fun v => v * (((fft3 a omega).length : F))⁻¹)).length := by
      rw [List.length_map, hfb]
      exact hj
    have hja : j < a.length := by rw [ha]; exact hj
    rw [hshape, List.getElem?_eq_getElem hjmap, List.getElem?_eq_getElem hja]
    congr 1
    rw [← List.getD_eq_getElem _ 0 hjmap, ← List.getD_eq_getElem _ 0 hja]
    rw [getD_map_mul _ _ j (by rw [hfb]; exact hj)]
    rw [fft3_dft (fft3 a omega) omega⁻¹ u hb h1i j hj]
    have hbr : ∀ r ∈ Finset.range (3 ^ u),
        (fft3 a omega).getD r 0 * omega⁻¹ ^ (j * r) =
        (∑ t ∈ Finset.range (3 ^ u), a.getD t 0 * omega ^ (r * t)) *
          omega⁻¹ ^ (j * r) := by
      intro r hr
      rw [fft3_dft a omega u ha h1 r (Finset.mem_range.mp hr)]
    rw [Finset.sum_congr rfl hbr, dft_inversion_sum hprim hN0 a j hj, hb,
      mul_assoc, mul_inv_cancel₀ hNne, mul_one]
  · rw [hshape, List.getElem?_eq_none (by rw [List.length_map, hfb]; exact hj),
      List.getElem?_eq_none (by rw [ha]; exact hj)]

set_option maxHeartbeats 2000000 in
/-- C1 helper, radix 3, reverse direction: `fft3` undoes `fft3_inverse`. -/
theorem fft3_inverse_fft3 [Field F] (b : List F) (omega : F) (u : ℕ)
    (hb : b.length = 3 ^ u) (hprim : IsPrimitiveRoot omega (3 ^ u)) :
    fft3 (fft3_inverse b omega) omega = b := by
  have hN0 : (0:ℕ) < 3 ^ u := pow_pos (by norm_num) u
  have h1 : omega ^ 3 ^ u = 1 := hprim.pow_eq_one
  have h1i : omega⁻¹ ^ 3 ^ u = 1 := by rw [inv_pow, h1, inv_one]
  haveI : NeZero (3 ^ u) := ⟨by omega⟩
  have hNne : ((3 ^ u : ℕ) : F) ≠ 0 := (hprim.neZero' (R := F)).out
  have hfbl : (fft3 b omega⁻¹).length = 3 ^ u := by rw [length_fft3, hb]
  have hshape : fft3_inverse b omega =
      (fft3 b omega⁻¹).map (fun v => v * ((b.length : F))⁻¹) := rfl
  have hinvlen : (fft3_inverse b omega).length = 3 ^ u := by
    rw [length_fft3_inverse, hb]
  have houtlen : (fft3 (fft3_inverse b omega) omega).length = 3 ^ u := by
    rw [length_fft3, hinvlen]
  have hgetinv : ∀ t, t < 3 ^ u → (fft3_inverse b omega).getD t 0 =
      (fft3 b omega⁻¹).getD t 0 * ((3 ^ u : ℕ) : F)⁻¹ := by
    intro t ht
    rw [hshape, getD_map_mul _ _ t (by rw [hfbl]; exact ht), hb]
  apply List.ext_getElem?
  intro j
  rcases Nat.lt_or_ge j (3 ^ u) with hj | hj
  · have hjout : j < (fft3 (fft3_inverse b omega) omega).length := by
      rw [houtlen]; exact hj
    have hjb : j < b.length := by rw [hb]; exact hj
    rw [List.getElem?_eq_getElem hjout, List.getElem?_eq_getElem hjb]
    congr 1
    rw [← List.getD_eq_getElem _ 0 hjout, ← List.getD_eq_getElem _ 0 hjb]
    rw [fft3_dft (fft3_inverse b omega) omega u hinvlen h1 j hj]
    have hbr : ∀ r ∈ Finset.range (3 ^ u),
        (fft3_inverse b omega).getD r 0 * omega ^ (j * r) =
        ((∑ t ∈ Finset.range (3 ^ u), b.getD t 0 * omega⁻¹ ^ (r * t)) *
          (omega⁻¹)⁻¹ ^ (j * r)) * ((3 ^ u : ℕ) : F)⁻¹ := by
      intro r hr
      rw [hgetinv r (Finset.mem_range.mp hr),
        fft3_dft b omega⁻¹ u hb h1i r (Finset.mem_range.mp hr), inv_inv]
      ring
    rw [Finset.sum_congr rfl hbr, ← Finset.sum_mul,
      dft_inversion_sum (hprim.inv) hN0 b j hj,
      mul_assoc, mul_inv_cancel₀ hNne, mul_one]
  · rw [List.getElem?_eq_none (by rw [houtlen]; exact hj),
      List.getElem?_eq_none (by rw [hb]; exact hj)]


/-! ### C3: the FFT round-trip identity -/

/-- A power of an element whose prime-power order is witnessed by two
equations is a primitive root. -/
theorem isPrimitiveRoot_prime_pow [Field F] {z : F} {q k : ℕ}
    (hq : Nat.Prime q) (hk : 1 ≤ k)
    (h1 : z ^ q ^ k = 1) (h2 : z ^ q ^ (k - 1) ≠ 1) :
    IsPrimitiveRoot z (q ^ k) := by
  have hdvd : orderOf z ∣ q ^ k := orderOf_dvd_of_pow_eq_one h1
  obtain ⟨j, hj, hje⟩ := (Nat.dvd_prime_pow hq).mp hdvd
  have hjk : j = k := by
    by_contra hne
    have hjlt : j ≤ k - 1 := by omega
    have hcon : z ^ q ^ (k - 1) = 1 := by
      apply orderOf_dvd_iff_pow_eq_one.mp
      rw [hje]
      exact pow_dvd_pow q hjlt
    exact h2 hcon
  have horder : orderOf z = q ^ k := by rw [hje, hjk]
  constructor
  · exact h1
  · intro l hl
    rw [← horder]
    exact orderOf_dvd_of_pow_eq_one hl

/-- C3: FFT round-trip identity.  Over any prime field `Z_p`, for every buffer
of length `2^l` and `omega` a primitive root of unity of order `2^l`,
`fft2_inverse` after `fft2` (same `omega`) restores the buffer; likewise for
length `3^u` with `omega` of order `3^u`, `fft3_inverse` after `fft3` restores
the buffer. -/
theorem fft_roundtrip_identity (p : ℕ) [Fact (Nat.Prime p)] :
    (∀ (a : List (ZMod p)) (omega : ZMod p) (l : ℕ), a.length = 2 ^ l →
      IsPrimitiveRoot omega (2 ^ l) →
      fft2_inverse (fft2 a omega) omega = a) ∧
    (∀ (a : List (ZMod p)) (omega : ZMod p) (u : ℕ), a.length = 3 ^ u →
      IsPrimitiveRoot omega (3 ^ u) →
      fft3_inverse (fft3 a omega) omega = a) :=
  ⟨fun a omega l ha hprim => fft2_fft2_inverse a omega l ha hprim,
   fun a omega u ha hprim => fft3_fft3_inverse a omega u ha hprim⟩

set_option maxRecDepth 4000 in
theorem fft_roundtrip_identity_witness :
    fft2_inverse (fft2 ([1, 2, 3, 4, 5, 6, 7, 8] : List (ZMod 433)) 354) 354 =
      [1, 2, 3, 4, 5, 6, 7, 8] ∧
    fft3_inverse (fft3 ([1, 2, 3, 4, 5, 6, 7, 8, 9] : List (ZMod 433)) 150) 150 =
      [1, 2, 3, 4, 5, 6, 7, 8, 9] :=
  ⟨(fft_roundtrip_identity 433).1 [1, 2, 3, 4, 5, 6, 7, 8] 354 3 rfl
      (isPrimitiveRoot_prime_pow (by norm_num) (by norm_num) (by decide)
        (by decide)),
   (fft_roundtrip_identity 433).2 [1, 2, 3, 4, 5, 6, 7, 8, 9] 150 2 rfl
      (isPrimitiveRoot_prime_pow (by norm_num) (by norm_num) (by decide)
        (by decide))⟩


/-! ### Closed form of `lagrange_interpolation_at_zero` -/

theorem foldl_add_eq_sum {M : Type _} [AddCommMonoid M] (g : ℕ → M) (z : M) :
    ∀ L, (List.range L).foldl (fun acc i => acc + g i) z =
      z + ∑ i ∈ Finset.range L, g i := by
  intro L
  induction L with
  | zero => simp
  | succ L ih =>
    rw [List.range_succ, List.foldl_append, List.foldl_cons, List.foldl_nil, ih,
      Finset.sum_range_succ, add_assoc]

theorem lagrangeInner_fold [Field F] (pts : List F) (xi : F) (i : ℕ) :
    ∀ L, (List.range L).foldl (lagrangeInnerStep pts xi i) (1, 1) =
      (∏ j ∈ (Finset.range L).filter (fun j => j ≠ i), pts.getD j 0,
       ∏ j ∈ (Finset.range L).filter (fun j => j ≠ i), (pts.getD j 0 - xi)) := by
  intro L
  induction L with
  | zero => simp
  | succ L ih =>
    rw [List.range_succ, List.foldl_append, List.foldl_cons, List.foldl_nil, ih,
      Finset.range_succ, Finset.filter_insert]
    have hstep : ∀ A B : F, lagrangeInnerStep pts xi i (A, B) L =
        if L ≠ i then (A * pts.getD L 0, B * (pts.getD L 0 - xi))
        else (A, B) := fun A B => rfl
    by_cases hL : L ≠ i
    · rw [if_pos hL]
      have hnot : L ∉ (Finset.range L).filter (fun j => j ≠ i) := by
        simp
      rw [Finset.prod_insert hnot, Finset.prod_insert hnot, hstep, if_pos hL]
      exact Prod.ext (mul_comm _ _) (mul_comm _ _)
    · rw [if_neg hL, hstep, if_neg hL]

theorem lagrange_interpolation_at_zero_eq_sum [Field F] (pts vals : List F) :
    lagrange_interpolation_at_zero pts vals =
      ∑ i ∈ Finset.range vals.length,
        vals.getD i 0 *
          ((∏ j ∈ (Finset.range vals.length).filter (fun j => j ≠ i),
              pts.getD j 0) *
           (∏ j ∈ (Finset.range vals.length).filter (fun j => j ≠ i),
              (pts.getD j 0 - pts.getD i 0))⁻¹) := by
  have hstep : lagrangeOuterStep pts vals = fun acc i => acc +
      vals.getD i 0 *
        (((List.range vals.length).foldl
            (lagrangeInnerStep pts (pts.getD i 0) i) (1, 1)).1 *
         (((List.range vals.length).foldl
            (lagrangeInnerStep pts (pts.getD i 0) i) (1, 1)).2)⁻¹) := rfl
  show (List.range vals.length).foldl (lagrangeOuterStep pts vals) 0 = _
  rw [hstep, foldl_add_eq_sum, zero_add]
  apply Finset.sum_congr rfl
  intro i _
  rw [lagrangeInner_fold pts (pts.getD i 0) i vals.length]

/-! ### Horner evaluation as a power sum -/

theorem mod_evaluate_polynomial_cons [Field F] (c0 : F) (rest : List F) (x : F) :
    mod_evaluate_polynomial (c0 :: rest) x =
      mod_evaluate_polynomial rest x * x + c0 := by
  unfold mod_evaluate_polynomial
  rw [List.reverse_cons, List.foldl_append, List.foldl_cons, List.foldl_nil]

theorem mod_evaluate_polynomial_eq_sum [Field F] (c : List F) (x : F) :
    mod_evaluate_polynomial c x =
      ∑ m ∈ Finset.range c.length, c.getD m 0 * x ^ m := by
  induction c with
  | nil => simp [mod_evaluate_polynomial]
  | cons c0 rest ih =>
    rw [mod_evaluate_polynomial_cons, ih, List.length_cons,
      Finset.sum_range_succ', Finset.sum_mul]
    simp only [List.getD_cons_succ, List.getD_cons_zero, pow_zero, mul_one,
      pow_succ]
    congr 1
    apply Finset.sum_congr rfl
    intro m _
    ring

/-! ### Interpolation at zero recovers a low-degree Horner polynomial -/

theorem eval_basisDivisor_zero [Field F] (x y : F) :
    (Lagrange.basisDivisor x y).eval 0 = y * (y - x)⁻¹ := by
  unfold Lagrange.basisDivisor
  rw [Polynomial.eval_mul, Polynomial.eval_C, Polynomial.eval_sub,
    Polynomial.eval_X, Polynomial.eval_C,
    show y - x = -(x - y) from by ring, inv_neg]
  ring

/-- Lagrange interpolation at zero over pairwise-distinct nodes recovers the
value at zero of any polynomial (given by its Horner coefficients) of degree
less than the number of nodes. -/
theorem lagrange_interpolation_recovers [Field F] (pts vals c : List F)
    (hlen : pts.length = vals.length)
    (hdeg : c.length ≤ vals.length)
    (hx : ∀ j, j < vals.length →
      vals.getD j 0 = mod_evaluate_polynomial c (pts.getD j 0))
    (hinj : ∀ a b, a < vals.length → b < vals.length →
      pts.getD a 0 = pts.getD b 0 → a = b) :
    lagrange_interpolation_at_zero pts vals = mod_evaluate_polynomial c 0 := by
  classical
  set L := vals.length with hL
  set v : ℕ → F := fun j => pts.getD j 0 with hv
  set pol : Polynomial F :=
    ∑ m ∈ Finset.range c.length, Polynomial.C (c.getD m 0) * Polynomial.X ^ m
    with hpol
  have heval : ∀ x : F, pol.eval x = mod_evaluate_polynomial c x := by
    intro x
    rw [mod_evaluate_polynomial_eq_sum, hpol, Polynomial.eval_finset_sum]
    apply Finset.sum_congr rfl
    intro m _
    rw [Polynomial.eval_mul, Polynomial.eval_C, Polynomial.eval_pow,
      Polynomial.eval_X]
  have hdegree : pol.degree < (Finset.range L).card := by
    rw [Finset.card_range, hpol]
    apply lt_of_le_of_lt (Polynomial.degree_sum_le _ _)
    rw [Finset.sup_lt_iff (by exact_mod_cast WithBot.bot_lt_coe L)]
    intro m hm
    apply lt_of_le_of_lt (Polynomial.degree_C_mul_X_pow_le _ _)
    have hmL : m < L := by
      have := Finset.mem_range.mp hm
      omega
    exact_mod_cast hmL
  have hInj : Set.InjOn v (Finset.range L) := by
    intro a ha b hb hab
    exact hinj a b (by simpa using ha) (by simpa using hb) hab
  have hkey := Lagrange.eq_interpolate (v := v) (s := Finset.range L) hInj hdegree
  rw [lagrange_interpolation_at_zero_eq_sum]
  calc ∑ i ∈ Finset.range L,
      vals.getD i 0 *
        ((∏ j ∈ (Finset.range L).filter (fun j => j ≠ i), pts.getD j 0) *
         (∏ j ∈ (Finset.range L).filter (fun j => j ≠ i),
            (pts.getD j 0 - pts.getD i 0))⁻¹)
      = ∑ i ∈ Finset.range L,
          pol.eval (v i) * (Lagrange.basis (Finset.range L) v i).eval 0 := by
        apply Finset.sum_congr rfl
        intro i hi
        have hiL : i < L := Finset.mem_range.mp hi
        have hbasis : (Lagrange.basis (Finset.range L) v i).eval 0 =
            ∏ j ∈ (Finset.range L).erase i, (v j * (v j - v i)⁻¹) := by
          unfold Lagrange.basis
          rw [Polynomial.eval_prod]
          exact Finset.prod_congr rfl fun j _ => eval_basisDivisor_zero (v i) (v j)
        rw [hbasis, hx i hiL, heval, ← Finset.prod_inv_distrib,
          ← Finset.prod_mul_distrib, Finset.filter_ne']
    _ = (Lagrange.interpolate (Finset.range L) v fun i => pol.eval (v i)).eval 0 := by
        rw [Lagrange.interpolate_apply, Polynomial.eval_finset_sum]
        apply Finset.sum_congr rfl
        intro i _
        rw [Polynomial.eval_mul, Polynomial.eval_C]
    _ = pol.eval 0 := by
        conv_rhs => rw [hkey]
    _ = mod_evaluate_polynomial c 0 := heval 0

/-! ### Reading entries of mapped lists -/

theorem getD_map_eq {β γ : Type _} (l : List β) (f : β → γ) (j : ℕ)
    (hj : j < l.length) (d : β) (e : γ) : (l.map f).getD j e = f (l.getD j d) := by
  rw [List.getD_eq_getElem _ _ (by simpa using hj), List.getElem_map,
    List.getD_eq_getElem _ _ hj]

/-! ### C2: the Shamir round trip -/

instance fact_prime_5 : Fact (Nat.Prime 5) := ⟨by norm_num⟩

instance fact_prime_3 : Fact (Nat.Prime 3) := ⟨by norm_num⟩

/-- C2: Shamir round-trip correctness, corrected.  Beyond the claim's stated
hypotheses (`share_count ≥ threshold + 1`, at least `threshold + 1` distinct
in-range indices with the matching share values), correctness additionally
requires the mapped evaluation points `index + 1` to be pairwise distinct *as
field elements* — over `Z_p` with `p ≤ share_count` distinct integer indices
can collide modulo `p`, and reconstruction then fails (see the
counterexample). -/
theorem shamir_roundtrip [Field F] (sss : ShamirSecretSharing) (secret : F)
    (coeffs : List F) (hc : coeffs.length = sss.threshold)
    (hn : sss.threshold + 1 ≤ sss.share_count)
    (indices : List ℕ)
    (hlen : sss.threshold + 1 ≤ indices.length)
    (hidx : ∀ i ∈ indices, i < sss.share_count)
    (hinj : (indices.map (fun i => (Nat.cast i + 1 : F))).Nodup) :
    shamirReconstruct sss indices
      (indices.map (fun i => (shamirShare sss secret coeffs).getD i 0)) =
      secret := by
  have hshow : shamirReconstruct sss indices
      (indices.map (fun i => (shamirShare sss secret coeffs).getD i 0)) =
      lagrange_interpolation_at_zero (indices.map (fun i => (Nat.cast i + 1 : F)))
        (indices.map (fun i => (shamirShare sss secret coeffs).getD i 0)) := rfl
  rw [hshow]
  have hvlen : (indices.map
      (fun i => (shamirShare sss secret coeffs).getD i 0)).length =
      indices.length := List.length_map _ _
  have hplen : (indices.map (fun i => (Nat.cast i + 1 : F))).length = indices.length :=
    List.length_map _ _
  have hrec := lagrange_interpolation_recovers
    (indices.map (fun i => (Nat.cast i + 1 : F)))
    (indices.map (fun i => (shamirShare sss secret coeffs).getD i 0))
    ([secret] ++ coeffs)
    (by rw [hvlen, hplen])
    (by
      rw [hvlen]
      simp only [List.length_append, List.length_cons, List.length_nil]
      omega)
    (by
      intro j hj
      rw [hvlen] at hj
      rw [getD_map_eq indices _ j hj 0, getD_map_eq indices _ j hj 0]
      have hmem : indices.getD j 0 ∈ indices := by
        rw [List.getD_eq_getElem _ _ hj]
        exact List.getElem_mem _
      have hid : indices.getD j 0 < sss.share_count := hidx _ hmem
      have hshare : shamirShare sss secret coeffs =
          (List.range' 1 sss.share_count).map
            (fun point => mod_evaluate_polynomial ([secret] ++ coeffs)
              ((point : ℕ) : F)) := rfl
      rw [hshare, getD_map_eq (List.range' 1 sss.share_count) _
        (indices.getD j 0) (by rw [List.length_range']; exact hid) 0]
      congr 1
      rw [List.getD_eq_getElem _ _
        (by rw [List.length_range']; exact hid), List.getElem_range'_1]
      push_cast
      ring)
    (by
      intro a b ha hb hab
      rw [hvlen] at ha hb
      have ha' : a < (indices.map (fun i => (Nat.cast i + 1 : F))).length := by
        rw [hplen]; exact ha
      have hb' : b < (indices.map (fun i => (Nat.cast i + 1 : F))).length := by
        rw [hplen]; exact hb
      have hndg := List.nodup_iff_injective_get.mp hinj
      have h1 : (indices.map (fun i => (Nat.cast i + 1 : F))).getD a 0 =
          (indices.map (fun i => (Nat.cast i + 1 : F))).get ⟨a, ha'⟩ := by
        rw [List.getD_eq_getElem _ _ ha', List.get_eq_getElem]
      have h2 : (indices.map (fun i => (Nat.cast i + 1 : F))).getD b 0 =
          (indices.map (fun i => (Nat.cast i + 1 : F))).get ⟨b, hb'⟩ := by
        rw [List.getD_eq_getElem _ _ hb', List.get_eq_getElem]
      have := hndg (show (indices.map (fun i => (Nat.cast i + 1 : F))).get ⟨a, ha'⟩ =
          (indices.map (fun i => (Nat.cast i + 1 : F))).get ⟨b, hb'⟩ from by
        rw [← h1, ← h2, hab])
      exact congrArg Fin.val this)
  rw [hrec, show ([secret] ++ coeffs : List F) = secret :: coeffs from rfl,
    mod_evaluate_polynomial_cons, mul_zero, zero_add]

theorem shamir_roundtrip_witness :
    shamirReconstruct (⟨1, 3⟩ : ShamirSecretSharing) [0, 2]
      ([0, 2].map (fun i =>
        (shamirShare (⟨1, 3⟩ : ShamirSecretSharing) (3 : ZMod 5) [2]).getD i 0)) =
      3 :=
  shamir_roundtrip (⟨1, 3⟩ : ShamirSecretSharing) (3 : ZMod 5) [2] rfl
    (by norm_num) [0, 2] (by norm_num) (by decide) (by decide)

theorem zmod3_inv (x : ZMod 3) : x⁻¹ = x := by
  fin_cases x
  · exact inv_zero
  · exact inv_one
  · exact inv_eq_of_mul_eq_one_right (by decide)

/-- Counterexample to the claim as stated: over `Z_3` with threshold 2 and
4 shares, the distinct indices `0, 1, 3` are all below the share count and
`3 ≥ threshold + 1` shares are provided, yet reconstruction of a sharing of
the secret `0` (with random coefficients `0, 1`) returns `1`: the evaluation
points `1, 2, 4` collide modulo 3. -/
theorem shamir_roundtrip_cex :
    shamirReconstruct (⟨2, 4⟩ : ShamirSecretSharing) [0, 1, 3]
      ([0, 1, 3].map (fun i =>
        (shamirShare (⟨2, 4⟩ : ShamirSecretSharing) (0 : ZMod 3) [0, 1]).getD i 0))
      = 1 := by
  simp only [shamirReconstruct, shamirShare, shamirEvaluatePolynomial,
    lagrange_interpolation_at_zero, lagrangeOuterStep, lagrangeInnerStep,
    mod_evaluate_polynomial, zmod3_inv, List.range_succ, List.range_zero,
    List.length_map, List.length_cons, List.length_nil, List.map_cons,
    List.map_nil, List.foldl_cons, List.foldl_nil, List.foldl_append]
  decide

/-! ### Divided differences and the Newton form (proof infrastructure) -/

/-- Divided differences over the window `[a, a + d]` of the value function
`v` on the nodes `x`: `divD x v d a` is the order-`d` divided difference
starting at `a`, computed with the same `* (x (a+d+1) - x a)⁻¹` step as the
source's `compute_newton_coefficients`. -/
def divD [Field F] (x v : ℕ → F) : ℕ → ℕ → F
  | 0, a => v a
  | d + 1, a => (divD x v d (a + 1) - divD x v d a) * (x (a + d + 1) - x a)⁻¹

/-- The Newton-form partial sum on the window `[a, a + d]`, evaluated at
`X`. -/
def newtonSum [Field F] (x v : ℕ → F) (a d : ℕ) (X : F) : F :=
  ∑ i ∈ Finset.range (d + 1),
    divD x v i a * ∏ j ∈ Finset.range i, (X - x (a + j))

theorem newtonSum_zero [Field F] (x v : ℕ → F) (a : ℕ) (X : F) :
    newtonSum x v a 0 X = v a := by
  simp [newtonSum, divD]

theorem newtonSum_succ [Field F] (x v : ℕ → F) (a d : ℕ) (X : F) :
    newtonSum x v a (d + 1) X = newtonSum x v a d X +
      divD x v (d + 1) a * ∏ j ∈ Finset.range (d + 1), (X - x (a + j)) := by
  rw [newtonSum, Finset.sum_range_succ, newtonSum]

theorem divD_succ_mul [Field F] (x v : ℕ → F) (d a : ℕ)
    (hne : x (a + d + 1) ≠ x a) :
    divD x v (d + 1) a * (x (a + d + 1) - x a) =
      divD x v d (a + 1) - divD x v d a := by
  show (divD x v d (a + 1) - divD x v d a) * (x (a + d + 1) - x a)⁻¹ *
      (x (a + d + 1) - x a) = _
  rw [mul_assoc, inv_mul_cancel₀ (sub_ne_zero_of_ne hne), mul_one]

/-- The window-shift identity for Newton partial sums: shifting the window
one step right changes the sum by the difference of the two top divided
differences times the shifted basis product. -/
theorem newtonSum_shift [Field F] (x v : ℕ → F) :
    ∀ d a X, (∀ e c, c + e + 1 ≤ a + d + 1 → a ≤ c → x (c + e + 1) ≠ x c) →
    newtonSum x v (a + 1) d X - newtonSum x v a d X =
      (divD x v d (a + 1) - divD x v d a) *
        ∏ j ∈ Finset.range d, (X - x (a + 1 + j)) := by
  intro d
  induction d with
  | zero =>
    intro a X _
    simp [newtonSum_zero, divD]
  | succ d ih =>
    intro a X hx
    have hih := ih a X (fun e c he hc => hx e c (by omega) hc)
    rw [newtonSum_succ, newtonSum_succ]
    have hrecA : divD x v (d + 1) a * (x (a + d + 1) - x a) =
        divD x v d (a + 1) - divD x v d a :=
      divD_succ_mul x v d a (hx d a (by omega) (by omega))
    have hrecB : divD x v (d + 1) (a + 1) * (x (a + 1 + d + 1) - x (a + 1)) =
        divD x v d (a + 1 + 1) - divD x v d (a + 1) :=
      divD_succ_mul x v d (a + 1) (hx d (a + 1) (by omega) (by omega))
    have hprodA : ∏ j ∈ Finset.range (d + 1), (X - x (a + j)) =
        (X - x a) * ∏ j ∈ Finset.range d, (X - x (a + 1 + j)) := by
      rw [Finset.prod_range_succ']
      simp only [Nat.add_zero]
      rw [mul_comm]
      congr 1
      apply Finset.prod_congr rfl
      intro j _
      congr 2
      omega
    have hprodB : ∏ j ∈ Finset.range (d + 1), (X - x (a + 1 + j)) =
        (∏ j ∈ Finset.range d, (X - x (a + 1 + j))) * (X - x (a + 1 + d)) := by
      rw [Finset.prod_range_succ]
    -- abbreviate
    set P := ∏ j ∈ Finset.range d, (X - x (a + 1 + j)) with hP
    have key : newtonSum x v (a + 1) d X - newtonSum x v a d X +
        (divD x v (d + 1) (a + 1) * ((X - x (a + 1 + d)) * P) -
          divD x v (d + 1) a * ((X - x a) * P)) =
        (divD x v (d + 1) (a + 1) - divD x v (d + 1) a) *
          ((X - x (a + 1 + d)) * P) := by
      rw [hih]
      have hsub : divD x v d (a + 1) - divD x v d a =
          divD x v (d + 1) a * (x (a + d + 1) - x a) := hrecA.symm
      rw [hsub]
      have hXa : x (a + 1 + d) = x (a + d + 1) := by
        congr 1
        omega
      rw [hXa]
      ring
    calc newtonSum x v (a + 1) d X +
          divD x v (d + 1) (a + 1) * ∏ j ∈ Finset.range (d + 1), (X - x (a + 1 + j)) -
          (newtonSum x v a d X +
            divD x v (d + 1) a * ∏ j ∈ Finset.range (d + 1), (X - x (a + j)))
        = newtonSum x v (a + 1) d X - newtonSum x v a d X +
            (divD x v (d + 1) (a + 1) * ((X - x (a + 1 + d)) * P) -
              divD x v (d + 1) a * ((X - x a) * P)) := by
          rw [hprodA, hprodB]
          ring
      _ = (divD x v (d + 1) (a + 1) - divD x v (d + 1) a) *
            ((X - x (a + 1 + d)) * P) := key
      _ = (divD x v (d + 1) (a + 1) - divD x v (d + 1) a) *
            ∏ j ∈ Finset.range (d + 1), (X - x (a + 1 + j)) := by
          rw [hprodB]
          ring

/-- The Newton partial sum on `[a, a + d]` interpolates `v` at every node of
the window (nodes pairwise distinct on the window). -/
theorem newtonSum_interpolates [Field F] (x v : ℕ → F) :
    ∀ d a r, r ≤ d →
    (∀ e c, c + e + 1 ≤ a + d → a ≤ c → x (c + e + 1) ≠ x c) →
    newtonSum x v a d (x (a + r)) = v (a + r) := by
  intro d
  induction d with
  | zero =>
    intro a r hr _
    have hr0 : r = 0 := by omega
    subst hr0
    simp [newtonSum_zero]
  | succ d ih =>
    intro a r hr hx
    by_cases hrd : r ≤ d
    · -- the node lies in the smaller window [a, a+d]: the top term vanishes
      rw [newtonSum_succ]
      have hzero : ∏ j ∈ Finset.range (d + 1), (x (a + r) - x (a + j)) = 0 := by
        apply Finset.prod_eq_zero (Finset.mem_range.mpr (by omega : r < d + 1))
        rw [sub_self]
      rw [hzero, mul_zero, add_zero]
      exact ih a r hrd (fun e c he hc => hx e c (by omega) hc)
    · -- the node is the top of the window, r = d + 1
      have hrd1 : r = d + 1 := by omega
      subst hrd1
      -- sum over [a, a+d+1] = sum over [a+1, a+d+1] adjusted by the shift identity
      have hshift := newtonSum_shift x v d a (x (a + (d + 1)))
        (fun e c he hc => hx e c (by omega) hc)
      have hih := ih (a + 1) d (le_refl d)
        (fun e c he hc => hx e c (by omega) (by omega))
      have hXa : a + 1 + d = a + (d + 1) := by omega
      rw [hXa] at hih
      rw [newtonSum_succ]
      have hrec : divD x v (d + 1) a * (x (a + d + 1) - x a) =
          divD x v d (a + 1) - divD x v d a :=
        divD_succ_mul x v d a (hx d a (by omega) (by omega))
      have hprodA : ∏ j ∈ Finset.range (d + 1), (x (a + (d + 1)) - x (a + j)) =
          (x (a + (d + 1)) - x a) *
            ∏ j ∈ Finset.range d, (x (a + (d + 1)) - x (a + 1 + j)) := by
        rw [Finset.prod_range_succ']
        simp only [Nat.add_zero]
        rw [mul_comm]
        congr 1
        apply Finset.prod_congr rfl
        intro j _
        congr 2
        omega
      have han : a + d + 1 = a + (d + 1) := by omega
      rw [han] at hrec
      -- newtonSum a d (x top) = newtonSum (a+1) d (x top) - shift term
      have hA : newtonSum x v a d (x (a + (d + 1))) =
          v (a + (d + 1)) - (divD x v d (a + 1) - divD x v d a) *
            ∏ j ∈ Finset.range d, (x (a + (d + 1)) - x (a + 1 + j)) := by
        have hsh := hshift
        rw [hih] at hsh
        linear_combination -hsh
      rw [hA, hprodA, ← hrec]
      ring

/-! ### The divided-difference table of `compute_newton_coefficients` -/

/-- The value of `store[i]` after `j` levels of the outer loop of
`compute_newton_coefficients`. -/
def newtonTableEntry [Field F] (points values : List F) (j i : ℕ) : ℕ × ℕ × F :=
  (i - min i j, i,
    divD (fun t => points.getD t 0) (fun t => values.getD t 0)
      (min i j) (i - min i j))

theorem length_foldl_newtonStep [Field F] (points : List F) :
    ∀ (L : List ℕ) (st : List (ℕ × ℕ × F)),
      (L.foldl (newtonStep points) st).length = st.length := by
  intro L
  induction L with
  | nil => intro st; rfl
  | cons a L ih =>
    intro st
    rw [List.foldl_cons, ih]
    show (st.set a _).length = st.length
    rw [List.length_set]

theorem newtonInner_fold [Field F] (points values : List F) (j : ℕ)
    (hj : 1 ≤ j) :
    ∀ (c : ℕ) (st : List (ℕ × ℕ × F)), st.length = values.length →
    j + c ≤ values.length →
    (∀ i, i < values.length → st.getD i (0, 0, 0) =
      if j + c ≤ i then newtonTableEntry points values j i
      else newtonTableEntry points values (j - 1) i) →
    ∀ i, i < values.length →
      (((List.range' j c).reverse).foldl (newtonStep points) st).getD i (0, 0, 0) =
        if j ≤ i then newtonTableEntry points values j i
        else newtonTableEntry points values (j - 1) i := by
  intro c
  induction c with
  | zero =>
    intro st hlen _ hinv i hi
    simpa using hinv i hi
  | succ c ih =>
    intro st hlen hc hinv i hi
    rw [List.range'_1_concat, List.reverse_append, List.reverse_singleton,
      List.singleton_append, List.foldl_cons]
    -- the first processed index is j + c
    have hjc : j + c < values.length := by omega
    have hjc1 : j + c - 1 < values.length := by omega
    have hlow : st.getD (j + c - 1) (0, 0, 0) =
        newtonTableEntry points values (j - 1) (j + c - 1) := by
      rw [hinv _ hjc1, if_neg (by omega)]
    have hupp : st.getD (j + c) (0, 0, 0) =
        newtonTableEntry points values (j - 1) (j + c) := by
      rw [hinv _ hjc, if_neg (by omega)]
    have hstep : newtonStep points st (j + c) =
        st.set (j + c)
          ((st.getD (j + c - 1) (0, 0, 0)).1,
           (st.getD (j + c) (0, 0, 0)).2.1,
           ((st.getD (j + c) (0, 0, 0)).2.2 -
             (st.getD (j + c - 1) (0, 0, 0)).2.2) *
            (points.getD ((st.getD (j + c) (0, 0, 0)).2.1) 0 -
             points.getD ((st.getD (j + c - 1) (0, 0, 0)).1) 0)⁻¹) := rfl
    have hlowval : newtonTableEntry points values (j - 1) (j + c - 1) =
        (c, j + c - 1,
          divD (fun t => points.getD t 0) (fun t => values.getD t 0)
            (j - 1) c) := by
      unfold newtonTableEntry
      have h1 : min (j + c - 1) (j - 1) = j - 1 := by omega
      rw [h1]
      have h2 : j + c - 1 - (j - 1) = c := by omega
      rw [h2]
    have huppval : newtonTableEntry points values (j - 1) (j + c) =
        (c + 1, j + c,
          divD (fun t => points.getD t 0) (fun t => values.getD t 0)
            (j - 1) (c + 1)) := by
      unfold newtonTableEntry
      have h1 : min (j + c) (j - 1) = j - 1 := by omega
      rw [h1]
      have h2 : j + c - (j - 1) = c + 1 := by omega
      rw [h2]
    have htgt : newtonTableEntry points values j (j + c) =
        (c, j + c,
          divD (fun t => points.getD t 0) (fun t => values.getD t 0) j c) := by
      unfold newtonTableEntry
      rw [min_eq_right (Nat.le_add_right j c),
        show j + c - j = c from by omega]
    have hnewval : newtonStep points st (j + c) =
        st.set (j + c) (newtonTableEntry points values j (j + c)) := by
      rw [hstep, hlow, hupp, hlowval, huppval, htgt]
      congr 1
      show ((c : ℕ), (j + c : ℕ),
          (divD (fun t => points.getD t 0) (fun t => values.getD t 0)
              (j - 1) (c + 1) -
            divD (fun t => points.getD t 0) (fun t => values.getD t 0)
              (j - 1) c) *
            (points.getD (j + c) 0 - points.getD c 0)⁻¹) =
        ((c : ℕ), (j + c : ℕ),
          divD (fun t => points.getD t 0) (fun t => values.getD t 0) j c)
      congr 1
      congr 1
      conv_rhs => rw [show j = j - 1 + 1 from by omega]
      show _ = (divD (fun t => points.getD t 0) (fun t => values.getD t 0)
            (j - 1) (c + 1) -
          divD (fun t => points.getD t 0) (fun t => values.getD t 0)
            (j - 1) c) *
        (points.getD (c + (j - 1) + 1) 0 - points.getD c 0)⁻¹
      rw [show c + (j - 1) + 1 = j + c from by omega]
    have hst' : ∀ i, i < values.length →
        (newtonStep points st (j + c)).getD i (0, 0, 0) =
          if j + c ≤ i then newtonTableEntry points values j i
          else newtonTableEntry points values (j - 1) i := by
      intro i hi'
      rw [hnewval, List.getD_eq_getElem?_getD]
      by_cases hieq : i = j + c
      · subst hieq
        rw [List.getElem?_set_eq_of_lt _ (by omega : j + c < st.length)]
        rw [if_pos (by omega)]
        rfl
      · rw [List.getElem?_set_ne (fun h => hieq h.symm),
          ← List.getD_eq_getElem?_getD, hinv i hi']
        by_cases hge : j + c ≤ i
        · rw [if_pos (by omega), if_pos hge]
        · rw [if_neg (by omega), if_neg hge]
    have hlen' : (newtonStep points st (j + c)).length = values.length := by
      rw [hnewval, List.length_set, hlen]
    exact ih (newtonStep points st (j + c)) hlen' (by omega) hst' i hi

theorem newtonTableEntry_of_le [Field F] (points values : List F)
    {j j' i : ℕ} (h : i ≤ j) (h' : i ≤ j') :
    newtonTableEntry points values j i = newtonTableEntry points values j' i := by
  unfold newtonTableEntry
  rw [min_eq_left h, min_eq_left h']

theorem newtonOuter_fold [Field F] (points values : List F) :
    ∀ J, J ≤ values.length - 1 →
    ((List.range' 1 J).foldl (newtonOuterStep points)
        (values.enum.map (fun p => (p.1, p.1, p.2)))).length = values.length ∧
    ∀ i, i < values.length →
      ((List.range' 1 J).foldl (newtonOuterStep points)
          (values.enum.map (fun p => (p.1, p.1, p.2)))).getD i (0, 0, 0) =
        newtonTableEntry points values J i := by
  intro J
  induction J with
  | zero =>
    intro _
    constructor
    · rw [List.range'_zero, List.foldl_nil, List.length_map, List.enum_length]
    · intro i hi
      rw [List.range'_zero, List.foldl_nil]
      have hi' : i < (values.enum.map
          (fun p : ℕ × F => ((p.1 : ℕ), (p.1 : ℕ), p.2))).length := by
        rw [List.length_map, List.enum_length]; exact hi
      rw [List.getD_eq_getElem _ _ hi', List.getElem_map, List.getElem_enum]
      unfold newtonTableEntry
      rw [min_eq_right (Nat.zero_le i), Nat.sub_zero]
      show ((i : ℕ), (i : ℕ), values[i]) = (i, i, divD _ _ 0 i)
      rw [show divD (fun t => points.getD t 0)
          (fun t => values.getD t 0) 0 i = values.getD i 0 from rfl,
        List.getD_eq_getElem _ _ hi]
  | succ J ih =>
    intro hJ
    obtain ⟨ihlen, ihinv⟩ := ih (by omega)
    rw [List.range'_1_concat, List.foldl_append, List.foldl_cons, List.foldl_nil]
    set prev := (List.range' 1 J).foldl (newtonOuterStep points)
      (values.enum.map (fun p => (p.1, p.1, p.2))) with hprev
    have hstep : newtonOuterStep points prev (1 + J) =
        ((List.range' (1 + J) (prev.length - (1 + J))).reverse).foldl
          (newtonStep points) prev := rfl
    have hlen2 : (newtonOuterStep points prev (1 + J)).length =
        values.length := by
      rw [hstep, length_foldl_newtonStep, ihlen]
    constructor
    · exact hlen2
    · intro i hi
      rw [hstep, ihlen]
      have hinner := newtonInner_fold points values (1 + J) (by omega)
        (values.length - (1 + J)) prev ihlen (by omega)
        (fun i' hi' => by
          rw [ihinv i' hi', if_neg (by omega)]
          congr 1
          omega)
        i hi
      rw [hinner]
      by_cases hge : 1 + J ≤ i
      · rw [if_pos hge]
        congr 1
        omega
      · rw [if_neg hge]
        exact newtonTableEntry_of_le points values
          (by omega) (by omega)

theorem compute_newton_coefficients_eq [Field F] (points values : List F) :
    compute_newton_coefficients points values =
      ((List.range' 1 (values.length - 1)).foldl (newtonOuterStep points)
        (values.enum.map (fun p => (p.1, p.1, p.2)))).map
          (fun t => t.2.2) := by
  have h0 : (values.enum.map
      (fun p : ℕ × F => ((p.1 : ℕ), (p.1 : ℕ), p.2))).length = values.length := by
    rw [List.length_map, List.enum_length]
  simp only [compute_newton_coefficients]
  rw [h0]

theorem length_compute_newton_coefficients [Field F] (points values : List F) :
    (compute_newton_coefficients points values).length = values.length := by
  rw [compute_newton_coefficients_eq, List.length_map]
  exact (newtonOuter_fold points values (values.length - 1) (le_refl _)).1

theorem compute_newton_coefficients_getD [Field F] (points values : List F)
    (i : ℕ) (hi : i < values.length) :
    (compute_newton_coefficients points values).getD i 0 =
      divD (fun t => points.getD t 0) (fun t => values.getD t 0) i 0 := by
  obtain ⟨hlen, hinv⟩ := newtonOuter_fold points values
    (values.length - 1) (le_refl _)
  rw [compute_newton_coefficients_eq]
  rw [getD_map_eq _ _ i (by rw [hlen]; exact hi) (0, 0, 0) 0]
  rw [hinv i hi]
  unfold newtonTableEntry
  rw [min_eq_left (by omega), Nat.sub_self]

/-! ### Closed form of `newton_evaluate` -/

theorem newtonPoints_fold [Field F] (point : F) (pts : List F) :
    ∀ c, (List.range c).foldl (newtonPointsStep point pts) [1] =
      (List.range (c + 1)).map
        (fun i => ∏ j ∈ Finset.range i, (point - pts.getD j 0)) := by
  intro c
  induction c with
  | zero =>
    rw [List.range_zero, List.foldl_nil,
      show List.range 1 = [0] from by rw [List.range_succ, List.range_zero,
        List.nil_append],
      List.map_cons, List.map_nil, Finset.prod_range_zero]
  | succ c ih =>
    rw [List.range_succ, List.foldl_append, List.foldl_cons, List.foldl_nil, ih]
    have hgetD : ((List.range (c + 1)).map
        (fun i => ∏ j ∈ Finset.range i, (point - pts.getD j 0))).getD c 0 =
        ∏ j ∈ Finset.range c, (point - pts.getD j 0) := by
      rw [getD_map_eq _ _ c (by rw [List.length_range]; omega) 0 0,
        List.getD_eq_getElem _ _ (by rw [List.length_range]; omega),
        List.getElem_range]
    show (List.range (c + 1)).map _ ++
        [((List.range (c + 1)).map _).getD c 0 * (point - pts.getD c 0)] = _
    rw [hgetD,
      show List.range (c + 1 + 1) = List.range (c + 1) ++ [c + 1] from
        by rw [List.range_succ],
      List.map_append]
    congr 1
    rw [List.map_cons, List.map_nil, Finset.prod_range_succ]

theorem foldl_add_getD_sum [Field F] :
    ∀ (l : List F) (z : F), l.foldl (fun a b => a + b) z =
      z + ∑ i ∈ Finset.range l.length, l.getD i 0 := by
  intro l
  induction l with
  | nil => intro z; simp
  | cons h t ih =>
    intro z
    rw [List.foldl_cons, ih, List.length_cons, Finset.sum_range_succ']
    simp only [List.getD_cons_succ, List.getD_cons_zero]
    ring

theorem newton_evaluate_eq_newtonSum [Field F] (pts vals : List F)
    (hlen : pts.length = vals.length) (hL : 1 ≤ vals.length) (X : F) :
    newton_evaluate (newton_interpolation_general pts vals) X =
      newtonSum (fun t => pts.getD t 0) (fun t => vals.getD t 0) 0
        (vals.length - 1) X := by
  have hne : newton_evaluate (newton_interpolation_general pts vals) X =
      (((compute_newton_coefficients pts vals).zip
        ((List.range (pts.length - 1)).foldl (newtonPointsStep X pts) [1])).map
          (fun p => p.1 * p.2)).foldl (fun a b => a + b) 0 := rfl
  rw [hne, newtonPoints_fold, foldl_add_getD_sum, zero_add]
  have hclen : (compute_newton_coefficients pts vals).length = vals.length :=
    length_compute_newton_coefficients pts vals
  have hplen : ((List.range (pts.length - 1 + 1)).map
      (fun i => ∏ j ∈ Finset.range i, (X - pts.getD j 0))).length =
      vals.length := by
    rw [List.length_map, List.length_range]
    omega
  have hziplen : ((compute_newton_coefficients pts vals).zip
      ((List.range (pts.length - 1 + 1)).map
        (fun i => ∏ j ∈ Finset.range i, (X - pts.getD j 0)))).length =
      vals.length := by
    rw [List.length_zip, hclen, hplen]
    omega
  rw [List.length_map, hziplen]
  unfold newtonSum
  rw [show vals.length - 1 + 1 = vals.length from by omega]
  apply Finset.sum_congr rfl
  intro i hi
  have hiL : i < vals.length := Finset.mem_range.mp hi
  rw [getD_map_eq _ _ i (by rw [hziplen]; exact hiL) (0, 0) 0]
  have hzip : ((compute_newton_coefficients pts vals).zip
      ((List.range (pts.length - 1 + 1)).map
        (fun i => ∏ j ∈ Finset.range i, (X - pts.getD j 0)))).getD i (0, 0) =
      ((compute_newton_coefficients pts vals).getD i 0,
       (((List.range (pts.length - 1 + 1)).map
          (fun i => ∏ j ∈ Finset.range i, (X - pts.getD j 0)))).getD i 0) := by
    rw [List.getD_eq_getElem _ _ (by rw [hziplen]; exact hiL),
      List.getElem_zip,
      List.getD_eq_getElem _ _ (by rw [hclen]; exact hiL),
      List.getD_eq_getElem _ _ (by rw [hplen]; exact hiL)]
  rw [hzip]
  show (compute_newton_coefficients pts vals).getD i 0 *
      (((List.range (pts.length - 1 + 1)).map
        (fun i => ∏ j ∈ Finset.range i, (X - pts.getD j 0)))).getD i 0 = _
  rw [compute_newton_coefficients_getD pts vals i hiL,
    getD_map_eq _ _ i (by rw [List.length_range]; omega) 0 0,
    List.getD_eq_getElem _ _ (by rw [List.length_range]; omega),
    List.getElem_range]
  congr 1
  apply Finset.prod_congr rfl
  intro j _
  rw [Nat.zero_add]

/-! ### Newton evaluation of interpolated polynomial data -/

theorem degree_newton_basis_le [Field F] (x : ℕ → F) :
    ∀ i : ℕ, (∏ j ∈ Finset.range i,
      (Polynomial.X - Polynomial.C (x j))).degree ≤ (i : WithBot ℕ) := by
  intro i
  induction i with
  | zero => simp
  | succ i ih =>
    rw [Finset.prod_range_succ]
    apply le_trans (Polynomial.degree_mul_le _ _)
    have h2 : (Polynomial.X - Polynomial.C (x i)).degree ≤ 1 :=
      Polynomial.degree_X_sub_C_le _
    apply le_trans (add_le_add ih h2)
    rw [show ((i : WithBot ℕ) + 1) = ((i + 1 : ℕ) : WithBot ℕ) from by
      push_cast; rfl]

/-- If the `(points, values)` data lies on the polynomial with (low-to-high)
coefficient list `c` of degree below the number of nodes, then the Newton
interpolation of the source, evaluated anywhere, returns that polynomial's
value: the slow reconstruction path computes polynomial evaluations. -/
theorem newton_evaluate_poly [Field F] (pts vals c : List F)
    (hlen : pts.length = vals.length)
    (hL : 1 ≤ vals.length)
    (hdeg : c.length ≤ vals.length)
    (hx : ∀ j, j < vals.length →
      vals.getD j 0 =
        ∑ t ∈ Finset.range c.length, c.getD t 0 * (pts.getD j 0) ^ t)
    (hinj : ∀ a b, a < vals.length → b < vals.length →
      pts.getD a 0 = pts.getD b 0 → a = b) (X : F) :
    newton_evaluate (newton_interpolation_general pts vals) X =
      ∑ t ∈ Finset.range c.length, c.getD t 0 * X ^ t := by
  classical
  set L := vals.length with hLdef
  set x : ℕ → F := fun t => pts.getD t 0 with hxdef
  set v : ℕ → F := fun t => vals.getD t 0 with hvdef
  have hdist : ∀ e a, a + e + 1 ≤ 0 + (L - 1) → 0 ≤ a →
      x (a + e + 1) ≠ x a := by
    intro e a he _ hcon
    have := hinj (a + e + 1) a (by omega) (by omega) hcon
    omega
  have hnodes : ∀ r, r < L → newtonSum x v 0 (L - 1) (x r) = v r := by
    intro r hr
    have h := newtonSum_interpolates x v (L - 1) 0 r (by omega) hdist
    rw [Nat.zero_add] at h
    exact h
  -- polynomial forms
  set P : Polynomial F := ∑ i ∈ Finset.range L,
    Polynomial.C (divD x v i 0) *
      ∏ j ∈ Finset.range i, (Polynomial.X - Polynomial.C (x j)) with hPdef
  set G : Polynomial F := ∑ t ∈ Finset.range c.length,
    Polynomial.C (c.getD t 0) * Polynomial.X ^ t with hGdef
  have hevalP : ∀ y : F, P.eval y = newtonSum x v 0 (L - 1) y := by
    intro y
    rw [hPdef, Polynomial.eval_finset_sum]
    unfold newtonSum
    rw [show L - 1 + 1 = L from by omega]
    apply Finset.sum_congr rfl
    intro i _
    rw [Polynomial.eval_mul, Polynomial.eval_C, Polynomial.eval_prod]
    congr 1
    apply Finset.prod_congr rfl
    intro j _
    rw [Polynomial.eval_sub, Polynomial.eval_X, Polynomial.eval_C,
      Nat.zero_add]
  have hevalG : ∀ y : F, G.eval y =
      ∑ t ∈ Finset.range c.length, c.getD t 0 * y ^ t := by
    intro y
    rw [hGdef, Polynomial.eval_finset_sum]
    apply Finset.sum_congr rfl
    intro t _
    rw [Polynomial.eval_mul, Polynomial.eval_C, Polynomial.eval_pow,
      Polynomial.eval_X]
  have hdegP : P.degree < (Finset.range L).card := by
    rw [Finset.card_range, hPdef]
    apply lt_of_le_of_lt (Polynomial.degree_sum_le _ _)
    rw [Finset.sup_lt_iff (by exact_mod_cast WithBot.bot_lt_coe L)]
    intro i hi
    apply lt_of_le_of_lt (Polynomial.degree_mul_le _ _)
    have h1 : (Polynomial.C (divD x v i 0)).degree ≤ 0 := Polynomial.degree_C_le
    have h2 := degree_newton_basis_le x i
    apply lt_of_le_of_lt (add_le_add h1 h2)
    rw [zero_add]
    exact_mod_cast Finset.mem_range.mp hi
  have hdegG : G.degree < (Finset.range L).card := by
    rw [Finset.card_range, hGdef]
    apply lt_of_le_of_lt (Polynomial.degree_sum_le _ _)
    rw [Finset.sup_lt_iff (by exact_mod_cast WithBot.bot_lt_coe L)]
    intro m hm
    apply lt_of_le_of_lt (Polynomial.degree_C_mul_X_pow_le _ _)
    have hmL : m < L := by
      have := Finset.mem_range.mp hm
      omega
    exact_mod_cast hmL
  have hInj : Set.InjOn x (Finset.range L) := by
    intro a ha b hb hab
    exact hinj a b (by simpa using ha) (by simpa using hb) hab
  have hkeyP := Lagrange.eq_interpolate (v := x) (s := Finset.range L) hInj hdegP
  have hkeyG := Lagrange.eq_interpolate (v := x) (s := Finset.range L) hInj hdegG
  have hPG : P = G := by
    rw [hkeyP, hkeyG]
    rw [Lagrange.interpolate_apply, Lagrange.interpolate_apply]
    apply Finset.sum_congr rfl
    intro i hi
    have hiL : i < L := Finset.mem_range.mp hi
    congr 1
    rw [hevalP, hevalG, hnodes i hiL]
    exact congrArg Polynomial.C (hx i hiL)
  have hfin : newton_evaluate (newton_interpolation_general pts vals) X =
      P.eval X := by
    rw [newton_evaluate_eq_newtonSum pts vals hlen hL X, hevalP]
  rw [hfin, hPG, hevalG]

/-! ### Packed reconstruction: the common core -/

theorem list_ext_getD {α : Type _} (A B : List α) (d : α)
    (hlen : A.length = B.length)
    (h : ∀ j, j < A.length → A.getD j d = B.getD j d) : A = B := by
  apply List.ext_getElem hlen
  intro i h1 h2
  have h3 := h i h1
  rw [List.getD_eq_getElem _ _ h1, List.getD_eq_getElem _ _ h2] at h3
  exact h3

theorem getD_append_left {α : Type _} (A B : List α) (d : α) (i : ℕ)
    (hi : i < A.length) : (A ++ B).getD i d = A.getD i d := by
  rw [List.getD_eq_getElem _ _ (by rw [List.length_append]; omega),
    List.getElem_append_left hi, List.getD_eq_getElem _ _ hi]

theorem sum_append_replicate_zero [Field F] (c : List F) (R N : ℕ)
    (hN : c.length + R = N) (f : ℕ → F) :
    ∑ t ∈ Finset.range N, (c ++ List.replicate R (0 : F)).getD t 0 * f t =
      ∑ t ∈ Finset.range c.length, c.getD t 0 * f t := by
  have h1 : ∀ t ∈ Finset.range N, t ∉ Finset.range c.length →
      (c ++ List.replicate R (0 : F)).getD t 0 * f t = 0 := by
    intro t htN hts
    have ht : c.length ≤ t := by
      simp only [Finset.mem_range] at hts
      omega
    have htN' : t < N := Finset.mem_range.mp htN
    have hz : (c ++ List.replicate R (0 : F)).getD t 0 = 0 := by
      rw [List.getD_eq_getElem?_getD, List.getElem?_append_right ht,
        List.getElem?_replicate_of_lt (by omega)]
      rfl
    rw [hz, zero_mul]
  rw [← Finset.sum_subset (Finset.range_subset.mpr (by omega)) h1]
  apply Finset.sum_congr rfl
  intro t ht
  rw [getD_append_left _ _ _ _ (Finset.mem_range.mp ht)]

/-- A strictly increasing list of naturals bounded by its own length is an
initial segment `0, 1, …`. -/
theorem sorted_bounded_eq_range (indices : List ℕ)
    (hs : List.Pairwise (· < ·) indices)
    (hb : ∀ i ∈ indices, i < indices.length) :
    indices = List.range indices.length := by
  have hmono : ∀ i j, i < j → j < indices.length →
      indices.getD i 0 < indices.getD j 0 := by
    intro i j hij hj
    have h := List.pairwise_iff_getElem.mp hs i j (by omega) hj hij
    rw [List.getD_eq_getElem _ _ (by omega : i < indices.length),
      List.getD_eq_getElem _ _ hj]
    exact h
  have hup : ∀ j, j < indices.length → ∀ i, i ≤ j →
      indices.getD i 0 + (j - i) ≤ indices.getD j 0 := by
    intro j
    induction j with
    | zero =>
      intro _ i hi
      have hi0 : i = 0 := by omega
      subst hi0
      simp
    | succ j ihj =>
      intro hj i hi
      by_cases hij : i = j + 1
      · subst hij
        simp
      · have h1 := ihj (by omega) i (by omega)
        have h2 := hmono j (j + 1) (by omega) hj
        omega
  have hbd : ∀ j, j < indices.length → indices.getD j 0 = j := by
    intro j hj
    have h1 := hup j hj 0 (by omega)
    have h2 : indices.getD (indices.length - 1) 0 < indices.length := by
      apply hb
      rw [List.getD_eq_getElem _ _ (by omega)]
      exact List.getElem_mem _
    have h3 := hup (indices.length - 1) (by omega) j (by omega)
    omega
  apply List.ext_getElem (by rw [List.length_range])
  intro i h1 h2
  rw [List.getElem_range]
  have h4 := hbd i h1
  rw [List.getD_eq_getElem _ _ h1] at h4
  exact h4

/-- Core of packed reconstruction, uniform in both paths: if the input
shares are the evaluations of the polynomial with coefficient list `c`
(of length `m = 2^l`, vanishing at the point `1`) at the points
`omega_shares ^ (index + 1)`, then `reconstruct` returns the evaluations at
`omega_secrets ^ e`, `e = 1, …, secret_count`. -/
theorem reconstruct_core [Field F] (pss : PackedSecretSharing F) (l u : ℕ)
    (hm : pss.threshold + pss.secret_count + 1 = 2 ^ l)
    (hn : pss.share_count + 1 = 3 ^ u)
    (hws : IsPrimitiveRoot pss.omega_secrets (2 ^ l))
    (hwh : IsPrimitiveRoot pss.omega_shares (3 ^ u))
    (hnk : pss.threshold + pss.secret_count ≤ pss.share_count)
    (ht : 1 ≤ pss.threshold)
    (c : List F) (hc : c.length = 2 ^ l)
    (hz : ∑ t ∈ Finset.range (2 ^ l), c.getD t 0 = 0)
    (indices : List ℕ)
    (hsorted : List.Pairwise (· < ·) indices)
    (hlen : reconstruct_limit pss ≤ indices.length)
    (hidx : ∀ i ∈ indices, i < pss.share_count)
    (shares : List F) (hslen : shares.length = indices.length)
    (hsval : ∀ j, j < indices.length → shares.getD j 0 =
      ∑ t ∈ Finset.range (2 ^ l),
        c.getD t 0 * pss.omega_shares ^ ((indices.getD j 0 + 1) * t)) :
    reconstruct pss indices shares =
      (List.range' 1 pss.secret_count).map
        (fun e => ∑ t ∈ Finset.range (2 ^ l),
          c.getD t 0 * pss.omega_secrets ^ (e * t)) := by
  have hrl : reconstruct_limit pss = pss.threshold + pss.secret_count := rfl
  by_cases hfull : shares.length = pss.share_count
  · -- FFT fast path
    have hIlen : indices.length = pss.share_count := by omega
    have hIdx : indices = List.range pss.share_count := by
      rw [← hIlen]
      exact sorted_bounded_eq_range indices hsorted (fun i hi => by
        rw [hIlen]
        exact hidx i hi)
    have hidxj : ∀ j, j < pss.share_count → indices.getD j 0 = j := by
      intro j hj
      rw [hIdx, List.getD_eq_getElem _ _ (by rw [List.length_range]; exact hj),
        List.getElem_range]
    set pc : List F :=
      c ++ List.replicate (pss.share_count - reconstruct_limit pss) (0 : F)
      with hpc
    have hpclen : pc.length = 3 ^ u := by
      rw [hpc, List.length_append, List.length_replicate, hc]
      omega
    have hfft3 : ∀ r, r < 3 ^ u → (fft3 pc pss.omega_shares).getD r 0 =
        ∑ t ∈ Finset.range (2 ^ l),
          c.getD t 0 * pss.omega_shares ^ (r * t) := by
      intro r hr
      rw [fft3_dft pc pss.omega_shares u hpclen hwh.pow_eq_one r hr, ← hc]
      exact sum_append_replicate_zero c _ _ (by rw [hc]; omega) _
    have hveq : (0 : F) :: shares = fft3 pc pss.omega_shares := by
      apply list_ext_getD _ _ (0 : F)
      · rw [List.length_cons, length_fft3, hpclen, hfull]
        omega
      · intro j hj
        rw [List.length_cons, hfull] at hj
        cases j with
        | zero =>
          show (0 : F) = _
          rw [hfft3 0 (by omega)]
          have hsimp : ∑ t ∈ Finset.range (2 ^ l),
              c.getD t 0 * pss.omega_shares ^ (0 * t) =
              ∑ t ∈ Finset.range (2 ^ l), c.getD t 0 := by
            apply Finset.sum_congr rfl
            intro t _
            rw [Nat.zero_mul, pow_zero, mul_one]
          rw [hsimp, hz]
        | succ j =>
          show shares.getD j 0 = _
          rw [hfft3 (j + 1) (by omega), hsval j (by omega), hidxj j (by omega)]
    have hbranch : reconstruct pss indices shares =
        ((fft2 ((fft3_inverse ((0 : F) :: shares) pss.omega_shares).take
            (reconstruct_limit pss + 1)) pss.omega_secrets).drop 1).take
          pss.secret_count := by
      simp only [reconstruct, List.singleton_append]
      rw [if_pos hfull]
    rw [hbranch, hveq, fft3_fft3_inverse pc pss.omega_shares u hpclen hwh,
      show reconstruct_limit pss + 1 = c.length from by rw [hc]; omega,
      hpc, List.take_left]
    have hfft2len : (fft2 c pss.omega_secrets).length = 2 ^ l := by
      rw [length_fft2, hc]
    apply list_ext_getD _ _ (0 : F)
    · rw [List.length_take, List.length_drop, hfft2len, List.length_map,
        List.length_range']
      omega
    · intro j hj
      rw [List.length_take, List.length_drop, hfft2len] at hj
      have hjk : j < pss.secret_count := by omega
      have hj1 : 1 + j < 2 ^ l := by omega
      have hfft2val := fft2_dft c pss.omega_secrets l hc hws.pow_eq_one
        (fun hl1 => prim_root_neg_one hws hl1) (1 + j) hj1
      have e1 : (((fft2 c pss.omega_secrets).drop 1).take
          pss.secret_count).getD j 0 =
          (fft2 c pss.omega_secrets).getD (1 + j) 0 := by
        have hb1 : j < (((fft2 c pss.omega_secrets).drop 1).take
            pss.secret_count).length := by
          rw [List.length_take, List.length_drop, hfft2len]
          omega
        have hb2 : 1 + j < (fft2 c pss.omega_secrets).length := by
          rw [hfft2len]
          omega
        rw [List.getD_eq_getElem _ _ hb1, List.getD_eq_getElem _ _ hb2,
          List.getElem_take _, List.getElem_drop _]
      have e2 : ((List.range' 1 pss.secret_count).map
          (fun e => ∑ t ∈ Finset.range (2 ^ l),
            c.getD t 0 * pss.omega_secrets ^ (e * t))).getD j 0 =
          ∑ t ∈ Finset.range (2 ^ l),
            c.getD t 0 * pss.omega_secrets ^ ((1 + j) * t) := by
        rw [getD_map_eq _ _ j (by rw [List.length_range']; exact hjk) 0 0,
          List.getD_eq_getElem _ _ (by rw [List.length_range']; exact hjk),
          List.getElem_range'_1]
      rw [e1, e2, hfft2val]
  · -- Newton interpolation path
    set pts : List F := 1 :: indices.map (fun x => pss.omega_shares ^ (x + 1))
      with hpts
    set vals : List F := (0 : F) :: shares with hvals
    have hptslen : pts.length = indices.length + 1 := by
      rw [hpts, List.length_cons, List.length_map]
    have hvalslen : vals.length = indices.length + 1 := by
      rw [hvals, List.length_cons, hslen]
    have hptsj : ∀ j, j < indices.length →
        pts.getD (j + 1) 0 = pss.omega_shares ^ (indices.getD j 0 + 1) := by
      intro j hj
      show (indices.map (fun x => pss.omega_shares ^ (x + 1))).getD j 0 = _
      rw [getD_map_eq _ _ j hj 0 0]
    have hidxD : ∀ j, j < indices.length →
        indices.getD j 0 < pss.share_count := by
      intro j hj
      apply hidx
      rw [List.getD_eq_getElem _ _ hj]
      exact List.getElem_mem _
    have hIinj : ∀ a b, a < indices.length → b < indices.length →
        indices.getD a 0 = indices.getD b 0 → a = b := by
      intro a b ha hb hab
      by_contra hne
      rcases Nat.lt_or_ge a b with h | h
      · have hlt := List.pairwise_iff_getElem.mp hsorted a b ha hb h
        rw [List.getD_eq_getElem _ _ ha, List.getD_eq_getElem _ _ hb] at hab
        omega
      · have hba : b < a := by omega
        have hlt := List.pairwise_iff_getElem.mp hsorted b a hb ha hba
        rw [List.getD_eq_getElem _ _ ha, List.getD_eq_getElem _ _ hb] at hab
        omega
    have h3u : (0 : ℕ) < 3 ^ u := pow_pos (by norm_num) u
    have hptsinj : ∀ a b, a < vals.length → b < vals.length →
        pts.getD a 0 = pts.getD b 0 → a = b := by
      intro a b ha hb hab
      rw [hvalslen] at ha hb
      cases a with
      | zero =>
        cases b with
        | zero => rfl
        | succ b =>
          exfalso
          rw [show pts.getD 0 0 = 1 from rfl, hptsj b (by omega)] at hab
          have hb3 : indices.getD b 0 + 1 < 3 ^ u := by
            have := hidxD b (by omega)
            omega
          have h0eq := hwh.pow_inj h3u hb3 (by rw [pow_zero]; exact hab)
          omega
      | succ a =>
        cases b with
        | zero =>
          exfalso
          rw [show pts.getD 0 0 = 1 from rfl, hptsj a (by omega)] at hab
          have ha3 : indices.getD a 0 + 1 < 3 ^ u := by
            have := hidxD a (by omega)
            omega
          have h0eq := hwh.pow_inj ha3 h3u (by rw [pow_zero]; exact hab)
          omega
        | succ b =>
          rw [hptsj a (by omega), hptsj b (by omega)] at hab
          have ha3 : indices.getD a 0 + 1 < 3 ^ u := by
            have := hidxD a (by omega)
            omega
          have hb3 : indices.getD b 0 + 1 < 3 ^ u := by
            have := hidxD b (by omega)
            omega
          have heq := hwh.pow_inj ha3 hb3 hab
          have := hIinj a b (by omega) (by omega) (by omega)
          omega
    have hxcond : ∀ j, j < vals.length → vals.getD j 0 =
        ∑ t ∈ Finset.range c.length, c.getD t 0 * (pts.getD j 0) ^ t := by
      intro j hj
      rw [hvalslen] at hj
      cases j with
      | zero =>
        show (0 : F) = _
        rw [show pts.getD 0 0 = 1 from rfl, hc]
        have hsimp : ∑ t ∈ Finset.range (2 ^ l), c.getD t 0 * (1 : F) ^ t =
            ∑ t ∈ Finset.range (2 ^ l), c.getD t 0 := by
          apply Finset.sum_congr rfl
          intro t _
          rw [one_pow, mul_one]
        rw [hsimp, hz]
      | succ j =>
        show shares.getD j 0 = _
        rw [hsval j (by omega), hptsj j (by omega), hc]
        apply Finset.sum_congr rfl
        intro t _
        rw [pow_mul]
    have hnewton : ∀ X : F,
        newton_evaluate (newton_interpolation_general pts vals) X =
          ∑ t ∈ Finset.range c.length, c.getD t 0 * X ^ t :=
      fun X => newton_evaluate_poly pts vals c
        (by rw [hptslen, hvalslen]) (by rw [hvalslen]; omega)
        (by rw [hvalslen, hc]; omega) hxcond hptsinj X
    have hbranch : reconstruct pss indices shares =
        (((List.range' 1 (reconstruct_limit pss - 1)).map
            (fun e => pss.omega_secrets ^ e)).map
          (fun point => newton_evaluate
            (newton_interpolation_general pts vals) point)).take
          pss.secret_count := by
      simp only [reconstruct, List.singleton_append]
      rw [if_neg hfull]
    rw [hbranch]
    apply list_ext_getD _ _ (0 : F)
    · rw [List.length_take, List.length_map, List.length_map,
        List.length_range', List.length_map, List.length_range']
      omega
    · intro j hj
      rw [List.length_take, List.length_map, List.length_map,
        List.length_range'] at hj
      have hjk : j < pss.secret_count := by omega
      have hjrl : j < reconstruct_limit pss - 1 := by omega
      have e1 : ((((List.range' 1 (reconstruct_limit pss - 1)).map
            (fun e => pss.omega_secrets ^ e)).map
          (fun point => newton_evaluate
            (newton_interpolation_general pts vals) point)).take
          pss.secret_count).getD j 0 =
          newton_evaluate (newton_interpolation_general pts vals)
            (pss.omega_secrets ^ (1 + j)) := by
        have hb1 : j < ((((List.range' 1 (reconstruct_limit pss - 1)).map
            (fun e => pss.omega_secrets ^ e)).map
          (fun point => newton_evaluate
            (newton_interpolation_general pts vals) point)).take
          pss.secret_count).length := by
          rw [List.length_take, List.length_map, List.length_map,
            List.length_range']
          omega
        rw [List.getD_eq_getElem _ _ hb1, List.getElem_take _,
          List.getElem_map, List.getElem_map, List.getElem_range'_1]
      have e2 : ((List.range' 1 pss.secret_count).map
          (fun e => ∑ t ∈ Finset.range (2 ^ l),
            c.getD t 0 * pss.omega_secrets ^ (e * t))).getD j 0 =
          ∑ t ∈ Finset.range (2 ^ l),
            c.getD t 0 * pss.omega_secrets ^ ((1 + j) * t) := by
        rw [getD_map_eq _ _ j (by rw [List.length_range']; exact hjk) 0 0,
          List.getD_eq_getElem _ _ (by rw [List.length_range']; exact hjk),
          List.getElem_range'_1]
      rw [e1, e2, hnewton (pss.omega_secrets ^ (1 + j)), hc]
      apply Finset.sum_congr rfl
      intro t _
      rw [← pow_mul]

/-! ### Packed sharing: share values as polynomial evaluations -/

theorem length_recover_polynomial [Field F] (pss : PackedSecretSharing F)
    (l : ℕ) (hm : pss.threshold + pss.secret_count + 1 = 2 ^ l)
    (secrets randomness : List F)
    (hsec : secrets.length = pss.secret_count)
    (hrand : randomness.length = pss.threshold) :
    (recover_polynomial pss secrets randomness).length = 2 ^ l := by
  unfold recover_polynomial
  rw [length_fft2_inverse, List.length_append, List.length_append,
    List.length_singleton, hsec, hrand]
  omega

theorem recover_polynomial_eval [Field F] (pss : PackedSecretSharing F)
    (l : ℕ) (hm : pss.threshold + pss.secret_count + 1 = 2 ^ l)
    (hws : IsPrimitiveRoot pss.omega_secrets (2 ^ l))
    (secrets randomness : List F)
    (hsec : secrets.length = pss.secret_count)
    (hrand : randomness.length = pss.threshold)
    (r : ℕ) (hr : r < 2 ^ l) :
    ∑ t ∈ Finset.range (2 ^ l),
      (recover_polynomial pss secrets randomness).getD t 0 *
        pss.omega_secrets ^ (r * t) =
      (([0] ++ secrets) ++ randomness).getD r 0 := by
  have hplen := length_recover_polynomial pss l hm secrets randomness hsec hrand
  rw [← fft2_dft _ pss.omega_secrets l hplen hws.pow_eq_one
    (fun hl1 => prim_root_neg_one hws hl1) r hr]
  rw [show recover_polynomial pss secrets randomness =
      fft2_inverse (([0] ++ secrets) ++ randomness) pss.omega_secrets from rfl,
    fft2_inverse_fft2 _ pss.omega_secrets l
      (by rw [List.length_append, List.length_append, List.length_singleton,
        hsec, hrand]; omega) hws]

theorem recover_polynomial_sum_zero [Field F] (pss : PackedSecretSharing F)
    (l : ℕ) (hm : pss.threshold + pss.secret_count + 1 = 2 ^ l)
    (hws : IsPrimitiveRoot pss.omega_secrets (2 ^ l))
    (secrets randomness : List F)
    (hsec : secrets.length = pss.secret_count)
    (hrand : randomness.length = pss.threshold) :
    ∑ t ∈ Finset.range (2 ^ l),
      (recover_polynomial pss secrets randomness).getD t 0 = 0 := by
  have h := recover_polynomial_eval pss l hm hws secrets randomness hsec hrand 0
    (by positivity)
  have h0 : (([0] ++ secrets) ++ randomness).getD 0 0 = 0 := rfl
  have hsimp : ∑ t ∈ Finset.range (2 ^ l),
      (recover_polynomial pss secrets randomness).getD t 0 *
        pss.omega_secrets ^ (0 * t) =
      ∑ t ∈ Finset.range (2 ^ l),
        (recover_polynomial pss secrets randomness).getD t 0 := by
    apply Finset.sum_congr rfl
    intro t _
    rw [Nat.zero_mul, pow_zero, mul_one]
  rw [hsimp, h0] at h
  exact h

/-- Each share produced by `share` is the evaluation of the recovered
polynomial (padded with zeros) at `omega_shares ^ (index + 1)`. -/
theorem share_getD [Field F] (pss : PackedSecretSharing F) (l u : ℕ)
    (hm : pss.threshold + pss.secret_count + 1 = 2 ^ l)
    (hn : pss.share_count + 1 = 3 ^ u)
    (h1 : pss.omega_shares ^ 3 ^ u = 1)
    (hnk : pss.threshold + pss.secret_count ≤ pss.share_count)
    (secrets randomness : List F)
    (hsec : secrets.length = pss.secret_count)
    (hrand : randomness.length = pss.threshold)
    (i : ℕ) (hi : i < pss.share_count) :
    (share pss secrets randomness).getD i 0 =
      ∑ t ∈ Finset.range (2 ^ l),
        (recover_polynomial pss secrets randomness).getD t 0 *
          pss.omega_shares ^ ((i + 1) * t) := by
  have hrleq : reconstruct_limit pss = pss.threshold + pss.secret_count := rfl
  have hplen : (recover_polynomial pss secrets randomness).length = 2 ^ l :=
    length_recover_polynomial pss l hm secrets randomness hsec hrand
  set pc : List F := recover_polynomial pss secrets randomness ++
    List.replicate (pss.share_count - reconstruct_limit pss) (0 : F) with hpc
  have hpclen : pc.length = 3 ^ u := by
    rw [hpc, List.length_append, List.length_replicate, hplen, hrleq]
    omega
  have hshare_eq : share pss secrets randomness =
      (fft3 pc pss.omega_shares).drop 1 := by
    rw [hpc]
    rfl
  have hb : i + 1 < (fft3 pc pss.omega_shares).length := by
    rw [length_fft3, hpclen]
    omega
  have hb' : 1 + i < (fft3 pc pss.omega_shares).length := by
    rw [length_fft3, hpclen]
    omega
  have hval := fft3_dft pc pss.omega_shares u hpclen h1 (1 + i) (by omega)
  rw [List.getD_eq_getElem _ _ hb'] at hval
  rw [hshare_eq,
    List.getD_eq_getElem _ _
      (by rw [List.length_drop, length_fft3, hpclen]; omega),
    List.getElem_drop _, hval,
    show 1 + i = i + 1 from Nat.add_comm 1 i, ← hplen]
  exact sum_append_replicate_zero _ _ _ (by rw [hplen, hrleq]; omega) _

theorem reconstruct_length_slow [Field F] (pss : PackedSecretSharing F)
    (indices : List ℕ) (shares : List F)
    (hne : ¬ shares.length = pss.share_count) :
    (reconstruct pss indices shares).length =
      min pss.secret_count (reconstruct_limit pss - 1) := by
  simp only [reconstruct, List.singleton_append]
  rw [if_neg hne, List.length_take, List.length_map, List.length_map,
    List.length_range']

theorem getD_zipWith_add [Field F] (A B : List F) (t : ℕ)
    (hA : t < A.length) (hB : t < B.length) :
    (List.zipWith (· + ·) A B).getD t 0 = A.getD t 0 + B.getD t 0 := by
  rw [List.getD_eq_getElem _ _ (by rw [List.length_zipWith]; omega),
    List.getElem_zipWith, List.getD_eq_getElem _ _ hA,
    List.getD_eq_getElem _ _ hB]

/-! ### C1: the packed round trip -/

/-- C1: packed round-trip correctness, corrected.  The claim's stated
invariants (`m = t+k+1` a power of 2, `n+1` a power of 3, primitive roots of
those orders, `n ≥ t+k`, distinct in-range indices, at least `t+k` of them)
do not suffice: reconstruction additionally requires `threshold ≥ 1` —
with `t = 0` the interpolation path evaluates at only `t+k-1` points and
`take secret_count` returns one value short (see the counterexample) — and
the indices must be given in increasing order, because the FFT path taken
when all `n` shares are supplied ignores `indices` entirely and assumes the
shares are listed in rank order. -/
theorem packed_roundtrip [Field F] (pss : PackedSecretSharing F) (l u : ℕ)
    (hm : pss.threshold + pss.secret_count + 1 = 2 ^ l)
    (hn : pss.share_count + 1 = 3 ^ u)
    (hws : IsPrimitiveRoot pss.omega_secrets (2 ^ l))
    (hwh : IsPrimitiveRoot pss.omega_shares (3 ^ u))
    (hnk : pss.threshold + pss.secret_count ≤ pss.share_count)
    (ht : 1 ≤ pss.threshold)
    (secrets : List F) (hsec : secrets.length = pss.secret_count)
    (randomness : List F) (hrand : randomness.length = pss.threshold)
    (indices : List ℕ)
    (hsorted : List.Pairwise (· < ·) indices)
    (hilen : reconstruct_limit pss ≤ indices.length)
    (hidx : ∀ i ∈ indices, i < pss.share_count) :
    reconstruct pss indices
      (indices.map (fun i => (share pss secrets randomness).getD i 0)) =
      secrets := by
  set poly := recover_polynomial pss secrets randomness with hpoly
  have hplen : poly.length = 2 ^ l := by
    rw [hpoly]
    exact length_recover_polynomial pss l hm secrets randomness hsec hrand
  have hz : ∑ t ∈ Finset.range (2 ^ l), poly.getD t 0 = 0 := by
    rw [hpoly]
    exact recover_polynomial_sum_zero pss l hm hws secrets randomness hsec hrand
  have hidxD : ∀ j, j < indices.length →
      indices.getD j 0 < pss.share_count := by
    intro j hj
    apply hidx
    rw [List.getD_eq_getElem _ _ hj]
    exact List.getElem_mem _
  have hsval : ∀ j, j < indices.length →
      (indices.map (fun i => (share pss secrets randomness).getD i 0)).getD j 0 =
        ∑ t ∈ Finset.range (2 ^ l),
          poly.getD t 0 * pss.omega_shares ^ ((indices.getD j 0 + 1) * t) := by
    intro j hj
    rw [getD_map_eq _ _ j hj 0 0, hpoly]
    exact share_getD pss l u hm hn hwh.pow_eq_one hnk secrets randomness hsec
      hrand _ (hidxD j hj)
  rw [reconstruct_core pss l u hm hn hws hwh hnk ht poly hplen hz indices
    hsorted hilen hidx _ (by rw [List.length_map]) hsval]
  apply list_ext_getD _ _ (0 : F)
  · rw [List.length_map, List.length_range', hsec]
  · intro j hj
    rw [List.length_map, List.length_range'] at hj
    have e1 : ((List.range' 1 pss.secret_count).map
        (fun e => ∑ t ∈ Finset.range (2 ^ l),
          poly.getD t 0 * pss.omega_secrets ^ (e * t))).getD j 0 =
        ∑ t ∈ Finset.range (2 ^ l),
          poly.getD t 0 * pss.omega_secrets ^ ((1 + j) * t) := by
      rw [getD_map_eq _ _ j (by rw [List.length_range']; exact hj) 0 0,
        List.getD_eq_getElem _ _ (by rw [List.length_range']; exact hj),
        List.getElem_range'_1]
    rw [e1, hpoly,
      recover_polynomial_eval pss l hm hws secrets randomness hsec hrand
        (1 + j) (by omega),
      show 1 + j = j + 1 from Nat.add_comm 1 j]
    show (secrets ++ randomness).getD j 0 = secrets.getD j 0
    exact getD_append_left _ _ _ _ (by rw [hsec]; exact hj)

set_option maxRecDepth 8000 in
theorem packed_roundtrip_witness :
    reconstruct PSS_4_8_3 [0, 1, 2, 3, 4, 5, 6]
      ([0, 1, 2, 3, 4, 5, 6].map (fun i =>
        (share PSS_4_8_3 [1, 2, 3] [4, 5, 6, 7]).getD i 0)) = [1, 2, 3] :=
  packed_roundtrip PSS_4_8_3 3 2 rfl rfl
    (isPrimitiveRoot_prime_pow (by norm_num) (by norm_num) (by decide)
      (by decide))
    (isPrimitiveRoot_prime_pow (by norm_num) (by norm_num) (by decide)
      (by decide))
    (by decide) (by decide) [1, 2, 3] rfl [4, 5, 6, 7] rfl
    [0, 1, 2, 3, 4, 5, 6] (by decide) (by decide) (by decide)

instance fact_prime_37 : Fact (Nat.Prime 37) := ⟨by norm_num⟩

/-- A packed configuration with `threshold = 0` over `Z_37`: `m = 4 = 2^2`,
`n + 1 = 9 = 3^2`, `6` has order 4 and `16` has order 9 modulo 37. -/
def pss37 : PackedSecretSharing (ZMod 37) := ⟨0, 8, 3, 6, 16⟩

/-- Counterexample to C1 as stated: the threshold-0 configuration `pss37`
satisfies every invariant listed in the claim, the indices `0, 1, 2` are
distinct, in range and `|indices| = t + k = 3`, yet `reconstruct` on the
interpolation path evaluates at only `t + k - 1 = 2` points and returns a
2-element list, not the 3 original secrets. -/
theorem packed_roundtrip_cex :
    pss37.threshold + pss37.secret_count + 1 = 2 ^ 2 ∧
    pss37.share_count + 1 = 3 ^ 2 ∧
    IsPrimitiveRoot pss37.omega_secrets (2 ^ 2) ∧
    IsPrimitiveRoot pss37.omega_shares (3 ^ 2) ∧
    pss37.threshold + pss37.secret_count ≤ pss37.share_count ∧
    List.Pairwise (· < ·) ([0, 1, 2] : List ℕ) ∧
    reconstruct_limit pss37 ≤ ([0, 1, 2] : List ℕ).length ∧
    (∀ i ∈ ([0, 1, 2] : List ℕ), i < pss37.share_count) ∧
    reconstruct pss37 [0, 1, 2]
      ([0, 1, 2].map (fun i => (share pss37 [1, 2, 3] []).getD i 0)) ≠
      [1, 2, 3] := by
  refine ⟨rfl, rfl, ?_, ?_, by decide, by decide, by decide, by decide, ?_⟩
  · exact isPrimitiveRoot_prime_pow (by norm_num) (by norm_num) (by decide)
      (by decide)
  · exact isPrimitiveRoot_prime_pow (by norm_num) (by norm_num) (by decide)
      (by decide)
  · intro h
    have hL := congrArg List.length h
    rw [reconstruct_length_slow _ _ _
      (by rw [List.length_map]; decide)] at hL
    revert hL
    decide

/-! ### C4: the additive homomorphism -/

/-- C4: additive homomorphism of packed sharing, corrected.  Pointwise sums
of two share vectors reconstruct to the pointwise sum of the secret
vectors, but — exactly as for the round trip itself — this additionally
requires `threshold ≥ 1` (with `t = 0` the interpolation path returns one
value short, see the counterexample) and increasing indices (the FFT path
taken when all `n` summed shares are supplied ignores `indices`). -/
theorem packed_homomorphic [Field F] (pss : PackedSecretSharing F) (l u : ℕ)
    (hm : pss.threshold + pss.secret_count + 1 = 2 ^ l)
    (hn : pss.share_count + 1 = 3 ^ u)
    (hws : IsPrimitiveRoot pss.omega_secrets (2 ^ l))
    (hwh : IsPrimitiveRoot pss.omega_shares (3 ^ u))
    (hnk : pss.threshold + pss.secret_count ≤ pss.share_count)
    (ht : 1 ≤ pss.threshold)
    (secrets₁ : List F) (hsec₁ : secrets₁.length = pss.secret_count)
    (randomness₁ : List F) (hrand₁ : randomness₁.length = pss.threshold)
    (secrets₂ : List F) (hsec₂ : secrets₂.length = pss.secret_count)
    (randomness₂ : List F) (hrand₂ : randomness₂.length = pss.threshold)
    (indices : List ℕ)
    (hsorted : List.Pairwise (· < ·) indices)
    (hilen : reconstruct_limit pss ≤ indices.length)
    (hidx : ∀ i ∈ indices, i < pss.share_count) :
    reconstruct pss indices
      (indices.map (fun i =>
        (List.zipWith (· + ·) (share pss secrets₁ randomness₁)
          (share pss secrets₂ randomness₂)).getD i 0)) =
      List.zipWith (· + ·) secrets₁ secrets₂ := by
  have hrleq : reconstruct_limit pss = pss.threshold + pss.secret_count := rfl
  set poly₁ := recover_polynomial pss secrets₁ randomness₁ with hpoly₁
  set poly₂ := recover_polynomial pss secrets₂ randomness₂ with hpoly₂
  have hplen₁ : poly₁.length = 2 ^ l := by
    rw [hpoly₁]
    exact length_recover_polynomial pss l hm secrets₁ randomness₁ hsec₁ hrand₁
  have hplen₂ : poly₂.length = 2 ^ l := by
    rw [hpoly₂]
    exact length_recover_polynomial pss l hm secrets₂ randomness₂ hsec₂ hrand₂
  set pc : List F := List.zipWith (· + ·) poly₁ poly₂ with hpcs
  have hpclen : pc.length = 2 ^ l := by
    rw [hpcs, List.length_zipWith, hplen₁, hplen₂]
    omega
  have hpcgetD : ∀ t, t < 2 ^ l → pc.getD t 0 =
      poly₁.getD t 0 + poly₂.getD t 0 := by
    intro t htl
    rw [hpcs]
    exact getD_zipWith_add _ _ t (by rw [hplen₁]; omega) (by rw [hplen₂]; omega)
  have hz₁ : ∑ t ∈ Finset.range (2 ^ l), poly₁.getD t 0 = 0 := by
    rw [hpoly₁]
    exact recover_polynomial_sum_zero pss l hm hws secrets₁ randomness₁ hsec₁
      hrand₁
  have hz₂ : ∑ t ∈ Finset.range (2 ^ l), poly₂.getD t 0 = 0 := by
    rw [hpoly₂]
    exact recover_polynomial_sum_zero pss l hm hws secrets₂ randomness₂ hsec₂
      hrand₂
  have hz : ∑ t ∈ Finset.range (2 ^ l), pc.getD t 0 = 0 := by
    have hsplit : ∑ t ∈ Finset.range (2 ^ l), pc.getD t 0 =
        ∑ t ∈ Finset.range (2 ^ l),
          (poly₁.getD t 0 + poly₂.getD t 0) := by
      apply Finset.sum_congr rfl
      intro t htm
      exact hpcgetD t (Finset.mem_range.mp htm)
    rw [hsplit, Finset.sum_add_distrib, hz₁, hz₂, add_zero]
  have hidxD : ∀ j, j < indices.length →
      indices.getD j 0 < pss.share_count := by
    intro j hj
    apply hidx
    rw [List.getD_eq_getElem _ _ hj]
    exact List.getElem_mem _
  have hshlen₁ : (share pss secrets₁ randomness₁).length = pss.share_count :=
    length_share pss _ _ hsec₁ hrand₁ (by rw [hrleq]; exact hnk)
  have hshlen₂ : (share pss secrets₂ randomness₂).length = pss.share_count :=
    length_share pss _ _ hsec₂ hrand₂ (by rw [hrleq]; exact hnk)
  have hsval : ∀ j, j < indices.length →
      (indices.map (fun i =>
        (List.zipWith (· + ·) (share pss secrets₁ randomness₁)
          (share pss secrets₂ randomness₂)).getD i 0)).getD j 0 =
        ∑ t ∈ Finset.range (2 ^ l),
          pc.getD t 0 * pss.omega_shares ^ ((indices.getD j 0 + 1) * t) := by
    intro j hj
    rw [getD_map_eq _ _ j hj 0 0,
      getD_zipWith_add _ _ _ (by rw [hshlen₁]; exact hidxD j hj)
        (by rw [hshlen₂]; exact hidxD j hj),
      share_getD pss l u hm hn hwh.pow_eq_one hnk secrets₁ randomness₁ hsec₁
        hrand₁ _ (hidxD j hj),
      share_getD pss l u hm hn hwh.pow_eq_one hnk secrets₂ randomness₂ hsec₂
        hrand₂ _ (hidxD j hj),
      ← Finset.sum_add_distrib]
    apply Finset.sum_congr rfl
    intro t htm
    rw [hpcgetD t (Finset.mem_range.mp htm), hpoly₁, hpoly₂]
    ring
  rw [reconstruct_core pss l u hm hn hws hwh hnk ht pc hpclen hz indices
    hsorted hilen hidx _ (by rw [List.length_map]) hsval]
  apply list_ext_getD _ _ (0 : F)
  · rw [List.length_map, List.length_range', List.length_zipWith, hsec₁,
      hsec₂]
    omega
  · intro j hj
    rw [List.length_map, List.length_range'] at hj
    have e1 : ((List.range' 1 pss.secret_count).map
        (fun e => ∑ t ∈ Finset.range (2 ^ l),
          pc.getD t 0 * pss.omega_secrets ^ (e * t))).getD j 0 =
        ∑ t ∈ Finset.range (2 ^ l),
          pc.getD t 0 * pss.omega_secrets ^ ((1 + j) * t) := by
      rw [getD_map_eq _ _ j (by rw [List.length_range']; exact hj) 0 0,
        List.getD_eq_getElem _ _ (by rw [List.length_range']; exact hj),
        List.getElem_range'_1]
    have hsplitj : ∑ t ∈ Finset.range (2 ^ l),
        pc.getD t 0 * pss.omega_secrets ^ ((1 + j) * t) =
        (∑ t ∈ Finset.range (2 ^ l),
          poly₁.getD t 0 * pss.omega_secrets ^ ((1 + j) * t)) +
        ∑ t ∈ Finset.range (2 ^ l),
          poly₂.getD t 0 * pss.omega_secrets ^ ((1 + j) * t) := by
      rw [← Finset.sum_add_distrib]
      apply Finset.sum_congr rfl
      intro t htm
      rw [hpcgetD t (Finset.mem_range.mp htm)]
      ring
    rw [e1, hsplitj, hpoly₁, hpoly₂,
      recover_polynomial_eval pss l hm hws secrets₁ randomness₁ hsec₁ hrand₁
        (1 + j) (by omega),
      recover_polynomial_eval pss l hm hws secrets₂ randomness₂ hsec₂ hrand₂
        (1 + j) (by omega),
      show 1 + j = j + 1 from Nat.add_comm 1 j,
      getD_zipWith_add _ _ j (by rw [hsec₁]; exact hj)
        (by rw [hsec₂]; exact hj)]
    show (secrets₁ ++ randomness₁).getD j 0 +
        (secrets₂ ++ randomness₂).getD j 0 = _
    rw [getD_append_left _ _ _ _ (by rw [hsec₁]; exact hj),
      getD_append_left _ _ _ _ (by rw [hsec₂]; exact hj)]

set_option maxRecDepth 8000 in
theorem packed_homomorphic_witness :
    reconstruct PSS_4_8_3 [0, 1, 2, 3, 4, 5, 6, 7]
      ([0, 1, 2, 3, 4, 5, 6, 7].map (fun i =>
        (List.zipWith (· + ·) (share PSS_4_8_3 [1, 2, 3] [4, 5, 6, 7])
          (share PSS_4_8_3 [3, 2, 1] [1, 1, 1, 1])).getD i 0)) =
      List.zipWith (· + ·) [1, 2, 3] [3, 2, 1] :=
  packed_homomorphic PSS_4_8_3 3 2 rfl rfl
    (isPrimitiveRoot_prime_pow (by norm_num) (by norm_num) (by decide)
      (by decide))
    (isPrimitiveRoot_prime_pow (by norm_num) (by norm_num) (by decide)
      (by decide))
    (by decide) (by decide) [1, 2, 3] rfl [4, 5, 6, 7] rfl
    [3, 2, 1] rfl [1, 1, 1, 1] rfl
    [0, 1, 2, 3, 4, 5, 6, 7] (by decide) (by decide) (by decide)

/-- Counterexample to C4 as stated: with the valid threshold-0
configuration `pss37`, summing two full sharings pointwise and
reconstructing from the `t + k = 3` distinct in-range indices `0, 1, 2`
returns a 2-element list on the interpolation path, not the 3 pointwise
sums of the secrets. -/
theorem packed_homomorphic_cex :
    pss37.threshold + pss37.secret_count + 1 = 2 ^ 2 ∧
    pss37.share_count + 1 = 3 ^ 2 ∧
    IsPrimitiveRoot pss37.omega_secrets (2 ^ 2) ∧
    IsPrimitiveRoot pss37.omega_shares (3 ^ 2) ∧
    pss37.threshold + pss37.secret_count ≤ pss37.share_count ∧
    reconstruct_limit pss37 ≤ ([0, 1, 2] : List ℕ).length ∧
    reconstruct pss37 [0, 1, 2]
      ([0, 1, 2].map (fun i =>
        (List.zipWith (· + ·) (share pss37 [1, 1, 1] [])
          (share pss37 [2, 2, 2] [])).getD i 0)) ≠
      List.zipWith (· + ·) [1, 1, 1] [2, 2, 2] := by
  refine ⟨rfl, rfl, ?_, ?_, by decide, by decide, ?_⟩
  · exact isPrimitiveRoot_prime_pow (by norm_num) (by norm_num) (by decide)
      (by decide)
  · exact isPrimitiveRoot_prime_pow (by norm_num) (by norm_num) (by decide)
      (by decide)
  · intro h
    have hL := congrArg List.length h
    rw [reconstruct_length_slow _ _ _
      (by rw [List.length_map]; decide)] at hL
    revert hL
    decide

end TSS
